import Mathlib

/-! NewVerbTk1 spectral processor: frame scheduling, effect stage and overlap-add.

A shallow embedding of `PluginProcessor.cpp` / `PluginProcessor.h`.

* The definitions are written once, over any scalar type `K` that has the operations the
  source uses on `float` (literals, `+ - * /`, unary minus, `<`, the casts from and to
  `int`). They are read in two ways: over a linearly ordered field with a floor function
  (exact arithmetic: no rounding, no overflow; `ℚ` for evaluation), and over `F32`, the
  binary32 numbers with round-to-nearest, overflow to an infinity, and NaN.
* `juce::AudioBuffer<float>` and `std::vector<...>` are arrays; an entry is read with
  `Array.getD` and written with `Array.setD`, so an index outside the array (which the
  source never uses) reads as zero and is not written.
* The window table, the two JUCE transforms, `std::sin` and the millisecond clock are
  not part of the repository's code and appear as the fields of `Env` and as the
  argument `ms`.
-/

namespace NewVerbTk1

/-! ## Definitions -/

/-- `static constexpr int fftOrder = 12;` -/
def fftOrder : Nat := 12

/-- `static constexpr int fftSize = 1 << fftOrder;` -/
def fftSize : Nat := 1 <<< fftOrder

/-- `static constexpr int hopSize = fftSize / 4;` -/
def hopSize : Nat := fftSize / 4

/-- `const int numBins = fftSize / 2;` in `applySpectralProcessing`. -/
def numBins : Nat := fftSize / 2

/-- `std::complex<float>`: a real and an imaginary part. -/
structure Cx (K : Type) where
  re : K
  im : K
deriving DecidableEq

namespace Cx

variable {K : Type} [Zero K] [Add K] [Neg K] [Mul K]

/-- `std::complex<float>(0.0f, 0.0f)` -/
def zero : Cx K := ⟨0, 0⟩

/-- `operator+` of two complex values. -/
def add (a b : Cx K) : Cx K := ⟨a.re + b.re, a.im + b.im⟩

/-- `operator*` of a complex value and a real scalar. -/
def scale (a : Cx K) (s : K) : Cx K := ⟨a.re * s, a.im * s⟩

/-- `std::conj` -/
def conj (a : Cx K) : Cx K := ⟨a.re, -a.im⟩

end Cx

/-- The nine parameter values that `processBlock` loads into the member scalars. -/
structure Params (K : Type) where
  wetDry : K
  time : K
  density : K
  damping : K
  size : K
  lowBand : K
  midBand : K
  highBand : K
  freeze : Bool

/-- What the processor uses but the repository does not define: the window table filled by
the constructor (`windowBuffer`), the in-place JUCE transforms on a buffer of `2 * fftSize`
floats, and `std::sin`. -/
structure Env (K : Type) where
  windowBuffer : Nat → K
  performRealOnlyForwardTransform : Array K → Array K
  performRealOnlyInverseTransform : Array K → Array K
  sin : K → K

/-- The members of `NewVerbTk1AudioProcessor` that `processBlock` reads and writes.
The two audio buffers are indexed by channel, then by sample index. -/
structure State (K : Type) where
  fftInputBuffer : Array (Array K)
  fftOutputBuffer : Array (Array K)
  fftTimeDomainBuffer : Array (Cx K)
  fftFrequencyDomainBuffer : Array (Cx K)
  fifoIndex : Nat
  nextFFTBlockReady : Bool

/-- `static_cast<int>` for a scalar type, as a natural number: the source only uses the
result as a count under the guard `spreadAmount > 0`, so a result that is not positive is
0. -/
class Truncate (K : Type) where
  toNat : K → Nat

/-- In exact arithmetic the truncation of a value that is not negative is its floor. -/
instance Truncate.ofFloor {K : Type} [LinearOrderedField K] [FloorRing K] : Truncate K :=
  ⟨Nat.floor⟩

section Scalar

variable {K : Type} [Zero K] [One K] [NatCast K] [OfScientific K] [Add K] [Sub K] [Neg K]
  [Mul K] [Div K] [LT K] [DecidableRel (fun a b : K => a < b)] [Truncate K]

/-- A vector of `n` entries filled by a loop `for (i = 0; i < n; ++i) v[i] = f i`. -/
def tabulate {α : Type} (n : Nat) (f : Nat → α) : Array α :=
  Array.ofFn (fun (i : Fin n) => f i.val)

/-- Entry `i` of a frame of complex bins, `fftData[i]`. -/
def bin (fftData : Array (Cx K)) (i : Nat) : Cx K := fftData.getD i Cx.zero

/-- `juce::AudioBuffer<float>::getSample (channel, index)` -/
def getSample (buf : Array (Array K)) (channel index : Nat) : K :=
  (buf.getD channel #[]).getD index 0

/-- `juce::AudioBuffer<float>::setSample (channel, index, value)` -/
def setSample (buf : Array (Array K)) (channel index : Nat) (v : K) : Array (Array K) :=
  buf.setD channel ((buf.getD channel #[]).setD index v)

/-- `prepareToPlay`: both buffers get 2 channels of `fftSize * 2` samples and are cleared,
the cursor is 0 and the ready flag is false. -/
def prepareToPlay (st : State K) : State K :=
  { st with
    fftInputBuffer := mkArray 2 (mkArray (fftSize * 2) 0)
    fftOutputBuffer := mkArray 2 (mkArray (fftSize * 2) 0)
    fifoIndex := 0
    nextFFTBlockReady := false }

/-! ### The effect stage (`applySpectralProcessing`) -/

/-- `const float lowCutoff = numBins * 0.1f;` -/
def lowCutoff : K := (numBins : K) * 0.1

/-- `const float midCutoff = numBins * 0.4f;` -/
def midCutoff : K := (numBins : K) * 0.4

/-- The band gain selected for bin `i` (lines 307-314). -/
def bandMultiplier (P : Params K) (i : Nat) : K :=
  if (i : K) < lowCutoff then P.lowBand
  else if (i : K) < midCutoff then P.midBand
  else P.highBand

/-- `float spreadFactor = (spreadAmount - j + 1) / static_cast<float>(spreadAmount + 1);` -/
def spreadFactor (spreadAmount j : Nat) : K :=
  ((spreadAmount - j + 1 : Nat) : K) / ((spreadAmount + 1 : Nat) : K)

/-- One iteration of the spread loop: `fftData[i + j] += fftData[i] * spreadFactor * 0.3f;` -/
def spreadStep (spreadAmount i : Nat) (fftData : Array (Cx K)) (j : Nat) : Array (Cx K) :=
  fftData.setD (i + j)
    ((bin fftData (i + j)).add (((bin fftData i).scale (spreadFactor spreadAmount j)).scale 0.3))

/-- The loop `for (int j = 1; j <= spreadAmount; ++j)` (lines 329-334). -/
def spreadLoop (spreadAmount i : Nat) (fftData : Array (Cx K)) : Array (Cx K) :=
  (List.range' 1 spreadAmount).foldl (spreadStep spreadAmount i) fftData

/-- `int spreadAmount = static_cast<int>(size * 10.0f);` -/
def spreadAmountOf (P : Params K) : Nat := Truncate.toNat (P.size * 10)

/-- The spreading block guarded by `size > 0.01f` (lines 324-336). -/
def spread (P : Params K) (i : Nat) (fftData : Array (Cx K)) : Array (Cx K) :=
  if P.size > 0.01 then
    if 0 < spreadAmountOf P ∧ i + spreadAmountOf P < numBins then
      spreadLoop (spreadAmountOf P) i fftData
    else fftData
  else fftData

/-- `float decayFactor = 1.0f - (1.0f / (time * 10.0f + 1.0f));` -/
def decayFactor (P : Params K) : K := 1 - 1 / (P.time * 10 + 1)

/-- `juce::jmax (a, b)`, which is `a < b ? b : a`. -/
def jmax (a b : K) : K := if a < b then b else a

/-- `dampingFactor = juce::jmax (0.01f, 1.0f - (damping * float(i) / float(numBins)))` -/
def dampingFactor (P : Params K) (i : Nat) : K :=
  jmax 0.01 (1 - P.damping * (i : K) / (numBins : K))

/-- `0.5f + 0.5f * std::sin (i * 0.3f + getMillisecondCounter() * 0.001f)`, with `ms` the
clock value read while bin `i` is processed. -/
def random (E : Env K) (ms : Nat → K) (i : Nat) : K :=
  0.5 + 0.5 * E.sin ((i : K) * 0.3 + ms i * 0.001)

/-- The density factor (lines 346-351). -/
def densityFactor (E : Env K) (P : Params K) (ms : Nat → K) (i : Nat) : K :=
  if P.density > 0.01 then 1 - P.density * 0.3 * random E ms i else 1

/-- `bandMultiplier * decayFactor * dampingFactor * densityFactor` -/
def finalMultiplier (E : Env K) (P : Params K) (ms : Nat → K) (i : Nat) : K :=
  bandMultiplier P i * decayFactor P * dampingFactor P i * densityFactor E P ms i

/-- The body of the bin loop for bin `i` (lines 306-361). `mag` and `phase` are computed
by the source but never used. -/
def processBin (E : Env K) (P : Params K) (ms : Nat → K) (fftData : Array (Cx K))
    (i : Nat) : Array (Cx K) :=
  if P.freeze then fftData
  else
    let d1 := spread P i fftData
    let d2 := d1.setD i ((bin d1 i).scale (finalMultiplier E P ms i))
    d2.setD (fftSize - i) (bin d2 i).conj

/-- `applySpectralProcessing`: the loop `for (int i = 1; i < numBins; ++i)`. -/
def applySpectralProcessing (E : Env K) (P : Params K) (ms : Nat → K)
    (fftData : Array (Cx K)) : Array (Cx K) :=
  (List.range' 1 (numBins - 1)).foldl (processBin E P ms) fftData

/-! ### One pushed sample (the body of the sample loop of `processBlock`) -/

/-- Lines 191-201: store the sample at the cursor, raise the ready flag when the cursor
(before it moves) is at least `hopSize`, then move the cursor. -/
def advance (channel : Nat) (st : State K) (x : K) : State K :=
  { st with
    fftInputBuffer := setSample st.fftInputBuffer channel st.fifoIndex x
    nextFFTBlockReady := if hopSize ≤ st.fifoIndex then true else st.nextFFTBlockReady
    fifoIndex := (st.fifoIndex + 1) % fftSize }

/-- The two nested conditions of lines 204-207, tested after the cursor has moved. -/
def frameDue (st : State K) : Bool :=
  decide (st.fifoIndex % hopSize = 0) && st.nextFFTBlockReady

/-- Lines 210-215: the windowed frame read from the input ring, starting at the cursor. -/
def windowedFrame (E : Env K) (channel : Nat) (st : State K) : Array (Cx K) :=
  tabulate fftSize (fun i =>
    ⟨getSample st.fftInputBuffer channel ((st.fifoIndex + i) % fftSize) * E.windowBuffer i, 0⟩)

/-- Lines 218-225: the interleaved transform buffer holding the real parts. -/
def packReal (td : Array (Cx K)) : Array K :=
  tabulate (fftSize * 2) (fun j => if j % 2 = 0 then (bin td (j / 2)).re else 0)

/-- Lines 231-234: read the transform buffer back as complex bins. -/
def unpack (buf : Array K) : Array (Cx K) :=
  tabulate fftSize (fun i => ⟨buf.getD (i * 2) 0, buf.getD (i * 2 + 1) 0⟩)

/-- Lines 240-247: the interleaved buffer holding real and imaginary parts. -/
def packComplex (fd : Array (Cx K)) : Array K :=
  tabulate (fftSize * 2)
    (fun j => if j % 2 = 0 then (bin fd (j / 2)).re else (bin fd (j / 2)).im)

/-- Lines 253-256: the real parts of the inverse transform, as complex values. -/
def unpackReal (buf : Array K) : Array (Cx K) :=
  tabulate fftSize (fun i => ⟨buf.getD (i * 2) 0, 0⟩)

/-- Lines 217-234: the forward transform of a time-domain frame. -/
def forward (E : Env K) (td : Array (Cx K)) : Array (Cx K) :=
  unpack (E.performRealOnlyForwardTransform (packReal td))

/-- Lines 239-256: the inverse transform of a frequency-domain frame. -/
def inverse (E : Env K) (fd : Array (Cx K)) : Array (Cx K) :=
  unpackReal (E.performRealOnlyInverseTransform (packComplex fd))

/-- One iteration of the overlap-add loop (lines 261-266). -/
def overlapAddStep (E : Env K) (channel cursor : Nat) (td : Array (Cx K))
    (buf : Array (Array K)) (i : Nat) : Array (Array K) :=
  setSample buf channel ((cursor + i) % fftSize)
    (getSample buf channel ((cursor + i) % fftSize)
      + (bin td i).re * E.windowBuffer i / ((fftSize : K) / 2))

/-- The overlap-add loop `for (int i = 0; i < fftSize; ++i)` (lines 259-267). -/
def overlapAdd (E : Env K) (channel cursor : Nat) (td : Array (Cx K))
    (buf : Array (Array K)) : Array (Array K) :=
  (List.range fftSize).foldl (overlapAddStep E channel cursor td) buf

/-- Lines 209-269: extract, transform, process, transform back, overlap-add, and lower
the ready flag. -/
def processFrame (E : Env K) (P : Params K) (ms : Nat → K) (channel : Nat) (st : State K) :
    State K :=
  let td := windowedFrame E channel st
  let fd := applySpectralProcessing E P ms (forward E td)
  let td2 := inverse E fd
  { st with
    fftTimeDomainBuffer := td2
    fftFrequencyDomainBuffer := fd
    fftOutputBuffer := overlapAdd E channel st.fifoIndex td2 st.fftOutputBuffer
    nextFFTBlockReady := false }

/-- The state after lines 191-271, before the output sample is read. -/
def beforeDrain (E : Env K) (P : Params K) (ms : Nat → K) (channel : Nat) (st : State K)
    (x : K) : State K :=
  if frameDue (advance channel st x) then processFrame E P ms channel (advance channel st x)
  else advance channel st x

/-- Lines 273-277: read the output ring at the cursor and clear that cell. -/
def drain (channel : Nat) (st : State K) : State K × K :=
  ({ st with fftOutputBuffer := setSample st.fftOutputBuffer channel st.fifoIndex 0 },
    getSample st.fftOutputBuffer channel st.fifoIndex)

/-- The body of the sample loop (lines 188-278): the new state and `outputData[sample]`. -/
def pushSample (E : Env K) (P : Params K) (ms : Nat → K) (channel : Nat) (st : State K)
    (x : K) : State K × K :=
  drain channel (beforeDrain E P ms channel st x)

/-! ### `processBlock` -/

/-- The sample loop of one channel, from sample index `s` on. `ms channel s` is the clock
seen by a frame processed at that sample. -/
def processSamples (E : Env K) (P : Params K) (ms : Nat → Nat → Nat → K) (channel : Nat) :
    Nat → State K → List K → State K × List K
  | _, st, [] => (st, [])
  | s, st, x :: xs =>
    let r := pushSample E P (ms channel s) channel st x
    let r2 := processSamples E P ms channel (s + 1) r.1 xs
    (r2.1, r.2 :: r2.2)

/-- The channel loop (line 182), from channel index `channel` on. -/
def processChannels (E : Env K) (P : Params K) (ms : Nat → Nat → Nat → K) :
    Nat → State K → List (List K) → State K × List (List K)
  | _, st, [] => (st, [])
  | channel, st, c :: cs =>
    let r := processSamples E P ms channel 0 st c
    let r2 := processChannels E P ms (channel + 1) r.1 cs
    (r2.1, r.2 :: r2.2)

/-- The wet/dry mix of one sample (line 289). -/
def mix (P : Params K) (dry wet : K) : K := (1 - P.wetDry) * dry + P.wetDry * wet

/-- `processBlock` on a buffer given as the list of its input channels. -/
def processBlock (E : Env K) (P : Params K) (ms : Nat → Nat → Nat → K) (st : State K)
    (buffer : List (List K)) : State K × List (List K) :=
  let r := processChannels E P ms 0 st buffer
  (r.1, List.zipWith (fun dry wet => List.zipWith (mix P) dry wet) buffer r.2)

/-! ### Single-channel streams -/

/-- The state after `k` samples `x 0, ..., x (k-1)` have been pushed on channel 0, starting
from the prepared state; push `j` (counting from 0) runs with parameters `params j` and
clock `ms j`. -/
def streamState (E : Env K) (params : Nat → Params K) (ms : Nat → Nat → K) (st0 : State K)
    (x : Nat → K) (k : Nat) : State K :=
  (List.range k).foldl (fun st j => (pushSample E (params j) (ms j) 0 st (x j)).1)
    (prepareToPlay st0)

/-- The state of the stream inside the `k`-th push (counting from 1), right after the
cursor has moved. -/
def streamAdvanced (E : Env K) (params : Nat → Params K) (ms : Nat → Nat → K)
    (st0 : State K) (x : Nat → K) (k : Nat) : State K :=
  advance 0 (streamState E params ms st0 x (k - 1)) (x (k - 1))

/-- Whether the `k`-th push (counting from 1) extracts a frame. -/
def extractsAt (E : Env K) (params : Nat → Params K) (ms : Nat → Nat → K) (st0 : State K)
    (x : Nat → K) (k : Nat) : Bool :=
  decide (0 < k) && frameDue (streamAdvanced E params ms st0 x k)

/-- The sample that the reconstructor emits at the `k`-th push (counting from 1). -/
def streamWet (E : Env K) (params : Nat → Params K) (ms : Nat → Nat → K) (st0 : State K)
    (x : Nat → K) (k : Nat) : K :=
  (pushSample E (params (k - 1)) (ms (k - 1)) 0 (streamState E params ms st0 x (k - 1))
    (x (k - 1))).2

/-- Output sample `t` (counting from 0) of the stream after the wet/dry mix. -/
def streamOutput (E : Env K) (params : Nat → Params K) (ms : Nat → Nat → K) (st0 : State K)
    (x : Nat → K) (t : Nat) : K :=
  mix (params t) (x t) (streamWet E params ms st0 x (t + 1))

/-! ### Quantities used in the statements -/

/-- The frame after the bin loop has processed bins `1, ..., n`. -/
def binsUpTo (E : Env K) (P : Params K) (ms : Nat → K) (fftData : Array (Cx K)) (n : Nat) :
    Array (Cx K) :=
  (List.range' 1 n).foldl (processBin E P ms) fftData

/-- The time-domain frame that the `k`-th push (counting from 1) hands to the overlap-add
loop when it extracts a frame. -/
def synthFrame (E : Env K) (params : Nat → Params K) (ms : Nat → Nat → K) (st0 : State K)
    (x : Nat → K) (k : Nat) : Array (Cx K) :=
  (processFrame E (params (k - 1)) (ms (k - 1)) 0
    (streamAdvanced E params ms st0 x k)).fftTimeDomainBuffer

/-- What the `k`-th push adds to the output ring at offset `i` from its cursor: the
overlap-add term when the push extracts a frame, nothing otherwise. -/
def addend (E : Env K) (params : Nat → Params K) (ms : Nat → Nat → K) (st0 : State K)
    (x : Nat → K) (k i : Nat) : K :=
  if extractsAt E params ms st0 x k then
    (bin (synthFrame E params ms st0 x k) i).re * E.windowBuffer i / ((fftSize : K) / 2)
  else 0

end Scalar

section Exact

variable {K : Type} [LinearOrderedField K] [FloorRing K]

/-- The sum of the overlap-add terms that are still waiting, after `k` pushes, in the cell
at offset `m` from the cursor. -/
def pending (E : Env K) (params : Nat → Params K) (ms : Nat → Nat → K) (st0 : State K)
    (x : Nat → K) (k m : Nat) : K :=
  ∑ d in Finset.range (fftSize - m), addend E params ms st0 x (k - d) (m + d)

/-- The gain of the overlap-add sum at the `k`-th push: `2 / fftSize` times the sum of the
squared window coefficients `windowBuffer d` over the offsets `d` for which push `k - d`
extracted a frame. -/
def olaGain (E : Env K) (params : Nat → Params K) (ms : Nat → Nat → K) (st0 : State K)
    (x : Nat → K) (k : Nat) : K :=
  2 / (fftSize : K) *
    ∑ d in Finset.range fftSize,
      if extractsAt E params ms st0 x (k - d) then E.windowBuffer d ^ 2 else 0

end Exact

section Scalar

variable {K : Type} [Zero K] [One K] [NatCast K] [OfScientific K] [Add K] [Sub K] [Neg K]
  [Mul K] [Div K] [LT K] [DecidableRel (fun a b : K => a < b)] [Truncate K]

/-- Both rings of every channel hold only zeros. -/
def ZeroRings (st : State K) : Prop :=
  (∀ c p, getSample st.fftInputBuffer c p = 0) ∧ (∀ c p, getSample st.fftOutputBuffer c p = 0)

/-- Both audio buffers have the shape `prepareToPlay` gives them: 2 channels of
`fftSize * 2` samples. -/
def RingsSized (st : State K) : Prop :=
  (st.fftInputBuffer.size = 2 ∧ ∀ c, c < 2 → (st.fftInputBuffer.getD c #[]).size = fftSize * 2) ∧
    (st.fftOutputBuffer.size = 2 ∧
      ∀ c, c < 2 → (st.fftOutputBuffer.getD c #[]).size = fftSize * 2)

end Scalar

/-! ### Concrete inputs -/

/-- A rational window table with the shape of the table the constructor fills (zero at
index 0 and at index `fftSize - 1`, symmetric, largest in the middle); it stands in for
`windowBuffer` where the model is evaluated on a concrete stream. -/
def parabolicWindow : Nat → ℚ :=
  fun i => 4 * (i : ℚ) * (4095 - (i : ℚ)) / 4095 ^ 2

/-- An environment over `ℚ` whose two transforms leave the buffer as it is, so that the
inverse of the forward transform is exactly the frame that went in. -/
def idEnv : Env ℚ :=
  { windowBuffer := parabolicWindow
    performRealOnlyForwardTransform := fun fftInOut => fftInOut
    performRealOnlyInverseTransform := fun ifftInOut => ifftInOut
    sin := fun _ => 0 }

/-- The default values of `createParameters`. -/
def defaultParams : Params ℚ :=
  { wetDry := 1 / 2, time := 2, density := 1 / 2, damping := 1 / 2, size := 1 / 2,
    lowBand := 1, midBand := 1, highBand := 1, freeze := false }

/-- Fully wet with freeze on; the other values are the defaults. -/
def heldParams : Params ℚ :=
  { defaultParams with wetDry := 1, freeze := true }

/-- The defaults with the low band muted. -/
def lowMutedParams : Params ℚ :=
  { defaultParams with lowBand := 0 }

/-- The state left by the constructor: zeroed vectors, audio buffers not yet sized, cursor
0, flag false. -/
def zeroState : State ℚ :=
  { fftInputBuffer := #[]
    fftOutputBuffer := #[]
    fftTimeDomainBuffer := mkArray fftSize Cx.zero
    fftFrequencyDomainBuffer := mkArray fftSize Cx.zero
    fifoIndex := 0
    nextFFTBlockReady := false }

/-- The stream that is 1 at index `n` and 0 elsewhere. -/
def impulseAt (n : Nat) : Nat → ℚ := fun j => if j = n then 1 else 0

/-- A frame that is not conjugate-symmetric. -/
def rampFrame : Array (Cx ℚ) := tabulate fftSize (fun i => ⟨(i : ℚ) + 1, (i : ℚ) + 2⟩)

/-- An output buffer of 2 channels of `fftSize * 2` samples whose cell `p` holds `p`. -/
def rampRing : Array (Array ℚ) := mkArray 2 (tabulate (fftSize * 2) (fun p => (p : ℚ)))

/-- The defaults with the size set to 0, so that no bin is spread. -/
def noSpreadParams : Params ℚ :=
  { defaultParams with size := 0 }

/-! ### The indices the loops use -/

section Scalar

variable {K : Type} [Zero K] [One K] [NatCast K] [OfScientific K] [Add K] [Sub K] [Neg K]
  [Mul K] [Div K] [LT K] [DecidableRel (fun a b : K => a < b)] [Truncate K]

/-- The indices `targetBin = i + j` of lines 329-334, for the iterations the spread loop
runs for bin `i` (none when one of the two guards fails). -/
def spreadTargets (P : Params K) (i : Nat) : List Nat :=
  if P.size > 0.01 then
    if 0 < spreadAmountOf P ∧ i + spreadAmountOf P < numBins then
      (List.range' 1 (spreadAmountOf P)).map (fun j => i + j)
    else []
  else []

/-- The indices at which the body of the bin loop uses `fftData` for bin `i` (lines
319-360): `i`, the spread targets, and the mirror `fftSize - i`; none when frozen. -/
def binIndices (P : Params K) (i : Nat) : List Nat :=
  if P.freeze then [] else i :: (spreadTargets P i ++ [fftSize - i])

/-- The indices at which one call of `applySpectralProcessing` uses `fftData`. -/
def effectIndices (P : Params K) : List Nat :=
  (List.range' 1 (numBins - 1)).flatMap (binIndices P)

/-- The ring indices `(fifoIndex + i) % fftSize` of the frame loops (lines 212 and 261). -/
def frameIndices (fifoIndex : Nat) : List Nat :=
  (List.range fftSize).map (fun i => (fifoIndex + i) % fftSize)

/-- The ring indices one push uses when it starts in state `st`: the cursor for the write
(line 191), the indices of the frame loops after the cursor has moved, and the moved cursor
for the read and the clear (lines 274-277). -/
def pushIndices (st : State K) : List Nat :=
  st.fifoIndex ::
    (frameIndices ((st.fifoIndex + 1) % fftSize) ++ [(st.fifoIndex + 1) % fftSize])

end Scalar

/-! ### The type `float` -/

/-- A value of the C++ type `float` (IEEE 754 binary32): a finite number, kept as the
rational number it denotes, an infinity with its sign, or a NaN. The two zeros are one value,
and so are all NaNs. Every arithmetic operation below takes the exact result of its two
operands and rounds it once to binary32 (round to nearest, ties to even); a result beyond
`FLT_MAX` is an infinity. -/
inductive F32 where
  | fin (q : ℚ)
  | inf (negative : Bool)
  | nan
deriving DecidableEq

namespace F32

/-- The number of binary digits of `n`, counted by halving `n` until it is 0 (at most
`fuel` times). -/
def bitLengthAux : Nat → Nat → Nat
  | 0, _ => 0
  | fuel + 1, n => if n = 0 then 0 else bitLengthAux fuel (n / 2) + 1

/-- The number of binary digits of `n`. -/
def bitLength (n : Nat) : Nat := bitLengthAux n n

/-- The binary exponent of a positive `q`: the `e` with `2 ^ e ≤ q < 2 ^ (e + 1)`. For
`q ≥ 1` it is one less than the number of digits of the integer part; for `q < 1` it is
minus the least `c` with `2 ^ c ≥ 1 / q`. -/
def binade (q : ℚ) : ℤ :=
  if 1 ≤ q then (bitLength ⌊q⌋₊ : ℤ) - 1 else -(bitLength (⌈q⁻¹⌉₊ - 1) : ℤ)

/-- The spacing of the binary32 numbers around `q`: `2 ^ (e - 23)` where
`2 ^ e ≤ |q| < 2 ^ (e + 1)`, with `e` not below -126 (the subnormal range). -/
def ulp (q : ℚ) : ℚ := (2 : ℚ) ^ (max (binade |q|) (-126) - 23)

/-- The integer nearest to `y`; a tie goes to the even one. -/
def nearestEven (y : ℚ) : ℤ :=
  if y - ⌊y⌋ < 1 / 2 then ⌊y⌋
  else if 1 / 2 < y - ⌊y⌋ then ⌊y⌋ + 1
  else if ⌊y⌋ % 2 = 0 then ⌊y⌋
  else ⌊y⌋ + 1

/-- The multiple of `ulp q` nearest to `q`, ties to even: round-to-nearest with an unbounded
exponent. -/
def nearest (q : ℚ) : ℚ := (nearestEven (q / ulp q) : ℚ) * ulp q

/-- `FLT_MAX`, the largest finite binary32 number. -/
def maxFinite : ℚ := (2 ^ 24 - 1) * 2 ^ 104

/-- The binary32 result of an operation whose exact result is `q`: `q` rounded to nearest, or
the infinity of its sign when the rounded value is beyond `FLT_MAX`. -/
def ofRat (q : ℚ) : F32 :=
  if |nearest q| ≤ maxFinite then fin (nearest q) else inf (decide (q < 0))

/-- Unary minus. -/
def neg : F32 → F32
  | fin q => fin (-q)
  | inf s => inf (!s)
  | nan => nan

/-- Addition: `inf + (-inf)` is a NaN. -/
def add : F32 → F32 → F32
  | fin a, fin b => ofRat (a + b)
  | fin _, inf s => inf s
  | inf s, fin _ => inf s
  | inf s, inf t => if s = t then inf s else nan
  | _, _ => nan

/-- Subtraction. -/
def sub (a b : F32) : F32 := add a (neg b)

/-- Multiplication: `0 * inf` is a NaN. -/
def mul : F32 → F32 → F32
  | fin a, fin b => ofRat (a * b)
  | fin a, inf s => if a = 0 then nan else inf (xor (decide (a < 0)) s)
  | inf s, fin b => if b = 0 then nan else inf (xor s (decide (b < 0)))
  | inf s, inf t => inf (xor s t)
  | _, _ => nan

/-- Division: `0 / 0` and `inf / inf` are NaNs; a nonzero number over zero is an infinity
(with the sign of the numerator, the zero being taken as positive). -/
def div : F32 → F32 → F32
  | fin a, fin b =>
    if b = 0 then (if a = 0 then nan else inf (decide (a < 0))) else ofRat (a / b)
  | fin _, inf _ => fin 0
  | inf s, fin b => inf (xor s (decide (b < 0)))
  | _, _ => nan

/-- The comparison `a < b`; it is false when one side is a NaN. -/
def lt : F32 → F32 → Bool
  | fin a, fin b => decide (a < b)
  | fin _, inf s => !s
  | inf s, fin _ => s
  | inf s, inf t => s && !t
  | _, _ => false

/-- `static_cast<int>` as a count: the integer part of a finite number that is not
negative, and 0 for everything else (the cast of an infinity or a NaN is undefined in
C++). -/
def toNat : F32 → Nat
  | fin q => Nat.floor q
  | _ => 0

/-- `std::isfinite` -/
def isFinite : F32 → Bool
  | fin _ => true
  | _ => false

/-- Whether a value is a finite number in the interval from `a` to `b`. -/
def between (a b : ℚ) : F32 → Bool
  | fin q => decide (a ≤ q ∧ q ≤ b)
  | _ => false

/-- Whether a value is one that a `float` can hold: an infinity, a NaN, or a finite number
that rounding leaves as it is. -/
def isValue : F32 → Bool
  | fin q => decide (ofRat q = fin q)
  | _ => true

end F32

instance F32.instZero : Zero F32 := ⟨F32.fin 0⟩

instance F32.instOne : One F32 := ⟨F32.fin 1⟩

/-- `static_cast<float>` of an integer that is not negative. -/
instance F32.instNatCast : NatCast F32 := ⟨fun n => F32.ofRat n⟩

/-- A decimal literal with the suffix `f`. -/
instance F32.instOfScientific : OfScientific F32 :=
  ⟨fun m s e => F32.ofRat (OfScientific.ofScientific m s e)⟩

instance F32.instAdd : Add F32 := ⟨F32.add⟩

instance F32.instSub : Sub F32 := ⟨F32.sub⟩

instance F32.instNeg : Neg F32 := ⟨F32.neg⟩

instance F32.instMul : Mul F32 := ⟨F32.mul⟩

instance F32.instDiv : Div F32 := ⟨F32.div⟩

instance F32.instLT : LT F32 := ⟨fun a b => F32.lt a b = true⟩

instance F32.instDecidableLT : DecidableRel (fun a b : F32 => a < b) :=
  fun a b => inferInstanceAs (Decidable (F32.lt a b = true))

instance F32.instTruncate : Truncate F32 := ⟨F32.toNat⟩

/-! ### Concrete `float` inputs -/

/-- An environment over `float` whose two transforms leave the buffer as it is. -/
def floatEnv : Env F32 :=
  { windowBuffer := fun _ => 1
    performRealOnlyForwardTransform := fun fftInOut => fftInOut
    performRealOnlyInverseTransform := fun ifftInOut => ifftInOut
    sin := fun _ => 0 }

/-- The default values of `createParameters`, as `float`s. -/
def floatDefaults : Params F32 :=
  { wetDry := 0.5, time := 2.0, density := 0.5, damping := 0.5, size := 0.5,
    lowBand := 1.0, midBand := 1.0, highBand := 1.0, freeze := false }

/-- The defaults with the size at `0.7f`. -/
def sevenTenths : Params F32 :=
  { floatDefaults with size := 0.7 }

/-- The defaults with the size at `1.0f` and the low band muted. -/
def lowMutedFloat : Params F32 :=
  { floatDefaults with size := 1.0, lowBand := 0.0 }

/-- The defaults with the mix fully dry. -/
def dryFloat : Params F32 :=
  { floatDefaults with wetDry := 0.0 }

/-- A frame of `float`s that is not conjugate-symmetric: bin `i` is `(i + 1, i + 2)`. -/
def floatRamp : Array (Cx F32) :=
  tabulate fftSize (fun i => ⟨((i + 1 : Nat) : F32), ((i + 2 : Nat) : F32)⟩)

/-- A frame of finite `float`s whose bins 1 and 2 hold `3e38f` and whose other bins are
zero. -/
def hotFrame : Array (Cx F32) :=
  tabulate fftSize (fun i => if i = 1 ∨ i = 2 then ⟨3e38, 0⟩ else Cx.zero)

/-- The prepared state, except that cell 1 of the output ring of channel 0 holds `+inf`. -/
def overflowedState : State F32 :=
  { fftInputBuffer := mkArray 2 (mkArray (fftSize * 2) 0)
    fftOutputBuffer := setSample (mkArray 2 (mkArray (fftSize * 2) 0)) 0 1 (F32.inf false)
    fftTimeDomainBuffer := mkArray fftSize Cx.zero
    fftFrequencyDomainBuffer := mkArray fftSize Cx.zero
    fifoIndex := 0
    nextFFTBlockReady := false }

/-! ## Lemmas -/

set_option linter.unusedSectionVars false

/-! ### Facts that hold for every scalar type -/

section Scalar

variable {K : Type} [Zero K] [One K] [NatCast K] [OfScientific K] [Add K] [Sub K] [Neg K]
  [Mul K] [Div K] [LT K] [DecidableRel (fun a b : K => a < b)] [Truncate K]

theorem size_tabulate {α : Type} (n : Nat) (f : Nat → α) : (tabulate n f).size = n := by
  simp [tabulate]

theorem getD_tabulate {α : Type} (n : Nat) (f : Nat → α) (i : Nat) (d : α) :
    (tabulate n f).getD i d = if i < n then f i else d := by
  unfold tabulate
  by_cases h : i < n
  · rw [if_pos h, Array.getD, dif_pos (by simpa using h)]
    simp
  · rw [if_neg h, Array.getD, dif_neg (by simpa using h)]

theorem getD_setD_eq {α : Type} (a : Array α) (i j : Nat) (v d : α) :
    (a.setD i v).getD j d = if j = i ∧ i < a.size then v else a.getD j d := by
  unfold Array.setD
  by_cases h : i < a.size
  · rw [dif_pos h]
    by_cases hj : j = i
    · subst hj
      rw [if_pos ⟨rfl, h⟩, Array.getD, dif_pos (by simpa using h)]
      simp
    · rw [if_neg (fun hh => hj hh.1)]
      unfold Array.getD
      by_cases hjs : j < a.size
      · rw [dif_pos (by simpa using hjs), dif_pos hjs]
        simp only [Array.get_eq_getElem]
        exact Array.getElem_set_ne a ⟨i, h⟩ v _ (fun hh => hj hh.symm)
      · rw [dif_neg (by simpa using hjs), dif_neg hjs]
  · rw [dif_neg h, if_neg (fun hh => h hh.2)]

theorem getD_mkArray {α : Type} (n : Nat) (v : α) (i : Nat) :
    (mkArray n v).getD i v = v := by
  unfold Array.getD
  split <;> simp

theorem bin_setD (a : Array (Cx K)) (i j : Nat) (v : Cx K) :
    bin (a.setD i v) j = if j = i ∧ i < a.size then v else bin a j :=
  getD_setD_eq a i j v Cx.zero

theorem bin_tabulate (n : Nat) (f : Nat → Cx K) (i : Nat) :
    bin (tabulate n f) i = if i < n then f i else Cx.zero :=
  getD_tabulate n f i Cx.zero

/-- Reading a sample after a write: the written value at the written cell when that cell
exists, the old value elsewhere. -/
theorem getSample_setSample (buf : Array (Array K)) (channel index c p : Nat) (v : K) :
    getSample (setSample buf channel index v) c p
      = if (c = channel ∧ p = index) ∧ channel < buf.size ∧
            index < (buf.getD channel #[]).size then v
        else getSample buf c p := by
  unfold getSample setSample
  rw [getD_setD_eq]
  by_cases hc : c = channel ∧ channel < buf.size
  · rw [if_pos hc, getD_setD_eq]
    obtain ⟨hc1, hc2⟩ := hc
    subst hc1
    by_cases hp : p = index ∧ index < (buf.getD c #[]).size
    · rw [if_pos hp, if_pos ⟨⟨rfl, hp.1⟩, hc2, hp.2⟩]
    · rw [if_neg hp, if_neg (fun hh => hp ⟨hh.1.2, hh.2.2⟩)]
  · rw [if_neg hc, if_neg (fun hh => hc ⟨hh.1.1, hh.2.1⟩)]

theorem size_setSample (buf : Array (Array K)) (channel index : Nat) (v : K) :
    (setSample buf channel index v).size = buf.size := by
  simp [setSample]

theorem size_channel_setSample (buf : Array (Array K)) (channel index c : Nat) (v : K) :
    ((setSample buf channel index v).getD c #[]).size = (buf.getD c #[]).size := by
  unfold setSample
  rw [getD_setD_eq]
  split
  · rename_i h
    rw [Array.size_setD, h.1]
  · rfl

theorem fftSize_eq : fftSize = 4096 := by decide

theorem hopSize_eq : hopSize = 1024 := by decide

theorem numBins_eq : numBins = 2048 := by decide

theorem size_spreadFold (S i : Nat) (l : List Nat) (fr : Array (Cx K)) :
    (l.foldl (spreadStep S i) fr).size = fr.size := by
  induction l generalizing fr with
  | nil => rfl
  | cons j l ih => rw [List.foldl_cons, ih, spreadStep, Array.size_setD]

theorem size_spread (P : Params K) (i : Nat) (fr : Array (Cx K)) :
    (spread P i fr).size = fr.size := by
  unfold spread spreadLoop
  split
  · split
    · exact size_spreadFold _ _ _ _
    · rfl
  · rfl

theorem size_processBin (E : Env K) (P : Params K) (ms : Nat → K) (fr : Array (Cx K))
    (i : Nat) : (processBin E P ms fr i).size = fr.size := by
  unfold processBin
  split
  · rfl
  · simp only [Array.size_setD, size_spread]

theorem size_binsUpTo (E : Env K) (P : Params K) (ms : Nat → K) (fr : Array (Cx K))
    (n : Nat) : (binsUpTo E P ms fr n).size = fr.size := by
  unfold binsUpTo
  generalize List.range' 1 n = l
  induction l generalizing fr with
  | nil => rfl
  | cons i l ih => rw [List.foldl_cons, ih, size_processBin]

theorem applySpectralProcessing_eq (E : Env K) (P : Params K) (ms : Nat → K)
    (fr : Array (Cx K)) :
    applySpectralProcessing E P ms fr = binsUpTo E P ms fr (numBins - 1) :=
  rfl

theorem size_applySpectralProcessing (E : Env K) (P : Params K) (ms : Nat → K)
    (fr : Array (Cx K)) : (applySpectralProcessing E P ms fr).size = fr.size := by
  rw [applySpectralProcessing_eq, size_binsUpTo]

theorem spreadFold_of_not_target (S i t : Nat) (l : List Nat) (fr : Array (Cx K))
    (h : ∀ j ∈ l, i + j ≠ t) : bin (l.foldl (spreadStep S i) fr) t = bin fr t := by
  induction l generalizing fr with
  | nil => rfl
  | cons j l ih =>
    rw [List.foldl_cons, ih _ (fun j' hj' => h j' (List.mem_cons_of_mem _ hj')), spreadStep,
      bin_setD, if_neg (fun hh => h j (List.mem_cons_self _ _) hh.1.symm)]

theorem spread_of_le (P : Params K) (i t : Nat) (fr : Array (Cx K)) (h : t ≤ i) :
    bin (spread P i fr) t = bin fr t := by
  unfold spread spreadLoop
  split
  · split
    · apply spreadFold_of_not_target
      intro j hj
      rw [List.mem_range'_1] at hj
      omega
    · rfl
  · rfl

theorem spread_of_ge (P : Params K) (i t : Nat) (fr : Array (Cx K)) (h : numBins ≤ t) :
    bin (spread P i fr) t = bin fr t := by
  unfold spread spreadLoop
  split
  · split
    · rename_i h2
      apply spreadFold_of_not_target
      intro j hj
      rw [List.mem_range'_1] at hj
      omega
    · rfl
  · rfl

theorem processBin_frozen (E : Env K) (P : Params K) (ms : Nat → K) (fr : Array (Cx K))
    (i : Nat) (hf : P.freeze = true) : processBin E P ms fr i = fr := by
  simp [processBin, hf]

theorem processBin_self (E : Env K) (P : Params K) (ms : Nat → K) (fr : Array (Cx K))
    (i : Nat) (hsz : fr.size = fftSize) (hf : P.freeze = false) (hi : i < numBins) :
    bin (processBin E P ms fr i) i = (bin fr i).scale (finalMultiplier E P ms i) := by
  have h2 := numBins_eq
  have h3 := fftSize_eq
  have hne : i ≠ fftSize - i := by omega
  simp only [processBin, hf, Bool.false_eq_true, if_false]
  rw [bin_setD, if_neg (fun hh => hne hh.1), bin_setD,
    if_pos ⟨rfl, by rw [size_spread, hsz]; omega⟩, spread_of_le P i i fr (le_refl i)]

theorem processBin_mirror (E : Env K) (P : Params K) (ms : Nat → K) (fr : Array (Cx K))
    (i : Nat) (hsz : fr.size = fftSize) (hf : P.freeze = false) (h1 : 1 ≤ i)
    (hi : i < numBins) :
    bin (processBin E P ms fr i) (fftSize - i) = (bin (processBin E P ms fr i) i).conj := by
  have h2 := numBins_eq
  have h3 := fftSize_eq
  have hne : i ≠ fftSize - i := by omega
  simp only [processBin, hf, Bool.false_eq_true, if_false]
  rw [bin_setD, if_pos ⟨rfl, by rw [Array.size_setD, size_spread, hsz]; omega⟩]
  conv_rhs => rw [bin_setD, if_neg (fun hh => hne hh.1)]

theorem processBin_of_lt (E : Env K) (P : Params K) (ms : Nat → K) (fr : Array (Cx K))
    (i t : Nat) (hi : i < numBins) (ht : t < i) :
    bin (processBin E P ms fr i) t = bin fr t := by
  have h1 : t ≠ fftSize - i := by rw [numBins_eq] at hi; rw [fftSize_eq]; omega
  unfold processBin
  split
  · rfl
  · simp only
    rw [bin_setD, if_neg (fun hh => h1 hh.1), bin_setD,
      if_neg (fun hh => Nat.ne_of_lt ht hh.1), spread_of_le P i t fr (Nat.le_of_lt ht)]

theorem processBin_of_ge (E : Env K) (P : Params K) (ms : Nat → K) (fr : Array (Cx K))
    (i t : Nat) (hi : i < numBins) (ht : numBins ≤ t) (h1 : t ≠ fftSize - i) :
    bin (processBin E P ms fr i) t = bin fr t := by
  unfold processBin
  split
  · rfl
  · simp only
    rw [bin_setD, if_neg (fun hh => h1 hh.1), bin_setD,
      if_neg (fun hh => by omega), spread_of_ge P i t fr ht]

theorem binsUpTo_succ (E : Env K) (P : Params K) (ms : Nat → K) (fr : Array (Cx K))
    (n : Nat) :
    binsUpTo E P ms fr (n + 1) = processBin E P ms (binsUpTo E P ms fr n) (1 + n) := by
  simp [binsUpTo, List.range'_1_concat, List.foldl_append]

/-- Bins at most `n` are final once bins `1..n` have been processed. -/
theorem binsUpTo_low_stable (E : Env K) (P : Params K) (ms : Nat → K) (fr : Array (Cx K))
    (n d t : Nat) (hn : n + d < numBins) (ht : t ≤ n) :
    bin (binsUpTo E P ms fr (n + d)) t = bin (binsUpTo E P ms fr n) t := by
  induction d with
  | zero => rfl
  | succ d ih =>
    rw [← Nat.add_assoc, binsUpTo_succ, processBin_of_lt _ _ _ _ _ _ (by omega) (by omega)]
    exact ih (by omega)

/-- Mirror bins of the bins at most `n` are final once bins `1..n` have been processed. -/
theorem binsUpTo_high_stable (E : Env K) (P : Params K) (ms : Nat → K) (fr : Array (Cx K))
    (n d t : Nat) (hn : n + d < numBins) (ht : fftSize - n ≤ t) :
    bin (binsUpTo E P ms fr (n + d)) t = bin (binsUpTo E P ms fr n) t := by
  induction d with
  | zero => rfl
  | succ d ih =>
    have h2 := numBins_eq
    have h3 := fftSize_eq
    rw [← Nat.add_assoc, binsUpTo_succ, processBin_of_ge _ _ _ _ _ _ (by omega) (by omega)
      (by omega)]
    exact ih (by omega)

/-- The value the stage leaves in bin `i` and in its mirror bin. -/
theorem applySpectralProcessing_bin (E : Env K) (P : Params K) (ms : Nat → K)
    (fr : Array (Cx K)) (i : Nat) (hsz : fr.size = fftSize) (hf : P.freeze = false)
    (h1 : 1 ≤ i) (hi : i < numBins) :
    bin (applySpectralProcessing E P ms fr) i
        = (bin (binsUpTo E P ms fr (i - 1)) i).scale (finalMultiplier E P ms i) ∧
      bin (applySpectralProcessing E P ms fr) (fftSize - i)
        = (bin (applySpectralProcessing E P ms fr) i).conj := by
  have h2 := numBins_eq
  have h3 := fftSize_eq
  have e : numBins - 1 = i + (numBins - 1 - i) := by omega
  have hs : binsUpTo E P ms fr i = processBin E P ms (binsUpTo E P ms fr (i - 1)) i := by
    have := binsUpTo_succ E P ms fr (i - 1)
    rwa [show i - 1 + 1 = i by omega, show 1 + (i - 1) = i by omega] at this
  have hsz2 : (binsUpTo E P ms fr (i - 1)).size = fftSize := by rw [size_binsUpTo, hsz]
  rw [applySpectralProcessing_eq, e,
    binsUpTo_low_stable E P ms fr i _ i (by omega) (le_refl i),
    binsUpTo_high_stable E P ms fr i _ (fftSize - i) (by omega) (le_refl _), hs]
  exact ⟨processBin_self E P ms _ i hsz2 hf hi, processBin_mirror E P ms _ i hsz2 hf h1 hi⟩

theorem applySpectralProcessing_frozen (E : Env K) (P : Params K) (ms : Nat → K)
    (fr : Array (Cx K)) (hf : P.freeze = true) : applySpectralProcessing E P ms fr = fr := by
  unfold applySpectralProcessing
  generalize List.range' 1 (numBins - 1) = l
  induction l generalizing fr with
  | nil => rfl
  | cons i l ih => rw [List.foldl_cons, processBin_frozen E P ms fr i hf, ih]

/-- After the first `n` iterations of the spread loop, the targets `i + 1, ..., i + n` have
received their share of bin `i`; every other bin is as before. -/
theorem spreadFold_target (S i n j : Nat) (fr : Array (Cx K)) (hn : i + n < fr.size)
    (hj : 1 ≤ j) :
    bin ((List.range' 1 n).foldl (spreadStep S i) fr) (i + j)
      = if j ≤ n then
          (bin fr (i + j)).add (((bin fr i).scale (spreadFactor S j)).scale 0.3)
        else bin fr (i + j) := by
  induction n generalizing j with
  | zero =>
    rw [if_neg (by omega)]
    rfl
  | succ n ih =>
    have hsrc : bin ((List.range' 1 n).foldl (spreadStep S i) fr) i = bin fr i := by
      apply spreadFold_of_not_target
      intro j' hj'
      rw [List.mem_range'_1] at hj'
      omega
    have hnew : bin ((List.range' 1 n).foldl (spreadStep S i) fr) (i + (1 + n))
        = bin fr (i + (1 + n)) := by
      rw [ih (1 + n) (by omega) (by omega), if_neg (by omega)]
    rw [List.range'_1_concat, List.foldl_append, List.foldl_cons, List.foldl_nil, spreadStep,
      bin_setD, size_spreadFold, hsrc, hnew]
    by_cases h : j = 1 + n
    · subst h
      rw [if_pos ⟨rfl, by omega⟩, if_pos (by omega)]
    · rw [if_neg (fun hh => h (by omega)), ih j (by omega) hj]
      by_cases h2 : j ≤ n
      · rw [if_pos h2, if_pos (by omega)]
      · rw [if_neg h2, if_neg (by omega)]

theorem processBin_of_other (E : Env K) (P : Params K) (ms : Nat → K) (fr : Array (Cx K))
    (i t : Nat) (hf : P.freeze = false) (h1 : t ≠ i) (h2 : t ≠ fftSize - i) :
    bin (processBin E P ms fr i) t = bin (spread P i fr) t := by
  simp only [processBin, hf, Bool.false_eq_true, if_false]
  rw [bin_setD, if_neg (fun hh => h2 hh.1), bin_setD, if_neg (fun hh => h1 hh.1)]

theorem processSamples_length (E : Env K) (P : Params K) (ms : Nat → Nat → Nat → K)
    (channel : Nat) (xs : List K) (s : Nat) (st : State K) :
    (processSamples E P ms channel s st xs).2.length = xs.length := by
  induction xs generalizing s st with
  | nil => rfl
  | cons a xs ih =>
    simp only [processSamples, List.length_cons]
    rw [ih]

theorem processChannels_shape (E : Env K) (P : Params K) (ms : Nat → Nat → Nat → K)
    (buffer : List (List K)) (channel : Nat) (st : State K) :
    List.Forall₂ (fun dry wet => wet.length = dry.length) buffer
      (processChannels E P ms channel st buffer).2 := by
  induction buffer generalizing channel st with
  | nil => exact List.Forall₂.nil
  | cons c cs ih =>
    simp only [processChannels]
    exact List.Forall₂.cons (processSamples_length E P ms channel c 0 st) (ih _ _)

theorem zipWith_mix_getD (P : Params K) (dry wet : List K) (s : Nat)
    (h : wet.length = dry.length) (hs : s < dry.length) :
    (List.zipWith (mix P) dry wet).getD s 0 = mix P (dry.getD s 0) (wet.getD s 0) := by
  induction dry generalizing wet s with
  | nil => simp at hs
  | cons a dry ih =>
    cases wet with
    | nil => simp at h
    | cons b wet =>
      cases s with
      | zero => rfl
      | succ s =>
        rw [List.zipWith_cons_cons, List.getD_cons_succ, List.getD_cons_succ,
          List.getD_cons_succ]
        exact ih wet s (by simpa using h) (by simpa using hs)

theorem zipWith_mix_length (P : Params K) (dry wet : List K) (h : wet.length = dry.length) :
    (List.zipWith (mix P) dry wet).length = dry.length := by
  rw [List.length_zipWith, h, Nat.min_self]

theorem mixBlock_getD (P : Params K) (buffer wet : List (List K)) (c s : Nat)
    (h : List.Forall₂ (fun d w => w.length = d.length) buffer wet)
    (hc : c < buffer.length) (hs : s < (buffer.getD c []).length) :
    ((List.zipWith (fun d w => List.zipWith (mix P) d w) buffer wet).getD c []).getD s 0
      = mix P ((buffer.getD c []).getD s 0) ((wet.getD c []).getD s 0) := by
  induction h generalizing c with
  | nil => simp at hc
  | cons hd _ ih =>
    cases c with
    | zero => exact zipWith_mix_getD P _ _ s hd hs
    | succ c =>
      rw [List.zipWith_cons_cons, List.getD_cons_succ, List.getD_cons_succ,
        List.getD_cons_succ]
      exact ih c (by simpa using hc) (by simpa using hs)

theorem mixBlock_shape (P : Params K) (buffer wet : List (List K))
    (h : List.Forall₂ (fun d w => w.length = d.length) buffer wet) :
    List.Forall₂ (fun d r => r.length = d.length) buffer
      (List.zipWith (fun d w => List.zipWith (mix P) d w) buffer wet) := by
  induction h with
  | nil => exact List.Forall₂.nil
  | cons hd _ ih =>
    rw [List.zipWith_cons_cons]
    exact List.Forall₂.cons (zipWith_mix_length P _ _ hd) ih

@[simp] theorem advance_fifoIndex (channel : Nat) (st : State K) (x : K) :
    (advance channel st x).fifoIndex = (st.fifoIndex + 1) % fftSize := rfl

@[simp] theorem advance_ready (channel : Nat) (st : State K) (x : K) :
    (advance channel st x).nextFFTBlockReady
      = if hopSize ≤ st.fifoIndex then true else st.nextFFTBlockReady := rfl

@[simp] theorem processFrame_fifoIndex (E : Env K) (P : Params K) (ms : Nat → K) (channel : Nat)
    (st : State K) : (processFrame E P ms channel st).fifoIndex = st.fifoIndex := by
  unfold processFrame
  rfl

@[simp] theorem processFrame_ready (E : Env K) (P : Params K) (ms : Nat → K) (channel : Nat)
    (st : State K) : (processFrame E P ms channel st).nextFFTBlockReady = false := by
  unfold processFrame
  rfl

theorem beforeDrain_fifoIndex (E : Env K) (P : Params K) (ms : Nat → K) (channel : Nat)
    (st : State K) (x : K) :
    (beforeDrain E P ms channel st x).fifoIndex = (st.fifoIndex + 1) % fftSize := by
  unfold beforeDrain
  split <;> simp

theorem pushSample_fifoIndex (E : Env K) (P : Params K) (ms : Nat → K) (channel : Nat)
    (st : State K) (x : K) :
    (pushSample E P ms channel st x).1.fifoIndex = (st.fifoIndex + 1) % fftSize := by
  simp [pushSample, drain, beforeDrain_fifoIndex]

theorem processFrame_output (E : Env K) (P : Params K) (ms : Nat → K) (channel : Nat)
    (st : State K) :
    (processFrame E P ms channel st).fftOutputBuffer
      = overlapAdd E channel st.fifoIndex (processFrame E P ms channel st).fftTimeDomainBuffer
          st.fftOutputBuffer := by
  simp only [processFrame]

theorem advance_output (channel : Nat) (st : State K) (x : K) :
    (advance channel st x).fftOutputBuffer = st.fftOutputBuffer := by
  simp only [advance]

theorem beforeDrain_output (E : Env K) (P : Params K) (ms : Nat → K) (channel : Nat)
    (st : State K) (x : K) :
    (beforeDrain E P ms channel st x).fftOutputBuffer
      = if frameDue (advance channel st x) then
          overlapAdd E channel ((st.fifoIndex + 1) % fftSize)
            (processFrame E P ms channel (advance channel st x)).fftTimeDomainBuffer
            st.fftOutputBuffer
        else st.fftOutputBuffer := by
  unfold beforeDrain
  split
  · rw [processFrame_output, advance_output, advance_fifoIndex]
  · rw [advance_output]

theorem pushSample_wet (E : Env K) (P : Params K) (ms : Nat → K) (channel : Nat)
    (st : State K) (x : K) :
    (pushSample E P ms channel st x).2
      = getSample (beforeDrain E P ms channel st x).fftOutputBuffer channel
          ((st.fifoIndex + 1) % fftSize) := by
  simp [pushSample, drain, beforeDrain_fifoIndex]

theorem getSample_setSample_same (buf : Array (Array K)) (channel index : Nat) (v : K)
    (hc : channel < buf.size) (hi : index < (buf.getD channel #[]).size) :
    getSample (setSample buf channel index v) channel index = v := by
  rw [getSample_setSample, if_pos ⟨⟨rfl, rfl⟩, hc, hi⟩]

end Scalar

variable {K : Type} [LinearOrderedField K] [FloorRing K]

/-! ### The scalar operations in exact arithmetic -/

theorem toNat_eq_floor (x : K) : Truncate.toNat x = Nat.floor x := rfl

theorem jmax_eq_max (a b : K) : jmax a b = max a b := by
  unfold jmax
  split
  · rename_i h; exact (max_eq_right (le_of_lt h)).symm
  · rename_i h; exact (max_eq_left (not_lt.mp h)).symm

/-! ### Frame scheduling -/

theorem pushSample_ready (E : Env K) (P : Params K) (ms : Nat → K) (channel : Nat)
    (st : State K) (x : K) :
    (pushSample E P ms channel st x).1.nextFFTBlockReady
      = ((advance channel st x).nextFFTBlockReady && !frameDue (advance channel st x)) := by
  simp only [pushSample, drain, beforeDrain]
  split
  · rename_i h; simp [h]
  · rename_i h
    simp only [Bool.not_eq_true] at h
    simp [h]

theorem streamState_zero (E : Env K) (params : Nat → Params K) (ms : Nat → Nat → K)
    (st0 : State K) (x : Nat → K) :
    streamState E params ms st0 x 0 = prepareToPlay st0 := rfl

theorem streamState_succ (E : Env K) (params : Nat → Params K) (ms : Nat → Nat → K)
    (st0 : State K) (x : Nat → K) (k : Nat) :
    streamState E params ms st0 x (k + 1)
      = (pushSample E (params k) (ms k) 0 (streamState E params ms st0 x k) (x k)).1 := by
  simp [streamState, List.range_succ, List.foldl_append]

theorem streamState_fifoIndex (E : Env K) (params : Nat → Params K) (ms : Nat → Nat → K)
    (st0 : State K) (x : Nat → K) (k : Nat) :
    (streamState E params ms st0 x k).fifoIndex = k % fftSize := by
  induction k with
  | zero => simp [streamState_zero, prepareToPlay]
  | succ k ih => simp [streamState_succ, pushSample_fifoIndex, ih]

theorem streamState_ready (E : Env K) (params : Nat → Params K) (ms : Nat → Nat → K)
    (st0 : State K) (x : Nat → K) (k : Nat) :
    (streamState E params ms st0 x k).nextFFTBlockReady
      = decide (hopSize < k % fftSize ∧ k % fftSize % hopSize ≠ 0) := by
  induction k with
  | zero => simp [streamState_zero, prepareToPlay]
  | succ k ih =>
    simp only [streamState_succ, pushSample_ready, frameDue, advance_ready, advance_fifoIndex,
      streamState_fifoIndex, ih, fftSize_eq, hopSize_eq]
    rw [Bool.eq_iff_iff]
    simp only [Bool.and_eq_true, Bool.not_eq_true', decide_eq_true_eq, decide_eq_false_iff_not,
      Bool.if_true_left, Bool.or_eq_true, Bool.and_eq_false_imp, Bool.or_eq_false_iff, not_and,
      not_not, ne_eq]
    omega

/-- The pushes that extract a frame are the positive `k` with `k mod fftSize` equal to 0,
`2 * hopSize` or `3 * hopSize`. -/
theorem extractsAt_iff (E : Env K) (params : Nat → Params K) (ms : Nat → Nat → K)
    (st0 : State K) (x : Nat → K) (k : Nat) :
    extractsAt E params ms st0 x k = true ↔
      0 < k ∧ (k % fftSize = 0 ∨ k % fftSize = 2 * hopSize ∨ k % fftSize = 3 * hopSize) := by
  cases k with
  | zero => simp [extractsAt]
  | succ k =>
    simp only [extractsAt, streamAdvanced, frameDue, advance_ready, advance_fifoIndex,
      streamState_fifoIndex, streamState_ready, fftSize_eq, hopSize_eq, Nat.add_sub_cancel]
    simp only [Bool.and_eq_true, Bool.not_eq_true', decide_eq_true_eq, decide_eq_false_iff_not,
      Bool.if_true_left, Bool.or_eq_true, Bool.and_eq_false_imp, Bool.or_eq_false_iff, not_and,
      not_not, ne_eq]
    omega

theorem Cx.conj_zero : (Cx.zero : Cx K).conj = Cx.zero := by
  simp [Cx.conj, Cx.zero]

theorem Cx.scale_zero_right (a : Cx K) : a.scale 0 = Cx.zero := by
  simp [Cx.scale, Cx.zero]

theorem Cx.zero_scale (s : K) : (Cx.zero : Cx K).scale s = Cx.zero := by
  simp [Cx.scale, Cx.zero]

theorem Cx.add_zero_zero : (Cx.zero : Cx K).add Cx.zero = Cx.zero := by
  simp [Cx.add, Cx.zero]

/-! ### The effect stage -/

theorem lt_lowCutoff_iff (i : Nat) : ((i : K) < lowCutoff) ↔ i ≤ 204 := by
  have : (lowCutoff : K) = 1024 / 5 := by
    simp only [lowCutoff, numBins_eq]; norm_num
  rw [this, lt_div_iff₀ (by norm_num)]
  have : ((i : K) * 5 < 1024) ↔ (i * 5 < 1024) := by exact_mod_cast Iff.rfl
  rw [this]; omega

theorem lt_midCutoff_iff (i : Nat) : ((i : K) < midCutoff) ↔ i ≤ 819 := by
  have : (midCutoff : K) = 4096 / 5 := by
    simp only [midCutoff, numBins_eq]; norm_num
  rw [this, lt_div_iff₀ (by norm_num)]
  have : ((i : K) * 5 < 4096) ↔ (i * 5 < 4096) := by exact_mod_cast Iff.rfl
  rw [this]; omega

theorem band_cases (P : Params K) (i : Nat) :
    bandMultiplier P i =
      if i ≤ 204 then P.lowBand else if i ≤ 819 then P.midBand else P.highBand := by
  simp only [bandMultiplier, lt_lowCutoff_iff, lt_midCutoff_iff]

theorem applySpectralProcessing_muted (E : Env K) (P : Params K) (ms : Nat → K)
    (fr : Array (Cx K)) (i : Nat) (hsz : fr.size = fftSize) (hf : P.freeze = false)
    (h1 : 1 ≤ i) (hi : i < numBins) (hb : bandMultiplier P i = 0) :
    bin (applySpectralProcessing E P ms fr) i = Cx.zero ∧
      bin (applySpectralProcessing E P ms fr) (fftSize - i) = Cx.zero := by
  have h := applySpectralProcessing_bin E P ms fr i hsz hf h1 hi
  have hz : bin (applySpectralProcessing E P ms fr) i = Cx.zero := by
    rw [h.1]
    unfold finalMultiplier
    rw [hb, zero_mul, zero_mul, zero_mul, Cx.scale_zero_right]
  exact ⟨hz, by rw [h.2, hz, Cx.conj_zero]⟩

/-! ### Audio buffers -/

theorem getSample_setSample_of_index_ne (buf : Array (Array K)) (channel index c p : Nat)
    (v : K) (h : p ≠ index) :
    getSample (setSample buf channel index v) c p = getSample buf c p := by
  rw [getSample_setSample, if_neg (fun hh => h hh.1.2)]

theorem getSample_setSample_of_channel_ne (buf : Array (Array K)) (channel index c p : Nat)
    (v : K) (h : c ≠ channel) :
    getSample (setSample buf channel index v) c p = getSample buf c p := by
  rw [getSample_setSample, if_neg (fun hh => h hh.1.1)]

theorem getSample_cleared (n m c p : Nat) :
    getSample (mkArray n (mkArray m (0 : K))) c p = 0 := by
  unfold getSample
  have h : (mkArray n (mkArray m (0 : K))).getD c #[] = mkArray m 0 ∨
      (mkArray n (mkArray m (0 : K))).getD c #[] = #[] := by
    unfold Array.getD
    split
    · left; simp
    · right; rfl
  rcases h with h | h
  · rw [h, getD_mkArray]
  · rw [h]; rfl

theorem sized_setSample (buf : Array (Array K)) (channel index : Nat) (v : K) (n m : Nat)
    (h : buf.size = n ∧ ∀ c, c < n → (buf.getD c #[]).size = m) :
    (setSample buf channel index v).size = n ∧
      ∀ c, c < n → ((setSample buf channel index v).getD c #[]).size = m :=
  ⟨by rw [size_setSample, h.1], fun c hc => by rw [size_channel_setSample, h.2 c hc]⟩

/-! ### The overlap-add loop -/

theorem sized_overlapFold (E : Env K) (channel cursor : Nat) (td : Array (Cx K))
    (l : List Nat) (buf : Array (Array K)) (n m : Nat)
    (h : buf.size = n ∧ ∀ c, c < n → (buf.getD c #[]).size = m) :
    (l.foldl (overlapAddStep E channel cursor td) buf).size = n ∧
      ∀ c, c < n → ((l.foldl (overlapAddStep E channel cursor td) buf).getD c #[]).size = m := by
  induction l generalizing buf with
  | nil => exact h
  | cons j l ih =>
    rw [List.foldl_cons]
    exact ih _ (sized_setSample buf _ _ _ n m h)

theorem overlapAddStep_apply (E : Env K) (channel cursor : Nat) (td : Array (Cx K))
    (buf : Array (Array K)) (j p : Nat) (hc : channel < buf.size)
    (hs : fftSize ≤ (buf.getD channel #[]).size) :
    getSample (overlapAddStep E channel cursor td buf j) channel p
      = if p = (cursor + j) % fftSize then
          getSample buf channel p + (bin td j).re * E.windowBuffer j / ((fftSize : K) / 2)
        else getSample buf channel p := by
  unfold overlapAddStep
  have hlt : (cursor + j) % fftSize < (buf.getD channel #[]).size :=
    lt_of_lt_of_le (Nat.mod_lt _ (by decide)) hs
  rw [getSample_setSample]
  by_cases h : p = (cursor + j) % fftSize
  · rw [if_pos ⟨⟨rfl, h⟩, hc, hlt⟩, if_pos h, h]
  · rw [if_neg (fun hh => h hh.1.2), if_neg h]

theorem overlapAdd_fold (E : Env K) (channel cursor : Nat) (td : Array (Cx K))
    (buf : Array (Array K)) (n i s m : Nat)
    (hb : buf.size = s ∧ ∀ c, c < s → (buf.getD c #[]).size = m) (hc : channel < s)
    (hm : fftSize ≤ m) (hn : n ≤ fftSize) (hi : i < fftSize) :
    getSample ((List.range n).foldl (overlapAddStep E channel cursor td) buf) channel
        ((cursor + i) % fftSize)
      = if i < n then
          getSample buf channel ((cursor + i) % fftSize)
            + (bin td i).re * E.windowBuffer i / ((fftSize : K) / 2)
        else getSample buf channel ((cursor + i) % fftSize) := by
  induction n with
  | zero => simp
  | succ n ih =>
    have hsz := sized_overlapFold E channel cursor td (List.range n) buf s m hb
    rw [List.range_succ, List.foldl_append, List.foldl_cons, List.foldl_nil,
      overlapAddStep_apply E channel cursor td _ n _ (by rw [hsz.1]; exact hc)
        (by rw [hsz.2 channel hc]; exact hm)]
    by_cases h : i = n
    · subst h
      rw [if_pos rfl, ih (by omega), if_neg (lt_irrefl _), if_pos (by omega)]
    · have hne : (cursor + i) % fftSize ≠ (cursor + n) % fftSize := by
        have h3 := fftSize_eq
        rw [h3] at hi hn ⊢
        omega
      rw [if_neg hne, ih (by omega)]
      by_cases h2 : i < n
      · rw [if_pos h2, if_pos (by omega)]
      · rw [if_neg h2, if_neg (by omega)]

/-- The overlap-add loop adds the windowed, scaled sample `i` of the frame to the cell at
offset `i` from the cursor. -/
theorem overlapAdd_at (E : Env K) (channel cursor : Nat) (td : Array (Cx K))
    (buf : Array (Array K)) (i s m : Nat)
    (hb : buf.size = s ∧ ∀ c, c < s → (buf.getD c #[]).size = m) (hc : channel < s)
    (hm : fftSize ≤ m) (hi : i < fftSize) :
    getSample (overlapAdd E channel cursor td buf) channel ((cursor + i) % fftSize)
      = getSample buf channel ((cursor + i) % fftSize)
        + (bin td i).re * E.windowBuffer i / ((fftSize : K) / 2) := by
  unfold overlapAdd
  rw [overlapAdd_fold E channel cursor td buf fftSize i s m hb hc hm (le_refl _) hi, if_pos hi]

/-- The overlap-add loop leaves every other channel and every cell from `fftSize` on as
they are. -/
theorem overlapAdd_fold_outside (E : Env K) (channel cursor : Nat) (td : Array (Cx K))
    (buf : Array (Array K)) (l : List Nat) (c p : Nat) (h : c ≠ channel ∨ fftSize ≤ p) :
    getSample (l.foldl (overlapAddStep E channel cursor td) buf) c p = getSample buf c p := by
  induction l generalizing buf with
  | nil => rfl
  | cons j l ih =>
    rw [List.foldl_cons, ih]
    unfold overlapAddStep
    rw [getSample_setSample, if_neg]
    intro hh
    rcases h with h | h
    · exact h hh.1.1
    · have := Nat.mod_lt (cursor + j) (show 0 < fftSize by decide)
      omega

/-! ### The shape of the buffers along a run -/

theorem beforeDrain_input (E : Env K) (P : Params K) (ms : Nat → K) (channel : Nat)
    (st : State K) (x : K) :
    (beforeDrain E P ms channel st x).fftInputBuffer
      = setSample st.fftInputBuffer channel st.fifoIndex x := by
  unfold beforeDrain
  split
  · unfold processFrame
    rfl
  · rfl

theorem pushSample_input (E : Env K) (P : Params K) (ms : Nat → K) (channel : Nat)
    (st : State K) (x : K) :
    (pushSample E P ms channel st x).1.fftInputBuffer
      = setSample st.fftInputBuffer channel st.fifoIndex x := by
  simp [pushSample, drain, beforeDrain_input]

theorem pushSample_output (E : Env K) (P : Params K) (ms : Nat → K) (channel : Nat)
    (st : State K) (x : K) :
    (pushSample E P ms channel st x).1.fftOutputBuffer
      = setSample (beforeDrain E P ms channel st x).fftOutputBuffer channel
          ((st.fifoIndex + 1) % fftSize) 0 := by
  simp [pushSample, drain, beforeDrain_fifoIndex]

theorem prepareToPlay_sized (st0 : State K) : RingsSized (prepareToPlay st0) := by
  have h : ∀ c, c < 2 →
      ((mkArray 2 (mkArray (fftSize * 2) (0 : K))).getD c #[]).size = fftSize * 2 := by
    intro c hc
    unfold Array.getD
    rw [dif_pos (by simpa using hc)]
    simp
  exact ⟨⟨by simp [prepareToPlay], h⟩, ⟨by simp [prepareToPlay], h⟩⟩

theorem beforeDrain_sized (E : Env K) (P : Params K) (ms : Nat → K) (channel : Nat)
    (st : State K) (x : K) (h : RingsSized st) :
    (beforeDrain E P ms channel st x).fftOutputBuffer.size = 2 ∧
      ∀ c, c < 2 →
        ((beforeDrain E P ms channel st x).fftOutputBuffer.getD c #[]).size = fftSize * 2 := by
  rw [beforeDrain_output]
  split
  · exact sized_overlapFold E channel _ _ _ _ 2 (fftSize * 2) h.2
  · exact h.2

theorem pushSample_sized (E : Env K) (P : Params K) (ms : Nat → K) (channel : Nat)
    (st : State K) (x : K) (h : RingsSized st) :
    RingsSized (pushSample E P ms channel st x).1 := by
  refine ⟨?_, ?_⟩
  · rw [pushSample_input]
    exact sized_setSample _ _ _ _ 2 (fftSize * 2) h.1
  · rw [pushSample_output]
    exact sized_setSample _ _ _ _ 2 (fftSize * 2) (beforeDrain_sized E P ms channel st x h)

theorem streamState_sized (E : Env K) (params : Nat → Params K) (ms : Nat → Nat → K)
    (st0 : State K) (x : Nat → K) (k : Nat) :
    RingsSized (streamState E params ms st0 x k) := by
  induction k with
  | zero => exact prepareToPlay_sized st0
  | succ k ih =>
    rw [streamState_succ]
    exact pushSample_sized E _ _ 0 _ _ ih

/-! ### The input ring of a single-channel stream -/

/-- The input ring after `k` pushes, read from the cursor on: offset `i` holds the sample
pushed `fftSize - i` pushes ago, or the initial zero. -/
theorem streamState_input (E : Env K) (params : Nat → Params K) (ms : Nat → Nat → K)
    (st0 : State K) (x : Nat → K) (k i : Nat) (hi : i < fftSize) :
    getSample (streamState E params ms st0 x k).fftInputBuffer 0 ((k + i) % fftSize)
      = if fftSize ≤ k + i then x (k + i - fftSize) else 0 := by
  induction k generalizing i with
  | zero =>
    have h : ¬ fftSize ≤ 0 + i := by omega
    rw [if_neg h, streamState_zero]
    exact getSample_cleared _ _ _ _
  | succ k ih =>
    have hs := (streamState_sized E params ms st0 x k).1
    simp only [streamState_succ, pushSample_input, streamState_fifoIndex]
    by_cases h : i + 1 = fftSize
    · have e : (k + 1 + i) % fftSize = k % fftSize := by
        rw [show k + 1 + i = k + fftSize by omega, Nat.add_mod_right]
      have e2 : k + 1 + i - fftSize = k := by omega
      have hlt : k % fftSize < fftSize * 2 :=
        lt_of_lt_of_le (Nat.mod_lt _ (by decide)) (by omega)
      rw [e, getSample_setSample_same _ _ _ _ (by rw [hs.1]; decide)
        (by rw [hs.2 0 (by decide)]; exact hlt), if_pos (by omega), e2]
    · have hne : (k + 1 + i) % fftSize ≠ k % fftSize := by
        have h3 := fftSize_eq
        rw [h3] at hi h ⊢
        omega
      rw [getSample_setSample_of_index_ne _ _ _ _ _ _ hne, show k + 1 + i = k + (i + 1) by omega,
        ih (i + 1) (by omega)]

theorem streamAdvanced_fifoIndex (E : Env K) (params : Nat → Params K) (ms : Nat → Nat → K)
    (st0 : State K) (x : Nat → K) (k : Nat) (hk : 0 < k) :
    (streamAdvanced E params ms st0 x k).fifoIndex = k % fftSize := by
  simp only [streamAdvanced, advance_fifoIndex, streamState_fifoIndex, Nat.mod_add_mod]
  rw [show k - 1 + 1 = k by omega]

theorem streamAdvanced_input (E : Env K) (params : Nat → Params K) (ms : Nat → Nat → K)
    (st0 : State K) (x : Nat → K) (k : Nat) (hk : 0 < k) :
    (streamAdvanced E params ms st0 x k).fftInputBuffer
      = (streamState E params ms st0 x k).fftInputBuffer := by
  obtain ⟨j, rfl⟩ : ∃ j, k = j + 1 := ⟨k - 1, by omega⟩
  simp only [streamAdvanced, Nat.add_sub_cancel, streamState_succ, pushSample_input]
  rfl

/-- The windowed frame that the `k`-th push reads from the input ring. -/
theorem windowedFrame_stream (E : Env K) (params : Nat → Params K) (ms : Nat → Nat → K)
    (st0 : State K) (x : Nat → K) (k i : Nat) (hk : 0 < k) (hi : i < fftSize) :
    bin (windowedFrame E 0 (streamAdvanced E params ms st0 x k)) i
      = ⟨(if fftSize ≤ k + i then x (k + i - fftSize) else 0) * E.windowBuffer i, 0⟩ := by
  unfold windowedFrame
  rw [bin_tabulate, if_pos hi, streamAdvanced_fifoIndex E params ms st0 x k hk,
    streamAdvanced_input E params ms st0 x k hk, Nat.mod_add_mod,
    streamState_input E params ms st0 x k i hi]

/-! ### The output ring of a single-channel stream -/

theorem pending_succ (E : Env K) (params : Nat → Params K) (ms : Nat → Nat → K)
    (st0 : State K) (x : Nat → K) (k m : Nat) (hm : m < fftSize) :
    pending E params ms st0 x (k + 1) m
      = pending E params ms st0 x k (m + 1) + addend E params ms st0 x (k + 1) m := by
  unfold pending
  rw [show fftSize - m = (fftSize - (m + 1)) + 1 by omega, Finset.sum_range_succ']
  congr 1
  apply Finset.sum_congr rfl
  intro d _
  rw [Nat.add_sub_add_right, show m + (d + 1) = m + 1 + d by omega]

/-- The state of the stream inside the `k+1`-st push, before the output sample is read:
the cell at offset `m` from the cursor holds `pending (k + 1) m`. -/
theorem beforeDrain_stream (E : Env K) (params : Nat → Params K) (ms : Nat → Nat → K)
    (st0 : State K) (x : Nat → K) (k : Nat)
    (ih : ∀ m, m < fftSize →
      getSample (streamState E params ms st0 x k).fftOutputBuffer 0 ((k + m) % fftSize)
        = if m = 0 then 0 else pending E params ms st0 x k m)
    (m : Nat) (hm : m < fftSize) :
    getSample
        (beforeDrain E (params k) (ms k) 0 (streamState E params ms st0 x k)
          (x k)).fftOutputBuffer 0 ((k + 1 + m) % fftSize)
      = pending E params ms st0 x (k + 1) m := by
  have hs := (streamState_sized E params ms st0 x k).2
  have hprev :
      getSample (streamState E params ms st0 x k).fftOutputBuffer 0 ((k + 1 + m) % fftSize)
        = pending E params ms st0 x k (m + 1) := by
    by_cases h : m + 1 = fftSize
    · have e : (k + 1 + m) % fftSize = (k + 0) % fftSize := by
        rw [show k + 1 + m = k + 0 + fftSize by omega, Nat.add_mod_right]
      rw [e, ih 0 (by omega), if_pos rfl]
      unfold pending
      rw [h, Nat.sub_self, Finset.sum_range_zero]
    · rw [show k + 1 + m = k + (m + 1) by omega, ih (m + 1) (by omega), if_neg (by omega)]
  have hidx : (k + 1 + m) % fftSize
      = (((streamState E params ms st0 x k).fifoIndex + 1) % fftSize + m) % fftSize := by
    rw [streamState_fifoIndex, Nat.mod_add_mod, Nat.add_assoc, Nat.add_assoc, Nat.mod_add_mod]
  rw [pending_succ E params ms st0 x k m hm, beforeDrain_output]
  have hadd : addend E params ms st0 x (k + 1) m
      = if frameDue (advance 0 (streamState E params ms st0 x k) (x k)) then
          (bin (processFrame E (params k) (ms k) 0
            (advance 0 (streamState E params ms st0 x k) (x k))).fftTimeDomainBuffer m).re
            * E.windowBuffer m / ((fftSize : K) / 2)
        else 0 := by
    simp [addend, extractsAt, synthFrame, streamAdvanced]
  rw [hadd]
  split
  · rw [hidx, overlapAdd_at E 0 _ _ _ m 2 (fftSize * 2) hs (by decide) (by omega) hm, ← hidx,
      hprev]
  · rw [hprev, add_zero]

theorem addend_zero (E : Env K) (params : Nat → Params K) (ms : Nat → Nat → K)
    (st0 : State K) (x : Nat → K) (i : Nat) : addend E params ms st0 x 0 i = 0 := by
  simp [addend, extractsAt]

/-- The output ring after `k` pushes: the cell at the cursor has just been cleared, the
cell at offset `m` holds the overlap-add terms that are still waiting to be emitted. -/
theorem streamState_output (E : Env K) (params : Nat → Params K) (ms : Nat → Nat → K)
    (st0 : State K) (x : Nat → K) (k : Nat) :
    ∀ m, m < fftSize →
      getSample (streamState E params ms st0 x k).fftOutputBuffer 0 ((k + m) % fftSize)
        = if m = 0 then 0 else pending E params ms st0 x k m := by
  induction k with
  | zero =>
    intro m _
    have h0 : pending E params ms st0 x 0 m = 0 := by
      unfold pending
      apply Finset.sum_eq_zero
      intro d _
      rw [Nat.zero_sub, addend_zero]
    rw [h0, streamState_zero]
    simp only [ite_self]
    exact getSample_cleared _ _ _ _
  | succ k ih =>
    intro m hm
    have hb := beforeDrain_stream E params ms st0 x k ih m hm
    have hs := beforeDrain_sized E (params k) (ms k) 0 _ (x k)
      (streamState_sized E params ms st0 x k)
    simp only [streamState_succ, pushSample_output, streamState_fifoIndex, Nat.mod_add_mod]
    by_cases h : m = 0
    · subst h
      have hlt : (k + 1) % fftSize < fftSize * 2 :=
        lt_of_lt_of_le (Nat.mod_lt _ (by decide)) (by omega)
      rw [Nat.add_zero, getSample_setSample_same _ _ _ _ (by rw [hs.1]; decide)
        (by rw [hs.2 0 (by decide)]; exact hlt), if_pos rfl]
    · have hne : (k + 1 + m) % fftSize ≠ (k + 1) % fftSize := by
        have h3 := fftSize_eq
        rw [h3] at hm ⊢
        omega
      rw [getSample_setSample_of_index_ne _ _ _ _ _ _ hne, hb, if_neg h]

/-- The sample emitted at the `k`-th push is the sum of the overlap-add terms of the last
`fftSize` pushes that fall on the cursor. -/
theorem streamWet_eq (E : Env K) (params : Nat → Params K) (ms : Nat → Nat → K)
    (st0 : State K) (x : Nat → K) (k : Nat) (hk : 0 < k) :
    streamWet E params ms st0 x k = pending E params ms st0 x k 0 := by
  obtain ⟨j, rfl⟩ : ∃ j, k = j + 1 := ⟨k - 1, by omega⟩
  have hb := beforeDrain_stream E params ms st0 x j (streamState_output E params ms st0 x j) 0
    (by decide)
  simp only [streamWet, Nat.add_sub_cancel, pushSample_wet, streamState_fifoIndex,
    Nat.mod_add_mod]
  rw [Nat.add_zero] at hb
  exact hb

/-! ### The frequency-domain frame of a stream -/

theorem processFrame_frequency (E : Env K) (P : Params K) (ms : Nat → K) (channel : Nat)
    (st : State K) :
    (processFrame E P ms channel st).fftFrequencyDomainBuffer
      = applySpectralProcessing E P ms (forward E (windowedFrame E channel st)) := by
  simp only [processFrame]

theorem processFrame_time (E : Env K) (P : Params K) (ms : Nat → K) (channel : Nat)
    (st : State K) :
    (processFrame E P ms channel st).fftTimeDomainBuffer
      = inverse E (applySpectralProcessing E P ms (forward E (windowedFrame E channel st))) := by
  simp only [processFrame]

theorem beforeDrain_frequency (E : Env K) (P : Params K) (ms : Nat → K) (channel : Nat)
    (st : State K) (x : K) (h : frameDue (advance channel st x) = true) :
    (beforeDrain E P ms channel st x).fftFrequencyDomainBuffer
      = applySpectralProcessing E P ms (forward E (windowedFrame E channel (advance channel st x)))
    := by
  unfold beforeDrain
  rw [if_pos h, processFrame_frequency]

/-- After a push that extracts a frame, the engine holds the processed transform of the
frame it has just read from the input ring. -/
theorem streamState_frequency (E : Env K) (params : Nat → Params K) (ms : Nat → Nat → K)
    (st0 : State K) (x : Nat → K) (k : Nat) (h : extractsAt E params ms st0 x k = true) :
    (streamState E params ms st0 x k).fftFrequencyDomainBuffer
      = applySpectralProcessing E (params (k - 1)) (ms (k - 1))
          (forward E (windowedFrame E 0 (streamAdvanced E params ms st0 x k))) := by
  cases k with
  | zero => simp [extractsAt] at h
  | succ j =>
    simp only [extractsAt, Nat.zero_lt_succ, decide_True, Bool.true_and, streamAdvanced,
      Nat.add_sub_cancel] at h
    simp only [streamState_succ, pushSample, drain, Nat.add_sub_cancel, streamAdvanced]
    exact beforeDrain_frequency E _ _ 0 _ _ h

/-! ### Streams whose effect stage and transform pair are neutral -/

theorem synthFrame_eq (E : Env K) (params : Nat → Params K) (ms : Nat → Nat → K)
    (st0 : State K) (x : Nat → K) (k : Nat) :
    synthFrame E params ms st0 x k
      = inverse E (applySpectralProcessing E (params (k - 1)) (ms (k - 1))
          (forward E (windowedFrame E 0 (streamAdvanced E params ms st0 x k)))) := by
  unfold synthFrame
  rw [processFrame_time]

theorem addend_neutral (E : Env K) (params : Nat → Params K) (ms : Nat → Nat → K)
    (st0 : State K) (x : Nat → K)
    (hEffect : ∀ j fr, applySpectralProcessing E (params j) (ms j) fr = fr)
    (hRound : ∀ (td : Array (Cx K)) (i : Nat), i < fftSize →
      (bin (inverse E (forward E td)) i).re = (bin td i).re)
    (k i : Nat) (hi : i < fftSize) :
    addend E params ms st0 x k i
      = if extractsAt E params ms st0 x k then
          (if fftSize ≤ k + i then x (k + i - fftSize) else 0)
            * E.windowBuffer i * E.windowBuffer i / ((fftSize : K) / 2)
        else 0 := by
  unfold addend
  split
  · rename_i h
    have hk : 0 < k := by
      cases k with
      | zero => simp [extractsAt] at h
      | succ j => exact Nat.succ_pos j
    rw [synthFrame_eq, hEffect, hRound _ i hi, windowedFrame_stream E params ms st0 x k i hk hi]
  · rfl

/-- With a neutral effect stage and an exact transform round trip, the sample emitted at
push `k ≥ fftSize` is the sample pushed `fftSize` pushes earlier (index `k - fftSize`),
times the overlap-add gain. -/
theorem streamWet_neutral (E : Env K) (params : Nat → Params K) (ms : Nat → Nat → K)
    (st0 : State K) (x : Nat → K)
    (hEffect : ∀ j fr, applySpectralProcessing E (params j) (ms j) fr = fr)
    (hRound : ∀ (td : Array (Cx K)) (i : Nat), i < fftSize →
      (bin (inverse E (forward E td)) i).re = (bin td i).re)
    (k : Nat) (hk : fftSize ≤ k) :
    streamWet E params ms st0 x k
      = x (k - fftSize) * olaGain E params ms st0 x k := by
  have hN : (fftSize : K) ≠ 0 := by rw [fftSize_eq]; norm_num
  have hpos : 0 < k := lt_of_lt_of_le (by decide) hk
  rw [streamWet_eq E params ms st0 x k hpos]
  unfold pending olaGain
  rw [Finset.mul_sum, Finset.mul_sum]
  apply Finset.sum_congr rfl
  intro d hd
  rw [Finset.mem_range, Nat.sub_zero] at hd
  rw [Nat.zero_add, addend_neutral E params ms st0 x hEffect hRound (k - d) d hd,
    show k - d + d = k by omega, if_pos hk]
  split
  · field_simp
    ring
  · simp

/-! ### The all-zero stream -/

theorem bin_zeros (n i : Nat) : bin (mkArray n (Cx.zero : Cx K)) i = Cx.zero :=
  getD_mkArray n Cx.zero i

theorem ext_getD {α : Type} (a b : Array α) (d : α) (hs : a.size = b.size)
    (h : ∀ i, a.getD i d = b.getD i d) : a = b := by
  apply Array.ext _ _ hs
  intro i h1 h2
  have := h i
  unfold Array.getD at this
  rw [dif_pos h1, dif_pos h2] at this
  simpa using this

theorem setD_zeros (n i : Nat) :
    (mkArray n (Cx.zero : Cx K)).setD i Cx.zero = mkArray n Cx.zero := by
  apply ext_getD _ _ Cx.zero (by simp)
  intro t
  rw [getD_setD_eq]
  split
  · rw [getD_mkArray]
  · rfl

theorem spreadFold_zeros (S i n : Nat) (l : List Nat) :
    l.foldl (spreadStep S i) (mkArray n (Cx.zero : Cx K)) = mkArray n Cx.zero := by
  induction l with
  | nil => rfl
  | cons j l ih =>
    rw [List.foldl_cons]
    have : spreadStep S i (mkArray n (Cx.zero : Cx K)) j = mkArray n Cx.zero := by
      unfold spreadStep
      rw [bin_zeros, bin_zeros, Cx.zero_scale, Cx.zero_scale, Cx.add_zero_zero, setD_zeros]
    rw [this, ih]

theorem processBin_zeros (E : Env K) (P : Params K) (ms : Nat → K) (n i : Nat) :
    processBin E P ms (mkArray n (Cx.zero : Cx K)) i = mkArray n Cx.zero := by
  have hs : spread P i (mkArray n (Cx.zero : Cx K)) = mkArray n Cx.zero := by
    unfold spread spreadLoop
    split
    · split
      · exact spreadFold_zeros _ _ _ _
      · rfl
    · rfl
  unfold processBin
  split
  · rfl
  · simp only [hs]
    rw [bin_zeros, Cx.zero_scale, setD_zeros, bin_zeros, Cx.conj_zero, setD_zeros]

theorem applySpectralProcessing_zeros (E : Env K) (P : Params K) (ms : Nat → K) (n : Nat) :
    applySpectralProcessing E P ms (mkArray n (Cx.zero : Cx K)) = mkArray n Cx.zero := by
  unfold applySpectralProcessing
  generalize List.range' 1 (numBins - 1) = l
  induction l with
  | nil => rfl
  | cons i l ih => rw [List.foldl_cons, processBin_zeros, ih]

theorem overlapAdd_zero (E : Env K) (channel cursor : Nat) (td : Array (Cx K))
    (buf : Array (Array K)) (htd : ∀ i, (bin td i).re = 0) (c p : Nat) :
    getSample (overlapAdd E channel cursor td buf) c p = getSample buf c p := by
  unfold overlapAdd
  generalize List.range fftSize = l
  induction l generalizing buf with
  | nil => rfl
  | cons j l ih =>
    rw [List.foldl_cons, ih]
    unfold overlapAddStep
    rw [getSample_setSample, htd]
    split
    · rename_i h
      rw [h.1.1, h.1.2]
      simp
    · rfl

theorem tabulate_eq_mkArray {α : Type} (n : Nat) (f : Nat → α) (v : α)
    (h : ∀ i, i < n → f i = v) : tabulate n f = mkArray n v := by
  apply ext_getD _ _ v (by rw [size_tabulate, Array.size_mkArray])
  intro i
  rw [getD_tabulate, getD_mkArray]
  split
  · rename_i hi
    exact h i hi
  · rfl

theorem packReal_zeros :
    packReal (mkArray fftSize (Cx.zero : Cx K)) = mkArray (fftSize * 2) 0 := by
  apply tabulate_eq_mkArray
  intro j _
  rw [bin_zeros]
  simp [Cx.zero]

theorem packComplex_zeros :
    packComplex (mkArray fftSize (Cx.zero : Cx K)) = mkArray (fftSize * 2) 0 := by
  apply tabulate_eq_mkArray
  intro j _
  rw [bin_zeros]
  simp [Cx.zero]

theorem unpack_zeros : unpack (mkArray (fftSize * 2) (0 : K)) = mkArray fftSize Cx.zero := by
  apply tabulate_eq_mkArray
  intro i _
  rw [getD_mkArray, getD_mkArray]
  rfl

theorem unpackReal_zeros :
    unpackReal (mkArray (fftSize * 2) (0 : K)) = mkArray fftSize Cx.zero := by
  apply tabulate_eq_mkArray
  intro i _
  rw [getD_mkArray]
  rfl

theorem processFrame_zero (E : Env K) (P : Params K) (ms : Nat → K) (channel : Nat)
    (st : State K)
    (hF : E.performRealOnlyForwardTransform (mkArray (fftSize * 2) 0) = mkArray (fftSize * 2) 0)
    (hG : E.performRealOnlyInverseTransform (mkArray (fftSize * 2) 0) = mkArray (fftSize * 2) 0)
    (hin : ∀ c p, getSample st.fftInputBuffer c p = 0) (c p : Nat) :
    getSample (processFrame E P ms channel st).fftOutputBuffer c p
      = getSample st.fftOutputBuffer c p := by
  have h1 : windowedFrame E channel st = mkArray fftSize Cx.zero := by
    apply tabulate_eq_mkArray
    intro i _
    rw [hin, zero_mul]
    rfl
  have h6 : inverse E (applySpectralProcessing E P ms (forward E (windowedFrame E channel st)))
      = mkArray fftSize Cx.zero := by
    rw [h1, forward, packReal_zeros, hF, unpack_zeros, applySpectralProcessing_zeros, inverse,
      packComplex_zeros, hG, unpackReal_zeros]
  rw [processFrame_output, processFrame_time, h6]
  exact overlapAdd_zero E channel _ _ _ (fun i => by rw [bin_zeros]; rfl) c p

/-- Pushing a zero sample into zeroed rings emits zero and leaves the rings zeroed. -/
theorem pushSample_zero (E : Env K) (P : Params K) (ms : Nat → K) (channel : Nat)
    (st : State K)
    (hF : E.performRealOnlyForwardTransform (mkArray (fftSize * 2) 0) = mkArray (fftSize * 2) 0)
    (hG : E.performRealOnlyInverseTransform (mkArray (fftSize * 2) 0) = mkArray (fftSize * 2) 0)
    (hst : ZeroRings st) :
    ZeroRings (pushSample E P ms channel st 0).1 ∧ (pushSample E P ms channel st 0).2 = 0 := by
  have hin : ∀ c p, getSample (advance channel st 0).fftInputBuffer c p = 0 := by
    intro c p
    simp only [advance]
    rw [getSample_setSample]
    split
    · rfl
    · exact hst.1 _ _
  have hout : ∀ c p, getSample (beforeDrain E P ms channel st 0).fftOutputBuffer c p = 0 := by
    intro c p
    unfold beforeDrain
    split
    · rw [processFrame_zero E P ms channel _ hF hG hin, advance_output]
      exact hst.2 _ _
    · rw [advance_output]
      exact hst.2 _ _
  refine ⟨⟨?_, ?_⟩, ?_⟩
  · intro c p
    rw [pushSample_input]
    exact hin c p
  · intro c p
    rw [pushSample_output, getSample_setSample]
    split
    · rfl
    · exact hout _ _
  · rw [pushSample_wet]
    exact hout _ _

theorem prepareToPlay_zero (st0 : State K) : ZeroRings (prepareToPlay st0) :=
  ⟨fun _ _ => getSample_cleared _ _ _ _, fun _ _ => getSample_cleared _ _ _ _⟩

theorem streamState_zeroRings (E : Env K) (params : Nat → Params K) (ms : Nat → Nat → K)
    (st0 : State K) (x : Nat → K)
    (hF : E.performRealOnlyForwardTransform (mkArray (fftSize * 2) 0) = mkArray (fftSize * 2) 0)
    (hG : E.performRealOnlyInverseTransform (mkArray (fftSize * 2) 0) = mkArray (fftSize * 2) 0)
    (hx : ∀ j, x j = 0) (k : Nat) :
    ZeroRings (streamState E params ms st0 x k) := by
  induction k with
  | zero => exact prepareToPlay_zero st0
  | succ k ih =>
    rw [streamState_succ, hx k]
    exact (pushSample_zero E _ _ 0 _ hF hG ih).1

/-! ### `processBlock` on several channels -/

theorem processSamples_zero (E : Env K) (P : Params K) (ms : Nat → Nat → Nat → K)
    (channel : Nat)
    (hF : E.performRealOnlyForwardTransform (mkArray (fftSize * 2) 0) = mkArray (fftSize * 2) 0)
    (hG : E.performRealOnlyInverseTransform (mkArray (fftSize * 2) 0) = mkArray (fftSize * 2) 0)
    (xs : List K) (hxs : ∀ v ∈ xs, v = 0) (s : Nat) (st : State K) (hst : ZeroRings st) :
    ZeroRings (processSamples E P ms channel s st xs).1 ∧
      ∀ v ∈ (processSamples E P ms channel s st xs).2, v = 0 := by
  induction xs generalizing s st with
  | nil => exact ⟨hst, fun v hv => by simp [processSamples] at hv⟩
  | cons a xs ih =>
    have ha : a = 0 := hxs a (List.mem_cons_self _ _)
    subst ha
    have h1 := pushSample_zero E P (ms channel s) channel st hF hG hst
    have h2 := ih (fun v hv => hxs v (List.mem_cons_of_mem _ hv)) (s + 1) _ h1.1
    refine ⟨h2.1, ?_⟩
    intro v hv
    simp only [processSamples, List.mem_cons] at hv
    rcases hv with hv | hv
    · rw [hv]; exact h1.2
    · exact h2.2 v hv

theorem processChannels_zero (E : Env K) (P : Params K) (ms : Nat → Nat → Nat → K)
    (hF : E.performRealOnlyForwardTransform (mkArray (fftSize * 2) 0) = mkArray (fftSize * 2) 0)
    (hG : E.performRealOnlyInverseTransform (mkArray (fftSize * 2) 0) = mkArray (fftSize * 2) 0)
    (buffer : List (List K)) (hb : ∀ c ∈ buffer, ∀ v ∈ c, v = 0) (channel : Nat)
    (st : State K) (hst : ZeroRings st) :
    ZeroRings (processChannels E P ms channel st buffer).1 ∧
      ∀ c ∈ (processChannels E P ms channel st buffer).2, ∀ v ∈ c, v = 0 := by
  induction buffer generalizing channel st with
  | nil => exact ⟨hst, fun c hc => by simp [processChannels] at hc⟩
  | cons c cs ih =>
    have h1 := processSamples_zero E P ms channel hF hG c (hb c (List.mem_cons_self _ _)) 0 st
      hst
    have h2 := ih (fun c' hc' => hb c' (List.mem_cons_of_mem _ hc')) (channel + 1) _ h1.1
    refine ⟨h2.1, ?_⟩
    intro c' hc'
    simp only [processChannels, List.mem_cons] at hc'
    rcases hc' with hc' | hc'
    · rw [hc']; exact h1.2
    · exact h2.2 c' hc'

theorem zipWith_mix_zero (P : Params K) (dry wet : List K) (hd : ∀ v ∈ dry, v = 0)
    (hw : ∀ v ∈ wet, v = 0) : ∀ v ∈ List.zipWith (mix P) dry wet, v = 0 := by
  induction dry generalizing wet with
  | nil => intro v hv; simp at hv
  | cons a dry ih =>
    cases wet with
    | nil => intro v hv; simp at hv
    | cons b wet =>
      intro v hv
      rw [List.zipWith_cons_cons, List.mem_cons] at hv
      rcases hv with hv | hv
      · rw [hv, hd a (List.mem_cons_self _ _), hw b (List.mem_cons_self _ _)]
        simp [mix]
      · exact ih wet (fun v hv => hd v (List.mem_cons_of_mem _ hv))
          (fun v hv => hw v (List.mem_cons_of_mem _ hv)) v hv

theorem zipWith_zipWith_mix_zero (P : Params K) (dry wet : List (List K))
    (hd : ∀ c ∈ dry, ∀ v ∈ c, v = 0) (hw : ∀ c ∈ wet, ∀ v ∈ c, v = 0) :
    ∀ c ∈ List.zipWith (fun d w => List.zipWith (mix P) d w) dry wet, ∀ v ∈ c, v = 0 := by
  induction dry generalizing wet with
  | nil => intro c hc; simp at hc
  | cons a dry ih =>
    cases wet with
    | nil => intro c hc; simp at hc
    | cons b wet =>
      intro c hc
      rw [List.zipWith_cons_cons, List.mem_cons] at hc
      rcases hc with hc | hc
      · rw [hc]
        exact zipWith_mix_zero P a b (hd a (List.mem_cons_self _ _))
          (hw b (List.mem_cons_self _ _))
      · exact ih wet (fun c hc => hd c (List.mem_cons_of_mem _ hc))
          (fun c hc => hw c (List.mem_cons_of_mem _ hc)) c hc

theorem processSamples_fifoIndex (E : Env K) (P : Params K) (ms : Nat → Nat → Nat → K)
    (channel : Nat) (xs : List K) (s : Nat) (st : State K) (hst : st.fifoIndex < fftSize) :
    (processSamples E P ms channel s st xs).1.fifoIndex
      = (st.fifoIndex + xs.length) % fftSize := by
  induction xs generalizing s st with
  | nil => simp [processSamples, Nat.mod_eq_of_lt hst]
  | cons a xs ih =>
    simp only [processSamples, List.length_cons]
    rw [ih (s + 1) _ (by rw [pushSample_fifoIndex]; exact Nat.mod_lt _ (by decide)),
      pushSample_fifoIndex, Nat.mod_add_mod]
    congr 1
    omega

/-- On two channels the shared cursor moves once per sample of either channel. -/
theorem processBlock_fifoIndex_two (E : Env K) (P : Params K) (ms : Nat → Nat → Nat → K)
    (st : State K) (c0 c1 : List K) (hst : st.fifoIndex < fftSize) :
    (processBlock E P ms st [c0, c1]).1.fifoIndex
      = (st.fifoIndex + (c0.length + c1.length)) % fftSize := by
  simp only [processBlock, processChannels]
  rw [processSamples_fifoIndex E P ms _ c1 0 _
      (by rw [processSamples_fifoIndex E P ms _ c0 0 st hst]; exact Nat.mod_lt _ (by decide)),
    processSamples_fifoIndex E P ms _ c0 0 st hst, Nat.mod_add_mod, Nat.add_assoc]

/-! ### Facts about the concrete environment -/

theorem forward_idEnv (td : Array (Cx ℚ)) (i : Nat) (hi : i < fftSize) :
    bin (forward idEnv td) i = ⟨(bin td i).re, 0⟩ := by
  have h1 : i * 2 < fftSize * 2 := by omega
  have h2 : i * 2 + 1 < fftSize * 2 := by omega
  have h3 : (i * 2 + 1) % 2 ≠ 0 := by omega
  simp only [forward, unpack, idEnv, packReal]
  rw [bin_tabulate, if_pos hi, getD_tabulate, getD_tabulate, if_pos h1, if_pos h2,
    if_neg h3, if_pos (Nat.mul_mod_left i 2), Nat.mul_div_cancel i (show 0 < 2 by decide)]

theorem roundTrip_idEnv (td : Array (Cx ℚ)) (i : Nat) (hi : i < fftSize) :
    (bin (inverse idEnv (forward idEnv td)) i).re = (bin td i).re := by
  have h1 : i * 2 < fftSize * 2 := by omega
  have hf := forward_idEnv td i hi
  simp only [inverse, unpackReal, packComplex]
  rw [bin_tabulate, if_pos hi]
  simp only [idEnv] at hf ⊢
  rw [getD_tabulate, if_pos h1, if_pos (Nat.mul_mod_left i 2),
    Nat.mul_div_cancel i (show 0 < 2 by decide), hf]

theorem size_rampFrame : rampFrame.size = fftSize := size_tabulate _ _

theorem rampRing_sized :
    rampRing.size = 2 ∧ ∀ c, c < 2 → (rampRing.getD c #[]).size = fftSize * 2 := by
  refine ⟨by simp [rampRing], ?_⟩
  intro c hc
  unfold rampRing Array.getD
  rw [dif_pos (by simpa using hc)]
  simp [size_tabulate]

/-! ## The claims -/

/-- C1 (evaluation of the code): from the prepared state no push before the `2 * hopSize`-th
extracts a frame (in particular not push `hopSize`), push `2 * hopSize` does, and no push
that leaves the cursor at `hopSize` ever does. -/
theorem first_extraction_at_two_hops (E : Env K) (params : Nat → Params K)
    (ms : Nat → Nat → K) (st0 : State K) (x : Nat → K) :
    (∀ k, k < 2 * hopSize → extractsAt E params ms st0 x k = false) ∧
      extractsAt E params ms st0 x (2 * hopSize) = true ∧
      ∀ q, extractsAt E params ms st0 x (q * fftSize + hopSize) = false := by
  have h3 := fftSize_eq
  have h4 := hopSize_eq
  refine ⟨?_, ?_, ?_⟩
  · intro k hk
    rw [← Bool.not_eq_true, extractsAt_iff]
    rw [h3, h4] at *
    omega
  · rw [extractsAt_iff]
    rw [h3, h4]
    omega
  · intro q
    rw [← Bool.not_eq_true, extractsAt_iff]
    rw [h3, h4]
    omega

/-- C2 (counterexample): fully wet, frozen (so the effect stage is neutral), transforms that
are an exact round trip, and an impulse at index `hopSize`: output sample `fftSize` is 0,
not the input sample at index `fftSize - (fftSize - hopSize) = hopSize`, which is 1. -/
theorem passthrough_latency_counterexample :
    heldParams.wetDry = 1 ∧
      (∀ fr, applySpectralProcessing idEnv heldParams (fun _ => 0) fr = fr) ∧
      (∀ (td : Array (Cx ℚ)) (i : Nat), i < fftSize →
        (bin (inverse idEnv (forward idEnv td)) i).re = (bin td i).re) ∧
      fftSize ≤ 4096 ∧
      streamOutput idEnv (fun _ => heldParams) (fun _ _ => 0) zeroState (impulseAt 1024) 4096
        ≠ impulseAt 1024 (4096 - (fftSize - hopSize)) := by
  refine ⟨rfl, fun fr => applySpectralProcessing_frozen _ _ _ fr rfl, roundTrip_idEnv,
    by decide, ?_⟩
  have h := streamWet_neutral idEnv (fun _ => heldParams) (fun _ _ => 0) zeroState
    (impulseAt 1024) (fun _ fr => applySpectralProcessing_frozen _ _ _ fr rfl) roundTrip_idEnv
    (4096 + 1) (by decide)
  have e1 : impulseAt 1024 (4096 + 1 - fftSize) = 0 := by
    rw [fftSize_eq]; simp [impulseAt]
  have e2 : impulseAt 1024 (4096 - (fftSize - hopSize)) = 1 := by
    rw [fftSize_eq, hopSize_eq]; simp [impulseAt]
  rw [e1, zero_mul] at h
  have hwet : streamWet idEnv (fun _ => heldParams) (fun _ _ => 0) zeroState (impulseAt 1024)
      (4096 + 1) = 0 := h
  have hout : streamOutput idEnv (fun _ => heldParams) (fun _ _ => 0) zeroState
      (impulseAt 1024) 4096
        = mix heldParams (impulseAt 1024 4096)
            (streamWet idEnv (fun _ => heldParams) (fun _ _ => 0) zeroState (impulseAt 1024)
              (4096 + 1)) := by
    unfold streamOutput
    rfl
  rw [e2, hout, hwet]
  simp [mix, heldParams]

/-- C2 (amended): fully wet, with a neutral effect stage and an exact transform round trip,
output sample `t ≥ fftSize - 1` is the input sample at index `t - (fftSize - 1)` times the
overlap-add gain: `2 / fftSize` times the sum of the squared window coefficients of the
frames extracted during the last `fftSize` pushes. -/
theorem passthrough_delay_and_gain (E : Env K) (params : Nat → Params K)
    (ms : Nat → Nat → K) (st0 : State K) (x : Nat → K) (t : Nat)
    (hwet : (params t).wetDry = 1)
    (hEffect : ∀ j fr, applySpectralProcessing E (params j) (ms j) fr = fr)
    (hRound : ∀ (td : Array (Cx K)) (i : Nat), i < fftSize →
      (bin (inverse E (forward E td)) i).re = (bin td i).re)
    (ht : fftSize - 1 ≤ t) :
    streamOutput E params ms st0 x t
      = x (t - (fftSize - 1)) * olaGain E params ms st0 x (t + 1) := by
  have h3 := fftSize_eq
  have h := streamWet_neutral E params ms st0 x hEffect hRound (t + 1) (by omega)
  rw [show t + 1 - fftSize = t - (fftSize - 1) by omega] at h
  simp only [streamOutput, mix, hwet, h]
  ring

theorem passthrough_delay_and_gain_witness :
    heldParams.wetDry = 1 ∧
      (∀ fr : Array (Cx ℚ), applySpectralProcessing idEnv heldParams (fun _ => 0) fr = fr) ∧
      (∀ (td : Array (Cx ℚ)) (i : Nat), i < fftSize →
        (bin (inverse idEnv (forward idEnv td)) i).re = (bin td i).re) ∧
      fftSize - 1 ≤ 4096 ∧
      streamOutput idEnv (fun _ => heldParams) (fun _ _ => 0) zeroState (impulseAt 1) 4096
        = impulseAt 1 (4096 - (fftSize - 1))
          * olaGain idEnv (fun _ => heldParams) (fun _ _ => 0) zeroState (impulseAt 1)
              (4096 + 1) :=
  ⟨rfl, fun fr => applySpectralProcessing_frozen _ _ _ fr rfl, roundTrip_idEnv, by decide,
    passthrough_delay_and_gain idEnv (fun _ => heldParams) (fun _ _ => 0) zeroState
      (impulseAt 1) 4096 rfl (fun _ fr => applySpectralProcessing_frozen _ _ _ fr rfl)
      roundTrip_idEnv (by decide)⟩

/-- C3: with transforms that map the zero buffer to the zero buffer, an all-zero
single-channel stream started from the prepared state leaves every cell of both rings zero
after every push and every output sample is zero, whatever the parameters are; and every
call of `processBlock` on an all-zero block (any number of channels, any length) from a
state with zeroed rings returns an all-zero block and leaves the rings zeroed. -/
theorem zero_stream_silent (E : Env K) (params : Nat → Params K) (ms : Nat → Nat → K)
    (st0 : State K) (x : Nat → K)
    (hF : E.performRealOnlyForwardTransform (mkArray (fftSize * 2) 0) = mkArray (fftSize * 2) 0)
    (hG : E.performRealOnlyInverseTransform (mkArray (fftSize * 2) 0) = mkArray (fftSize * 2) 0)
    (hx : ∀ j, x j = 0) (k : Nat) :
    (∀ c p, getSample (streamState E params ms st0 x k).fftOutputBuffer c p = 0) ∧
      streamOutput E params ms st0 x k = 0 ∧
      ∀ (P : Params K) (ms3 : Nat → Nat → Nat → K) (st : State K) (buffer : List (List K)),
        ZeroRings st → (∀ c ∈ buffer, ∀ v ∈ c, v = 0) →
          ZeroRings (processBlock E P ms3 st buffer).1 ∧
            ∀ c ∈ (processBlock E P ms3 st buffer).2, ∀ v ∈ c, v = 0 := by
  have hz := streamState_zeroRings E params ms st0 x hF hG hx
  refine ⟨(hz k).2, ?_, ?_⟩
  · have h := (pushSample_zero E (params k) (ms k) 0 _ hF hG (hz k)).2
    unfold streamOutput streamWet mix
    rw [Nat.add_sub_cancel, hx k, h]
    simp
  · intro P ms3 st buffer hst hb
    have h := processChannels_zero E P ms3 hF hG buffer hb 0 st hst
    exact ⟨h.1, zipWith_zipWith_mix_zero P buffer _ hb h.2⟩

theorem zero_stream_silent_witness :
    (idEnv.performRealOnlyForwardTransform (mkArray (fftSize * 2) 0)
        = mkArray (fftSize * 2) 0) ∧
      (idEnv.performRealOnlyInverseTransform (mkArray (fftSize * 2) 0)
        = mkArray (fftSize * 2) 0) ∧
      (∀ j : Nat, (fun _ => (0 : ℚ)) j = 0) ∧
      ((∀ c p, getSample (streamState idEnv (fun _ => defaultParams) (fun _ _ => 0) zeroState
          (fun _ => 0) (4 * fftSize)).fftOutputBuffer c p = 0) ∧
        streamOutput idEnv (fun _ => defaultParams) (fun _ _ => 0) zeroState (fun _ => 0)
          (4 * fftSize) = 0 ∧
        ∀ (P : Params ℚ) (ms3 : Nat → Nat → Nat → ℚ) (st : State ℚ) (buffer : List (List ℚ)),
          ZeroRings st → (∀ c ∈ buffer, ∀ v ∈ c, v = 0) →
            ZeroRings (processBlock idEnv P ms3 st buffer).1 ∧
              ∀ c ∈ (processBlock idEnv P ms3 st buffer).2, ∀ v ∈ c, v = 0) :=
  ⟨rfl, rfl, fun _ => rfl,
    zero_stream_silent idEnv (fun _ => defaultParams) (fun _ _ => 0) zeroState (fun _ => 0)
      rfl rfl (fun _ => rfl) (4 * fftSize)⟩

/-- C4: with freeze off, for every bin `i` with `1 ≤ i < fftSize / 2` the frame returned by
`applySpectralProcessing` has `frame[fftSize - i] = conj (frame[i])`, for every input frame
of `fftSize` bins and every parameter setting. -/
theorem conjugate_symmetry (E : Env K) (P : Params K) (ms : Nat → K) (fr : Array (Cx K))
    (i : Nat) (hsz : fr.size = fftSize) (hf : P.freeze = false) (h1 : 1 ≤ i)
    (hi : i < fftSize / 2) :
    bin (applySpectralProcessing E P ms fr) (fftSize - i)
      = (bin (applySpectralProcessing E P ms fr) i).conj :=
  (applySpectralProcessing_bin E P ms fr i hsz hf h1 hi).2

theorem conjugate_symmetry_witness :
    rampFrame.size = fftSize ∧ defaultParams.freeze = false ∧ 1 ≤ 7 ∧ 7 < fftSize / 2 ∧
      bin (applySpectralProcessing idEnv defaultParams (fun _ => 0) rampFrame) (fftSize - 7)
        = (bin (applySpectralProcessing idEnv defaultParams (fun _ => 0) rampFrame) 7).conj :=
  ⟨size_rampFrame, rfl, by decide, by decide,
    conjugate_symmetry idEnv defaultParams (fun _ => 0) rampFrame 7 size_rampFrame rfl
      (by decide) (by decide)⟩

/-- C5 (counterexample): freeze is on throughout; pushes 2048 and 3072 are consecutive
extractions of the stream that is 1 at index 0 and 0 elsewhere; the frequency-domain
frame after the second differs from the frame after the first. -/
theorem freeze_frame_counterexample :
    heldParams.freeze = true ∧
      extractsAt idEnv (fun _ => heldParams) (fun _ _ => 0) zeroState (impulseAt 0) 2048 = true ∧
      extractsAt idEnv (fun _ => heldParams) (fun _ _ => 0) zeroState (impulseAt 0) 3072 = true ∧
      (∀ j, 2048 < j → j < 3072 →
        extractsAt idEnv (fun _ => heldParams) (fun _ _ => 0) zeroState (impulseAt 0) j = false) ∧
      (streamState idEnv (fun _ => heldParams) (fun _ _ => 0) zeroState (impulseAt 0)
          3072).fftFrequencyDomainBuffer
        ≠ (streamState idEnv (fun _ => heldParams) (fun _ _ => 0) zeroState (impulseAt 0)
          2048).fftFrequencyDomainBuffer := by
  have h3 := fftSize_eq
  have h4 := hopSize_eq
  have hA : extractsAt idEnv (fun _ => heldParams) (fun _ _ => 0) zeroState (impulseAt 0) 2048
      = true := by
    rw [extractsAt_iff, h3, h4]; omega
  have hB : extractsAt idEnv (fun _ => heldParams) (fun _ _ => 0) zeroState (impulseAt 0) 3072
      = true := by
    rw [extractsAt_iff, h3, h4]; omega
  refine ⟨rfl, hA, hB, ?_, ?_⟩
  · intro j hj1 hj2
    rw [← Bool.not_eq_true, extractsAt_iff, h3, h4]
    omega
  · intro h
    have hbin := congrArg (fun f => (bin f 2048).re) h
    simp only at hbin
    rw [streamState_frequency _ _ _ _ _ _ hA, streamState_frequency _ _ _ _ _ _ hB,
      applySpectralProcessing_frozen _ _ _ _ rfl, applySpectralProcessing_frozen _ _ _ _ rfl,
      forward_idEnv _ 2048 (by decide), forward_idEnv _ 2048 (by decide),
      windowedFrame_stream _ _ _ _ _ 2048 2048 (by decide) (by decide),
      windowedFrame_stream _ _ _ _ _ 3072 2048 (by decide) (by decide)] at hbin
    simp only [h3] at hbin
    norm_num [impulseAt, idEnv, parabolicWindow] at hbin

/-- C5 (amended): a push that extracts a frame with freeze on leaves in the engine the
forward transform of the frame it has just read from the input ring, untouched by the
effect stage; element `i` of that frame is `windowBuffer[i]` times the sample pushed
`fftSize - i` pushes before (zero if there is none), so the held frame follows the input. -/
theorem freeze_frame_follows_input (E : Env K) (params : Nat → Params K)
    (ms : Nat → Nat → K) (st0 : State K) (x : Nat → K) (k : Nat)
    (h : extractsAt E params ms st0 x k = true) (hf : (params (k - 1)).freeze = true) :
    (streamState E params ms st0 x k).fftFrequencyDomainBuffer
        = forward E (windowedFrame E 0 (streamAdvanced E params ms st0 x k)) ∧
      ∀ i, i < fftSize →
        bin (windowedFrame E 0 (streamAdvanced E params ms st0 x k)) i
          = ⟨(if fftSize ≤ k + i then x (k + i - fftSize) else 0) * E.windowBuffer i, 0⟩ := by
  have hk : 0 < k := by
    cases k with
    | zero => simp [extractsAt] at h
    | succ j => exact Nat.succ_pos j
  refine ⟨?_, fun i hi => windowedFrame_stream E params ms st0 x k i hk hi⟩
  rw [streamState_frequency E params ms st0 x k h, applySpectralProcessing_frozen _ _ _ _ hf]

theorem freeze_frame_follows_input_witness :
    extractsAt idEnv (fun _ => heldParams) (fun _ _ => 0) zeroState (impulseAt 0) 2048 = true ∧
      ((fun _ => heldParams) (2048 - 1) : Params ℚ).freeze = true ∧
      ((streamState idEnv (fun _ => heldParams) (fun _ _ => 0) zeroState (impulseAt 0)
          2048).fftFrequencyDomainBuffer
        = forward idEnv (windowedFrame idEnv 0
            (streamAdvanced idEnv (fun _ => heldParams) (fun _ _ => 0) zeroState (impulseAt 0)
              2048)) ∧
      ∀ i, i < fftSize →
        bin (windowedFrame idEnv 0
            (streamAdvanced idEnv (fun _ => heldParams) (fun _ _ => 0) zeroState (impulseAt 0)
              2048)) i
          = ⟨(if fftSize ≤ 2048 + i then impulseAt 0 (2048 + i - fftSize) else 0)
              * idEnv.windowBuffer i, 0⟩) :=
  have hA : extractsAt idEnv (fun _ => heldParams) (fun _ _ => 0) zeroState (impulseAt 0) 2048
      = true := by
    rw [extractsAt_iff, fftSize_eq, hopSize_eq]; omega
  ⟨hA, rfl,
    freeze_frame_follows_input idEnv (fun _ => heldParams) (fun _ _ => 0) zeroState
      (impulseAt 0) 2048 hA rfl⟩

/-- C6: with freeze on, `applySpectralProcessing` returns its input frame, equal in every
bin, whatever the other eight parameters are. -/
theorem freeze_noop (E : Env K) (P : Params K) (ms : Nat → K) (fr : Array (Cx K))
    (hf : P.freeze = true) :
    applySpectralProcessing E P ms fr = fr ∧
      ∀ i, bin (applySpectralProcessing E P ms fr) i = bin fr i := by
  rw [applySpectralProcessing_frozen E P ms fr hf]
  exact ⟨rfl, fun _ => rfl⟩

theorem freeze_noop_witness :
    heldParams.freeze = true ∧
      (applySpectralProcessing idEnv heldParams (fun _ => 0) rampFrame = rampFrame ∧
        ∀ i, bin (applySpectralProcessing idEnv heldParams (fun _ => 0) rampFrame) i
          = bin rampFrame i) :=
  ⟨rfl, freeze_noop idEnv heldParams (fun _ => 0) rampFrame rfl⟩

/-- In exact arithmetic (where no value overflows): the source's cutoffs put bins 1..204 in
the low band, 205..819 in the mid band and 820..2047 in the high band; with freeze off, a
band whose gain is 0 has every bin and its mirror bin `fftSize - i` exactly zero after
`applySpectralProcessing`, for every input frame of `fftSize` bins and every setting of the
other parameters. The statement for the program's `float`s is in the last
part of this file. -/
theorem band_isolation_exact (E : Env K) (P : Params K) (ms : Nat → K) (fr : Array (Cx K))
    (i : Nat)
    (hsz : fr.size = fftSize) (hf : P.freeze = false) (h1 : 1 ≤ i) (hi : i < fftSize / 2) :
    (((i : K) < lowCutoff) ↔ i ≤ 204) ∧ (((i : K) < midCutoff) ↔ i ≤ 819) ∧
      (i ≤ 204 → P.lowBand = 0 →
        bin (applySpectralProcessing E P ms fr) i = Cx.zero ∧
          bin (applySpectralProcessing E P ms fr) (fftSize - i) = Cx.zero) ∧
      (205 ≤ i → i ≤ 819 → P.midBand = 0 →
        bin (applySpectralProcessing E P ms fr) i = Cx.zero ∧
          bin (applySpectralProcessing E P ms fr) (fftSize - i) = Cx.zero) ∧
      (820 ≤ i → P.highBand = 0 →
        bin (applySpectralProcessing E P ms fr) i = Cx.zero ∧
          bin (applySpectralProcessing E P ms fr) (fftSize - i) = Cx.zero) := by
  refine ⟨lt_lowCutoff_iff i, lt_midCutoff_iff i, ?_, ?_, ?_⟩
  · intro hb hz
    apply applySpectralProcessing_muted E P ms fr i hsz hf h1 hi
    rw [band_cases, if_pos hb, hz]
  · intro hb1 hb2 hz
    apply applySpectralProcessing_muted E P ms fr i hsz hf h1 hi
    rw [band_cases, if_neg (by omega), if_pos hb2, hz]
  · intro hb hz
    apply applySpectralProcessing_muted E P ms fr i hsz hf h1 hi
    rw [band_cases, if_neg (by omega), if_neg (by omega), hz]

theorem band_isolation_exact_witness :
    rampFrame.size = fftSize ∧ lowMutedParams.freeze = false ∧ 1 ≤ 100 ∧ 100 < fftSize / 2 ∧
      ((((100 : Nat) : ℚ) < lowCutoff) ↔ 100 ≤ 204) ∧
      ((((100 : Nat) : ℚ) < midCutoff) ↔ 100 ≤ 819) ∧
      (100 ≤ 204 → lowMutedParams.lowBand = 0 →
        bin (applySpectralProcessing idEnv lowMutedParams (fun _ => 0) rampFrame) 100
            = Cx.zero ∧
          bin (applySpectralProcessing idEnv lowMutedParams (fun _ => 0) rampFrame)
            (fftSize - 100) = Cx.zero) ∧
      (205 ≤ 100 → 100 ≤ 819 → lowMutedParams.midBand = 0 →
        bin (applySpectralProcessing idEnv lowMutedParams (fun _ => 0) rampFrame) 100
            = Cx.zero ∧
          bin (applySpectralProcessing idEnv lowMutedParams (fun _ => 0) rampFrame)
            (fftSize - 100) = Cx.zero) ∧
      (820 ≤ 100 → lowMutedParams.highBand = 0 →
        bin (applySpectralProcessing idEnv lowMutedParams (fun _ => 0) rampFrame) 100
            = Cx.zero ∧
          bin (applySpectralProcessing idEnv lowMutedParams (fun _ => 0) rampFrame)
            (fftSize - 100) = Cx.zero) :=
  ⟨size_rampFrame, rfl, by decide, by decide,
    band_isolation_exact idEnv lowMutedParams (fun _ => 0) rampFrame 100 size_rampFrame rfl
      (by decide) (by decide)⟩

/-- C8 (evaluation of the code): a block of one sample on two channels, from the prepared
state: sample 0 of channel 0 is written at input-ring index 0, sample 0 of channel 1 at
index 1 (index 0 of channel 1 keeps its zero), and the cursor after the block is 2, not 1;
in general the cursor after a two-channel block moves by the number of samples of both
channels together. -/
theorem stereo_block_cursor (E : Env K) (P : Params K) (ms : Nat → Nat → Nat → K)
    (st0 : State K) (a b : K) :
    getSample (processBlock E P ms (prepareToPlay st0) [[a], [b]]).1.fftInputBuffer 0 0 = a ∧
      getSample (processBlock E P ms (prepareToPlay st0) [[a], [b]]).1.fftInputBuffer 1 1 = b ∧
      getSample (processBlock E P ms (prepareToPlay st0) [[a], [b]]).1.fftInputBuffer 1 0 = 0 ∧
      (processBlock E P ms (prepareToPlay st0) [[a], [b]]).1.fifoIndex = 2 ∧
      ∀ (st : State K) (c0 c1 : List K), st.fifoIndex < fftSize →
        (processBlock E P ms st [c0, c1]).1.fifoIndex
          = (st.fifoIndex + (c0.length + c1.length)) % fftSize := by
  have h1 : (1 : Nat) % fftSize = 1 := by decide
  have h2 : (1 + 1 : Nat) % fftSize = 2 := by decide
  have hs := (prepareToPlay_sized st0).1
  have hs1 := sized_setSample (prepareToPlay st0).fftInputBuffer 0 0 a 2 (fftSize * 2) hs
  have hz : (prepareToPlay st0).fifoIndex = 0 := rfl
  simp only [processBlock, processChannels, processSamples, pushSample_input,
    pushSample_fifoIndex, hz, Nat.zero_add, h1, h2]
  refine ⟨?_, ?_, ?_, trivial,
    fun st c0 c1 hst => processBlock_fifoIndex_two E P ms st c0 c1 hst⟩
  · rw [getSample_setSample_of_channel_ne _ _ _ _ _ _ (by decide),
      getSample_setSample_same _ _ _ _ (by rw [hs.1]; decide)
        (by rw [hs.2 0 (by decide)]; decide)]
  · rw [getSample_setSample_same _ _ _ _ (by rw [hs1.1]; decide)
      (by rw [hs1.2 1 (by decide)]; decide)]
  · rw [getSample_setSample_of_index_ne _ _ _ _ _ _ (by decide),
      getSample_setSample_of_channel_ne _ _ _ _ _ _ (by decide)]
    exact getSample_cleared _ _ _ _

/-- C9: in a single-channel stream, when the `k`-th push extracts a frame and `k ≥ fftSize`,
element `i` of the extracted frame is `windowBuffer[i] * x[k - fftSize + i]` for every
`i < fftSize`, and this frame is the one whose processed transform the engine then holds. -/
theorem frame_extraction_order (E : Env K) (params : Nat → Params K) (ms : Nat → Nat → K)
    (st0 : State K) (x : Nat → K) (k i : Nat) (hk : fftSize ≤ k)
    (hx : extractsAt E params ms st0 x k = true) (hi : i < fftSize) :
    bin (windowedFrame E 0 (streamAdvanced E params ms st0 x k)) i
        = ⟨E.windowBuffer i * x (k - fftSize + i), 0⟩ ∧
      (streamState E params ms st0 x k).fftFrequencyDomainBuffer
        = applySpectralProcessing E (params (k - 1)) (ms (k - 1))
            (forward E (windowedFrame E 0 (streamAdvanced E params ms st0 x k))) := by
  have hpos : 0 < k := lt_of_lt_of_le (by decide) hk
  refine ⟨?_, streamState_frequency E params ms st0 x k hx⟩
  rw [windowedFrame_stream E params ms st0 x k i hpos hi, if_pos (by omega),
    show k + i - fftSize = k - fftSize + i by omega, mul_comm]

theorem frame_extraction_order_witness :
    fftSize ≤ 4096 ∧
      extractsAt idEnv (fun _ => defaultParams) (fun _ _ => 0) zeroState (impulseAt 5) 4096
        = true ∧
      5 < fftSize ∧
      (bin (windowedFrame idEnv 0
          (streamAdvanced idEnv (fun _ => defaultParams) (fun _ _ => 0) zeroState (impulseAt 5)
            4096)) 5
        = ⟨idEnv.windowBuffer 5 * impulseAt 5 (4096 - fftSize + 5), 0⟩ ∧
      (streamState idEnv (fun _ => defaultParams) (fun _ _ => 0) zeroState (impulseAt 5)
          4096).fftFrequencyDomainBuffer
        = applySpectralProcessing idEnv ((fun _ => defaultParams) (4096 - 1))
            ((fun _ _ => 0) (4096 - 1))
            (forward idEnv (windowedFrame idEnv 0
              (streamAdvanced idEnv (fun _ => defaultParams) (fun _ _ => 0) zeroState
                (impulseAt 5) 4096)))) :=
  have hA : extractsAt idEnv (fun _ => defaultParams) (fun _ _ => 0) zeroState (impulseAt 5)
      4096 = true := by
    rw [extractsAt_iff, fftSize_eq, hopSize_eq]; omega
  ⟨by decide, hA, by decide,
    frame_extraction_order idEnv (fun _ => defaultParams) (fun _ _ => 0) zeroState
      (impulseAt 5) 4096 5 (by decide) hA (by decide)⟩

/-- C10: on an output buffer of 2 channels of `fftSize * 2` samples, the overlap-add loop at
cursor `c` adds `y[i] * windowBuffer[i] * (2 / fftSize)` to cell `(c + i) mod fftSize` of
the channel's ring for every `i < fftSize`; no other offset maps to that cell, every cell
index below `fftSize` is the image of some offset, and the other channel and the cells
from `fftSize` on are left as they are. -/
theorem overlap_add_accumulates (E : Env K) (channel c : Nat) (y : Array (Cx K))
    (buf : Array (Array K)) (i : Nat)
    (hb : buf.size = 2 ∧ ∀ c, c < 2 → (buf.getD c #[]).size = fftSize * 2)
    (hc : channel < 2) (hi : i < fftSize) :
    getSample (overlapAdd E channel c y buf) channel ((c + i) % fftSize)
        = getSample buf channel ((c + i) % fftSize)
          + (bin y i).re * E.windowBuffer i * (2 / (fftSize : K)) ∧
      (∀ j, j < fftSize → (c + j) % fftSize = (c + i) % fftSize → j = i) ∧
      (∃ j, j < fftSize ∧ (c + j) % fftSize = i) ∧
      ∀ c2 p, c2 ≠ channel ∨ fftSize ≤ p →
        getSample (overlapAdd E channel c y buf) c2 p = getSample buf c2 p := by
  have h3 := fftSize_eq
  have hN : (fftSize : K) ≠ 0 := by rw [fftSize_eq]; norm_num
  refine ⟨?_, ?_, ?_, ?_⟩
  · rw [overlapAdd_at E channel c y buf i 2 (fftSize * 2) hb hc (by omega) hi]
    congr 1
    field_simp
  · intro j hj h
    rw [h3] at hi hj h
    omega
  · refine ⟨(i + fftSize - c % fftSize) % fftSize, Nat.mod_lt _ (by decide), ?_⟩
    rw [h3] at hi ⊢
    omega
  · intro c2 p hp
    exact overlapAdd_fold_outside E channel c y buf _ c2 p hp

theorem overlap_add_accumulates_witness :
    (rampRing.size = 2 ∧ ∀ c, c < 2 → (rampRing.getD c #[]).size = fftSize * 2) ∧
      0 < 2 ∧ 3 < fftSize ∧
      (getSample (overlapAdd idEnv 0 4000 rampFrame rampRing) 0 ((4000 + 3) % fftSize)
          = getSample rampRing 0 ((4000 + 3) % fftSize)
            + (bin rampFrame 3).re * idEnv.windowBuffer 3 * (2 / (fftSize : ℚ)) ∧
        (∀ j, j < fftSize → (4000 + j) % fftSize = (4000 + 3) % fftSize → j = 3) ∧
        (∃ j, j < fftSize ∧ (4000 + j) % fftSize = 3) ∧
        ∀ c2 p, c2 ≠ 0 ∨ fftSize ≤ p →
          getSample (overlapAdd idEnv 0 4000 rampFrame rampRing) c2 p
            = getSample rampRing c2 p) :=
  ⟨rampRing_sized, by decide, by decide,
    overlap_add_accumulates idEnv 0 4000 rampFrame rampRing 3 rampRing_sized (by decide)
      (by decide)⟩

/-! ### Bins the effect stage leaves alone -/

theorem binsUpTo_nyquist (E : Env K) (P : Params K) (ms : Nat → K) (fr : Array (Cx K))
    (d : Nat) (hd : d < numBins) :
    bin (binsUpTo E P ms fr d) numBins = bin fr numBins := by
  induction d with
  | zero => rfl
  | succ d ih =>
    have h2 := numBins_eq
    have h3 := fftSize_eq
    rw [binsUpTo_succ, processBin_of_ge _ _ _ _ _ _ (by omega) (le_refl _) (by omega)]
    exact ih (by omega)

theorem applySpectralProcessing_dc (E : Env K) (P : Params K) (ms : Nat → K)
    (fr : Array (Cx K)) : bin (applySpectralProcessing E P ms fr) 0 = bin fr 0 := by
  have h2 := numBins_eq
  have h := binsUpTo_low_stable E P ms fr 0 (numBins - 1) 0 (by omega) (le_refl 0)
  rw [Nat.zero_add] at h
  rw [applySpectralProcessing_eq, h]
  rfl

theorem applySpectralProcessing_nyquist (E : Env K) (P : Params K) (ms : Nat → K)
    (fr : Array (Cx K)) :
    bin (applySpectralProcessing E P ms fr) numBins = bin fr numBins := by
  have h2 := numBins_eq
  rw [applySpectralProcessing_eq]
  exact binsUpTo_nyquist E P ms fr (numBins - 1) (by omega)

theorem getSample_outside (buf : Array (Array K)) (c p : Nat)
    (h : ¬ (c < buf.size ∧ p < (buf.getD c #[]).size)) : getSample buf c p = 0 := by
  unfold getSample
  by_cases hc : c < buf.size
  · have hp : ¬ p < (buf.getD c #[]).size := fun hh => h ⟨hc, hh⟩
    unfold Array.getD at hp ⊢
    rw [dif_pos hc] at hp ⊢
    rw [dif_neg hp]
  · unfold Array.getD
    rw [dif_neg hc]
    rfl

/-! ## The claims, continued -/

/-- C11: `drain` returns the value stored in the channel's output ring at the cursor, leaves
that cell equal to zero, leaves every other cell of the output buffer, the whole input
buffer and the cursor unchanged; and the sample a push emits is the one `drain` reads from
the state the push has reached before the read. -/
theorem drain_reads_and_clears (E : Env K) (P : Params K) (ms : Nat → K) (channel : Nat)
    (st : State K) (x : K) :
    (drain channel st).2 = getSample st.fftOutputBuffer channel st.fifoIndex ∧
      getSample (drain channel st).1.fftOutputBuffer channel st.fifoIndex = 0 ∧
      (∀ c p, c ≠ channel ∨ p ≠ st.fifoIndex →
        getSample (drain channel st).1.fftOutputBuffer c p = getSample st.fftOutputBuffer c p) ∧
      (drain channel st).1.fftInputBuffer = st.fftInputBuffer ∧
      (drain channel st).1.fifoIndex = st.fifoIndex ∧
      pushSample E P ms channel st x = drain channel (beforeDrain E P ms channel st x) := by
  refine ⟨rfl, ?_, ?_, rfl, rfl, rfl⟩
  · simp only [drain]
    rw [getSample_setSample]
    split
    · rfl
    · rename_i h
      exact getSample_outside _ _ _ (fun hh => h ⟨⟨rfl, rfl⟩, hh⟩)
  · intro c p h
    simp only [drain]
    rw [getSample_setSample, if_neg]
    intro hh
    rcases h with h | h
    · exact h hh.1.1
    · exact h hh.1.2

/-- C12: `applySpectralProcessing` never modifies bin 0 (DC) or bin `fftSize / 2` (Nyquist),
for every input frame and every parameter setting, frozen or not. -/
theorem dc_and_nyquist_untouched (E : Env K) (P : Params K) (ms : Nat → K)
    (fr : Array (Cx K)) :
    bin (applySpectralProcessing E P ms fr) 0 = bin fr 0 ∧
      bin (applySpectralProcessing E P ms fr) (fftSize / 2) = bin fr (fftSize / 2) :=
  ⟨applySpectralProcessing_dc E P ms fr, applySpectralProcessing_nyquist E P ms fr⟩

/-! ### The scalar factors -/

theorem numBins_cast_pos : (0 : K) < (numBins : K) := by
  rw [numBins_eq]; norm_num

theorem dampingFactor_antitone_bin (P : Params K) (i i2 : Nat) (hd0 : 0 ≤ P.damping)
    (h : i ≤ i2) : dampingFactor P i2 ≤ dampingFactor P i := by
  unfold dampingFactor
  rw [jmax_eq_max, jmax_eq_max]
  apply max_le_max (le_refl _)
  apply sub_le_sub_left
  apply div_le_div_of_nonneg_right _ (le_of_lt numBins_cast_pos)
  exact mul_le_mul_of_nonneg_left (by exact_mod_cast h) hd0

theorem dampingFactor_antitone_damping (P P2 : Params K) (i : Nat)
    (h : P.damping ≤ P2.damping) : dampingFactor P2 i ≤ dampingFactor P i := by
  unfold dampingFactor
  rw [jmax_eq_max, jmax_eq_max]
  apply max_le_max (le_refl _)
  apply sub_le_sub_left
  apply div_le_div_of_nonneg_right _ (le_of_lt numBins_cast_pos)
  exact mul_le_mul_of_nonneg_right h (Nat.cast_nonneg i)

theorem decayFactor_lt (P P2 : Params K) (h0 : 0 ≤ P.time) (h : P.time < P2.time) :
    decayFactor P < decayFactor P2 := by
  unfold decayFactor
  apply sub_lt_sub_left
  apply one_div_lt_one_div_of_lt
  · linarith
  · linarith

/-- C14: for every damping in [0, 1] and every bin `i` in `[1, fftSize / 2)` (already for
every damping that is not negative and every bin index), the damping factor
`max (0.01, 1 - damping * i / (fftSize / 2))` lies in [0.01, 1], so it is strictly positive;
it is non-increasing in the bin index for fixed damping and non-increasing in damping for a
fixed bin. -/
theorem damping_factor_bounds (P : Params K) (i : Nat) (hd0 : 0 ≤ P.damping) :
    dampingFactor P i = max (1 / 100) (1 - P.damping * (i : K) / ((fftSize / 2 : Nat) : K)) ∧
      1 / 100 ≤ dampingFactor P i ∧ dampingFactor P i ≤ 1 ∧ 0 < dampingFactor P i ∧
      (∀ i2, i ≤ i2 → dampingFactor P i2 ≤ dampingFactor P i) ∧
      (∀ P2 : Params K, P.damping ≤ P2.damping → dampingFactor P2 i ≤ dampingFactor P i) := by
  have hdef : dampingFactor P i
      = max (1 / 100) (1 - P.damping * (i : K) / ((fftSize / 2 : Nat) : K)) := by
    unfold dampingFactor
    rw [jmax_eq_max]
    norm_num
    rfl
  have hlow : (1 : K) / 100 ≤ dampingFactor P i := by
    rw [hdef]; exact le_max_left _ _
  have hnn : 0 ≤ P.damping * (i : K) / ((fftSize / 2 : Nat) : K) :=
    div_nonneg (mul_nonneg hd0 (Nat.cast_nonneg i)) (Nat.cast_nonneg _)
  refine ⟨hdef, hlow, ?_, ?_, ?_, ?_⟩
  · rw [hdef]
    apply max_le
    · norm_num
    · linarith
  · have : (0 : K) < 1 / 100 := by norm_num
    linarith
  · intro i2 h
    exact dampingFactor_antitone_bin P i i2 hd0 h
  · intro P2 h
    exact dampingFactor_antitone_damping P P2 i h

theorem damping_factor_bounds_witness :
    0 ≤ defaultParams.damping ∧
      (dampingFactor defaultParams 100
          = max (1 / 100) (1 - defaultParams.damping * ((100 : Nat) : ℚ)
              / ((fftSize / 2 : Nat) : ℚ)) ∧
        1 / 100 ≤ dampingFactor defaultParams 100 ∧ dampingFactor defaultParams 100 ≤ 1 ∧
        0 < dampingFactor defaultParams 100 ∧
        (∀ i2, 100 ≤ i2 → dampingFactor defaultParams i2 ≤ dampingFactor defaultParams 100) ∧
        (∀ P2 : Params ℚ, defaultParams.damping ≤ P2.damping →
          dampingFactor P2 100 ≤ dampingFactor defaultParams 100)) :=
  ⟨by norm_num [defaultParams],
    damping_factor_bounds defaultParams 100 (by norm_num [defaultParams])⟩

/-- C15: the decay factor equals `1 - 1 / (10 * time + 1)`; for every time in [0.1, 10] it
lies in [1/2, 100/101], hence strictly between 0 and 1, and it is strictly smaller than the
decay factor of every larger time. -/
theorem decay_factor_bounds (P : Params K) (h0 : 1 / 10 ≤ P.time) (h1 : P.time ≤ 10) :
    decayFactor P = 1 - 1 / (10 * P.time + 1) ∧
      1 / 2 ≤ decayFactor P ∧ decayFactor P ≤ 100 / 101 ∧
      0 < decayFactor P ∧ decayFactor P < 1 ∧
      ∀ P2 : Params K, P.time < P2.time → decayFactor P < decayFactor P2 := by
  have hdef : decayFactor P = 1 - 1 / (10 * P.time + 1) := by
    unfold decayFactor
    rw [mul_comm]
  have hpos : (0 : K) < 10 * P.time + 1 := by linarith
  have hlow : (1 : K) / 2 ≤ decayFactor P := by
    rw [hdef, le_sub_iff_add_le, ← le_sub_iff_add_le', div_le_iff₀ hpos]
    linarith
  have hhigh : decayFactor P ≤ 100 / 101 := by
    rw [hdef, sub_le_iff_le_add, ← sub_le_iff_le_add', le_div_iff₀ hpos]
    linarith
  refine ⟨hdef, hlow, hhigh, by linarith, ?_, ?_⟩
  · have : (100 : K) / 101 < 1 := by norm_num
    linarith
  · intro P2 h
    exact decayFactor_lt P P2 (by linarith) h

theorem decay_factor_bounds_witness :
    1 / 10 ≤ defaultParams.time ∧ defaultParams.time ≤ 10 ∧
      (decayFactor defaultParams = 1 - 1 / (10 * defaultParams.time + 1) ∧
        1 / 2 ≤ decayFactor defaultParams ∧ decayFactor defaultParams ≤ 100 / 101 ∧
        0 < decayFactor defaultParams ∧ decayFactor defaultParams < 1 ∧
        ∀ P2 : Params ℚ, defaultParams.time < P2.time →
          decayFactor defaultParams < decayFactor P2) :=
  ⟨by norm_num [defaultParams], by norm_num [defaultParams],
    decay_factor_bounds defaultParams (by norm_num [defaultParams])
      (by norm_num [defaultParams])⟩

/-! ### The spread loop -/

theorem Cx.scale_scale (a : Cx K) (s t : K) : (a.scale s).scale t = a.scale (s * t) := by
  simp [Cx.scale, mul_assoc]

theorem spreadAmountOf_pos_iff (P : Params K) : 0 < spreadAmountOf P ↔ 1 / 10 ≤ P.size := by
  unfold spreadAmountOf
  rw [toNat_eq_floor, Nat.floor_pos]
  constructor <;> intro h <;> linarith

theorem spread_eq (P : Params K) (i : Nat) (fr : Array (Cx K)) :
    spread P i fr
      = if 1 ≤ spreadAmountOf P ∧ i + spreadAmountOf P < numBins then
          spreadLoop (spreadAmountOf P) i fr
        else fr := by
  unfold spread
  by_cases h : 1 ≤ spreadAmountOf P ∧ i + spreadAmountOf P < numBins
  · have hs : P.size > 0.01 := by
      have := (spreadAmountOf_pos_iff P).mp h.1
      norm_num
      linarith
    rw [if_pos hs, if_pos h, if_pos (show 0 < spreadAmountOf P ∧ _ from h)]
  · rw [if_neg h]
    split
    · rw [if_neg (show ¬ (0 < spreadAmountOf P ∧ _) from h)]
    · rfl

theorem spread_of_small (P : Params K) (i : Nat) (fr : Array (Cx K)) (h : P.size ≤ 0.01) :
    spread P i fr = fr := by
  unfold spread
  rw [if_neg (not_lt.mpr h)]

theorem spreadFactor_lt (S j1 j2 : Nat) (h1 : j1 < j2) (h2 : j2 ≤ S) :
    (spreadFactor S j2 : K) < spreadFactor S j1 := by
  unfold spreadFactor
  have hpos : (0 : K) < ((S + 1 : Nat) : K) := by exact_mod_cast Nat.succ_pos S
  apply div_lt_div_of_pos_right _ hpos
  have : S - j2 + 1 < S - j1 + 1 := by omega
  exact_mod_cast this

theorem binsUpTo_of_gt_noSpread (E : Env K) (P : Params K) (ms : Nat → K)
    (fr : Array (Cx K)) (n t : Nat) (hf : P.freeze = false) (hs : P.size ≤ 0.01)
    (hnt : n < t) (ht : t ≤ numBins) :
    bin (binsUpTo E P ms fr n) t = bin fr t := by
  induction n with
  | zero => rfl
  | succ n ih =>
    have h2 := numBins_eq
    have h3 := fftSize_eq
    rw [binsUpTo_succ, processBin_of_other E P ms _ (1 + n) t hf (by omega) (by omega),
      spread_of_small P _ _ hs]
    exact ih (by omega)

theorem spreadAmountOf_default : spreadAmountOf defaultParams = 5 := by
  unfold spreadAmountOf
  rw [toNat_eq_floor, Nat.floor_eq_iff (by norm_num [defaultParams])]
  norm_num [defaultParams]

/-- C16: with freeze off and size at most 0.01 (no spreading), for every bin `i` in
`[1, fftSize / 2)` the returned bin is the input bin times the single real scalar
`band * decay * damping * density` (real and imaginary part are scaled alike, so the phase is
kept when the scalar is positive), bin `fftSize - i` is the conjugate of that product, and
bins 0 and `fftSize / 2` are unchanged. -/
theorem combined_multiplier (E : Env K) (P : Params K) (ms : Nat → K) (fr : Array (Cx K))
    (i : Nat) (hsz : fr.size = fftSize) (hf : P.freeze = false) (hs : P.size ≤ 0.01)
    (h1 : 1 ≤ i) (hi : i < fftSize / 2) :
    bin (applySpectralProcessing E P ms fr) i
        = (bin fr i).scale
            (bandMultiplier P i * decayFactor P * dampingFactor P i * densityFactor E P ms i) ∧
      bin (applySpectralProcessing E P ms fr) (fftSize - i)
        = ((bin fr i).scale
            (bandMultiplier P i * decayFactor P * dampingFactor P i
              * densityFactor E P ms i)).conj ∧
      bin (applySpectralProcessing E P ms fr) 0 = bin fr 0 ∧
      bin (applySpectralProcessing E P ms fr) (fftSize / 2) = bin fr (fftSize / 2) := by
  have h2 := numBins_eq
  have hi2 : i < numBins := hi
  have h := applySpectralProcessing_bin E P ms fr i hsz hf h1 hi2
  have hb := binsUpTo_of_gt_noSpread E P ms fr (i - 1) i hf hs (by omega) (by omega)
  have hself : bin (applySpectralProcessing E P ms fr) i
      = (bin fr i).scale
          (bandMultiplier P i * decayFactor P * dampingFactor P i * densityFactor E P ms i) := by
    rw [h.1, hb]
    rfl
  exact ⟨hself, by rw [h.2, hself], applySpectralProcessing_dc E P ms fr,
    applySpectralProcessing_nyquist E P ms fr⟩

theorem combined_multiplier_witness :
    rampFrame.size = fftSize ∧ noSpreadParams.freeze = false ∧ noSpreadParams.size ≤ 0.01 ∧
      1 ≤ 7 ∧ 7 < fftSize / 2 ∧
      (bin (applySpectralProcessing idEnv noSpreadParams (fun _ => 0) rampFrame) 7
          = (bin rampFrame 7).scale
              (bandMultiplier noSpreadParams 7 * decayFactor noSpreadParams
                * dampingFactor noSpreadParams 7
                * densityFactor idEnv noSpreadParams (fun _ => 0) 7) ∧
        bin (applySpectralProcessing idEnv noSpreadParams (fun _ => 0) rampFrame) (fftSize - 7)
          = ((bin rampFrame 7).scale
              (bandMultiplier noSpreadParams 7 * decayFactor noSpreadParams
                * dampingFactor noSpreadParams 7
                * densityFactor idEnv noSpreadParams (fun _ => 0) 7)).conj ∧
        bin (applySpectralProcessing idEnv noSpreadParams (fun _ => 0) rampFrame) 0
          = bin rampFrame 0 ∧
        bin (applySpectralProcessing idEnv noSpreadParams (fun _ => 0) rampFrame) (fftSize / 2)
          = bin rampFrame (fftSize / 2)) :=
  ⟨size_rampFrame, rfl, by norm_num [noSpreadParams], by decide, by decide,
    combined_multiplier idEnv noSpreadParams (fun _ => 0) rampFrame 7 size_rampFrame rfl
      (by norm_num [noSpreadParams]) (by decide) (by decide)⟩

/-- In exact arithmetic (where the product `size * 10` is not rounded): with freeze off,
processing bin `i` in `[1, fftSize / 2)` runs the spread loop if
and only if `S = floor (10 * size)` is at least 1 and `i + S < fftSize / 2`, and otherwise
the spread block leaves the frame as it is; when it runs, bin `i + j` receives exactly
`0.3 * (S - j + 1) / (S + 1)` times the current value of bin `i` for each `j` in `1..S`, the
bins with index at most `i` and the bins above `i + S` are unchanged; for every size in
[0, 1] the count `S` is at most 10, and the weights strictly decrease in `j`. The statement
for the program's `float`s is in the last part of this file. -/
theorem spread_semantics_exact (E : Env K) (P : Params K) (ms : Nat → K) (fr : Array (Cx K))
    (i : Nat) (hsz : fr.size = fftSize) (hf : P.freeze = false) (h1 : 1 ≤ i)
    (hi : i < fftSize / 2) :
    spreadAmountOf P = Nat.floor (10 * P.size) ∧
      (spread P i fr
        = if 1 ≤ spreadAmountOf P ∧ i + spreadAmountOf P < fftSize / 2 then
            spreadLoop (spreadAmountOf P) i fr
          else fr) ∧
      (1 ≤ spreadAmountOf P ∧ i + spreadAmountOf P < fftSize / 2 →
        (∀ j, 1 ≤ j → j ≤ spreadAmountOf P →
          bin (spread P i fr) (i + j)
              = (bin fr (i + j)).add
                  ((bin fr i).scale
                    (0.3 * ((spreadAmountOf P - j + 1 : Nat) : K)
                      / ((spreadAmountOf P + 1 : Nat) : K))) ∧
            bin (processBin E P ms fr i) (i + j) = bin (spread P i fr) (i + j)) ∧
          (∀ t, t ≤ i → bin (spread P i fr) t = bin fr t) ∧
          ∀ t, i + spreadAmountOf P < t → bin (spread P i fr) t = bin fr t) ∧
      (0 ≤ P.size → P.size ≤ 1 → spreadAmountOf P ≤ 10) ∧
      ∀ j1 j2, 1 ≤ j1 → j1 < j2 → j2 ≤ spreadAmountOf P →
        0.3 * ((spreadAmountOf P - j2 + 1 : Nat) : K) / ((spreadAmountOf P + 1 : Nat) : K)
          < 0.3 * ((spreadAmountOf P - j1 + 1 : Nat) : K)
              / ((spreadAmountOf P + 1 : Nat) : K) := by
  have h2 := numBins_eq
  have h3 := fftSize_eq
  refine ⟨by unfold spreadAmountOf; rw [mul_comm, toNat_eq_floor], spread_eq P i fr, ?_, ?_, ?_⟩
  · intro hg
    have hg2 : 1 ≤ spreadAmountOf P ∧ i + spreadAmountOf P < numBins := hg
    refine ⟨?_, fun t ht => spread_of_le P i t fr ht, ?_⟩
    · intro j hj1 hj2
      have hsp : bin (spread P i fr) (i + j)
          = (bin fr (i + j)).add
              ((bin fr i).scale
                (0.3 * ((spreadAmountOf P - j + 1 : Nat) : K)
                  / ((spreadAmountOf P + 1 : Nat) : K))) := by
        rw [spread_eq, if_pos hg2, spreadLoop,
          spreadFold_target (spreadAmountOf P) i (spreadAmountOf P) j fr (by omega) hj1,
          if_pos hj2, Cx.scale_scale]
        congr 2
        unfold spreadFactor
        ring
      refine ⟨hsp, ?_⟩
      exact processBin_of_other E P ms fr i (i + j) hf (by omega) (by omega)
    · intro t ht
      rw [spread_eq, if_pos hg2, spreadLoop]
      apply spreadFold_of_not_target
      intro j hj
      rw [List.mem_range'_1] at hj
      omega
  · intro _ hs1
    unfold spreadAmountOf
    rw [toNat_eq_floor]
    apply Nat.floor_le_of_le
    push_cast
    linarith
  · intro j1 j2 _ h12 hj2
    have h := spreadFactor_lt (K := K) (spreadAmountOf P) j1 j2 h12 hj2
    unfold spreadFactor at h
    rw [mul_div_assoc, mul_div_assoc]
    exact mul_lt_mul_of_pos_left h (by norm_num)

theorem spread_semantics_exact_witness :
    rampFrame.size = fftSize ∧ defaultParams.freeze = false ∧ 1 ≤ 7 ∧ 7 < fftSize / 2 ∧
      (spreadAmountOf defaultParams = Nat.floor (10 * defaultParams.size) ∧
        (spread defaultParams 7 rampFrame
          = if 1 ≤ spreadAmountOf defaultParams ∧ 7 + spreadAmountOf defaultParams < fftSize / 2
            then spreadLoop (spreadAmountOf defaultParams) 7 rampFrame
            else rampFrame) ∧
        (1 ≤ spreadAmountOf defaultParams ∧ 7 + spreadAmountOf defaultParams < fftSize / 2 →
          (∀ j, 1 ≤ j → j ≤ spreadAmountOf defaultParams →
            bin (spread defaultParams 7 rampFrame) (7 + j)
                = (bin rampFrame (7 + j)).add
                    ((bin rampFrame 7).scale
                      (0.3 * ((spreadAmountOf defaultParams - j + 1 : Nat) : ℚ)
                        / ((spreadAmountOf defaultParams + 1 : Nat) : ℚ))) ∧
              bin (processBin idEnv defaultParams (fun _ => 0) rampFrame 7) (7 + j)
                = bin (spread defaultParams 7 rampFrame) (7 + j)) ∧
            (∀ t, t ≤ 7 → bin (spread defaultParams 7 rampFrame) t = bin rampFrame t) ∧
            ∀ t, 7 + spreadAmountOf defaultParams < t →
              bin (spread defaultParams 7 rampFrame) t = bin rampFrame t) ∧
        (0 ≤ defaultParams.size → defaultParams.size ≤ 1 → spreadAmountOf defaultParams ≤ 10) ∧
        ∀ j1 j2, 1 ≤ j1 → j1 < j2 → j2 ≤ spreadAmountOf defaultParams →
          0.3 * ((spreadAmountOf defaultParams - j2 + 1 : Nat) : ℚ)
              / ((spreadAmountOf defaultParams + 1 : Nat) : ℚ)
            < 0.3 * ((spreadAmountOf defaultParams - j1 + 1 : Nat) : ℚ)
                / ((spreadAmountOf defaultParams + 1 : Nat) : ℚ)) :=
  ⟨size_rampFrame, rfl, by decide, by decide,
    spread_semantics_exact idEnv defaultParams (fun _ => 0) rampFrame 7 size_rampFrame rfl
      (by decide) (by decide)⟩

/-! ### Counting the extractions -/

theorem extractions_per_turn (E : Env K) (params : Nat → Params K) (ms : Nat → Nat → K)
    (st0 : State K) (x : Nat → K) (q : Nat) :
    (Finset.range fftSize).filter
        (fun j => extractsAt E params ms st0 x (q * fftSize + j + 1) = true)
      = {2047, 3071, 4095} := by
  have h3 := fftSize_eq
  have h4 := hopSize_eq
  ext j
  rw [Finset.mem_filter, Finset.mem_range, extractsAt_iff]
  simp only [Finset.mem_insert, Finset.mem_singleton]
  rw [h3, h4]
  omega

/-- C18: in a single-channel stream started from the prepared state, the `k`-th push
extracts a frame if and only if `k > 0` and `k mod fftSize` is 0, `2 * hopSize` or
`3 * hopSize`; no frame is extracted at a push that leaves the cursor equal to `hopSize`;
among the `fftSize` pushes `q * fftSize + 1, ..., (q + 1) * fftSize` exactly three extract a
frame; and the ready flag is false after every extraction. -/
theorem extraction_schedule (E : Env K) (params : Nat → Params K) (ms : Nat → Nat → K)
    (st0 : State K) (x : Nat → K) (k q : Nat) :
    (extractsAt E params ms st0 x k = true ↔
        0 < k ∧ (k % fftSize = 0 ∨ k % fftSize = 2 * hopSize ∨ k % fftSize = 3 * hopSize)) ∧
      ((streamState E params ms st0 x k).fifoIndex = hopSize →
        extractsAt E params ms st0 x k = false) ∧
      ((Finset.range fftSize).filter
          (fun j => extractsAt E params ms st0 x (q * fftSize + j + 1) = true)).card = 3 ∧
      (extractsAt E params ms st0 x k = true →
        (streamState E params ms st0 x k).nextFFTBlockReady = false) := by
  have h3 := fftSize_eq
  have h4 := hopSize_eq
  refine ⟨extractsAt_iff E params ms st0 x k, ?_, ?_, ?_⟩
  · intro hc
    rw [streamState_fifoIndex] at hc
    rw [← Bool.not_eq_true, extractsAt_iff]
    rw [h3, h4] at *
    omega
  · rw [extractions_per_turn]
    rfl
  · intro he
    rw [extractsAt_iff] at he
    rw [streamState_ready, decide_eq_false_iff_not]
    rw [h3, h4] at *
    omega

/-! ### The shape of the block returned by `processBlock` -/

theorem zipWith_mix_dry (P : Params K) (dry wet : List K) (h : wet.length = dry.length)
    (h0 : P.wetDry = 0) : List.zipWith (mix P) dry wet = dry := by
  induction dry generalizing wet with
  | nil => rfl
  | cons a dry ih =>
    cases wet with
    | nil => simp at h
    | cons b wet =>
      rw [List.zipWith_cons_cons, ih wet (by simpa using h)]
      simp [mix, h0]

theorem zipWith_mix_wet (P : Params K) (dry wet : List K) (h : wet.length = dry.length)
    (h1 : P.wetDry = 1) : List.zipWith (mix P) dry wet = wet := by
  induction dry generalizing wet with
  | nil =>
    cases wet with
    | nil => rfl
    | cons b wet => simp at h
  | cons a dry ih =>
    cases wet with
    | nil => simp at h
    | cons b wet =>
      rw [List.zipWith_cons_cons, ih wet (by simpa using h)]
      simp [mix, h1]

theorem mixBlock_dry (P : Params K) (buffer wet : List (List K))
    (h : List.Forall₂ (fun d w => w.length = d.length) buffer wet) (h0 : P.wetDry = 0) :
    List.zipWith (fun d w => List.zipWith (mix P) d w) buffer wet = buffer := by
  induction h with
  | nil => rfl
  | cons hd _ ih => rw [List.zipWith_cons_cons, ih, zipWith_mix_dry P _ _ hd h0]

theorem mixBlock_wet (P : Params K) (buffer wet : List (List K))
    (h : List.Forall₂ (fun d w => w.length = d.length) buffer wet) (h1 : P.wetDry = 1) :
    List.zipWith (fun d w => List.zipWith (mix P) d w) buffer wet = wet := by
  induction h with
  | nil => rfl
  | cons hd _ ih => rw [List.zipWith_cons_cons, ih, zipWith_mix_wet P _ _ hd h1]

/-- In exact arithmetic (where every sample is a number): the block `processBlock` returns
has the shape of the input block, and its sample `s` of channel `c` is
`(1 - wetDry) * input sample + wetDry * drained sample`, the drained samples being the ones
the sample loop emits; with `wetDry = 0` the returned block is the input block, whatever the
state and the other parameters are, and with `wetDry = 1` it is the block of drained
samples. The statement for the program's `float`s is in the last part of this file. -/
theorem wet_dry_mix_exact (E : Env K) (P : Params K) (ms : Nat → Nat → Nat → K) (st : State K)
    (buffer : List (List K)) :
    List.Forall₂ (fun dry out => out.length = dry.length) buffer
        (processBlock E P ms st buffer).2 ∧
      (∀ c s, c < buffer.length → s < (buffer.getD c []).length →
        ((processBlock E P ms st buffer).2.getD c []).getD s 0
          = (1 - P.wetDry) * (buffer.getD c []).getD s 0
            + P.wetDry * ((processChannels E P ms 0 st buffer).2.getD c []).getD s 0) ∧
      (P.wetDry = 0 → (processBlock E P ms st buffer).2 = buffer) ∧
      (P.wetDry = 1 →
        (processBlock E P ms st buffer).2 = (processChannels E P ms 0 st buffer).2) ∧
      (processBlock E P ms st buffer).1 = (processChannels E P ms 0 st buffer).1 := by
  have hshape := processChannels_shape E P ms buffer 0 st
  refine ⟨mixBlock_shape P buffer _ hshape, ?_, ?_, ?_, rfl⟩
  · intro c s hc hs
    exact mixBlock_getD P buffer _ c s hshape hc hs
  · intro h0
    exact mixBlock_dry P buffer _ hshape h0
  · intro h1
    exact mixBlock_wet P buffer _ hshape h1

/-! ### The indices used on the per-sample path -/

theorem spreadTargets_lt (P : Params K) (i t : Nat) (h : t ∈ spreadTargets P i) :
    i < t ∧ t < numBins := by
  unfold spreadTargets at h
  split at h
  · split at h
    · rename_i hg
      rw [List.mem_map] at h
      obtain ⟨j, hj, rfl⟩ := h
      rw [List.mem_range'_1] at hj
      omega
    · simp at h
  · simp at h

theorem spread_of_not_target (P : Params K) (i t : Nat) (fr : Array (Cx K))
    (h : t ∉ spreadTargets P i) : bin (spread P i fr) t = bin fr t := by
  unfold spread spreadLoop
  unfold spreadTargets at h
  split
  · rw [if_pos (by assumption)] at h
    split
    · rw [if_pos (by assumption)] at h
      apply spreadFold_of_not_target
      intro j hj hh
      exact h (List.mem_map.mpr ⟨j, hj, hh⟩)
    · rfl
  · rfl

theorem binIndices_range (P : Params K) (i t : Nat) (h1 : 1 ≤ i) (hi : i < numBins)
    (h : t ∈ binIndices P i) : 1 ≤ t ∧ t < fftSize := by
  have h2 := numBins_eq
  have h3 := fftSize_eq
  unfold binIndices at h
  split at h
  · simp at h
  · rw [List.mem_cons, List.mem_append, List.mem_singleton] at h
    rcases h with h | h | h
    · omega
    · have := spreadTargets_lt P i t h
      omega
    · omega

theorem processBin_of_not_index (E : Env K) (P : Params K) (ms : Nat → K)
    (fr : Array (Cx K)) (i t : Nat) (h : t ∉ binIndices P i) :
    bin (processBin E P ms fr i) t = bin fr t := by
  unfold binIndices at h
  by_cases hf : P.freeze = true
  · rw [processBin_frozen E P ms fr i hf]
  · have hf2 : P.freeze = false := by simpa using hf
    rw [if_neg hf, List.mem_cons, List.mem_append, List.mem_singleton] at h
    rw [processBin_of_other E P ms fr i t hf2 (fun hh => h (Or.inl hh))
      (fun hh => h (Or.inr (Or.inr hh)))]
    exact spread_of_not_target P i t fr (fun hh => h (Or.inr (Or.inl hh)))

theorem size_forward (E : Env K) (td : Array (Cx K)) : (forward E td).size = fftSize := by
  unfold forward unpack
  exact size_tabulate _ _

theorem size_windowedFrame (E : Env K) (channel : Nat) (st : State K) :
    (windowedFrame E channel st).size = fftSize :=
  size_tabulate _ _

theorem size_inverse (E : Env K) (fd : Array (Cx K)) : (inverse E fd).size = fftSize := by
  unfold inverse unpackReal
  exact size_tabulate _ _

theorem pushIndices_lt (st : State K) (t : Nat) (hst : st.fifoIndex < fftSize)
    (h : t ∈ pushIndices st) : t < fftSize := by
  have hpos : 0 < fftSize := by decide
  unfold pushIndices frameIndices at h
  rw [List.mem_cons, List.mem_append, List.mem_singleton, List.mem_map] at h
  rcases h with h | ⟨j, _, rfl⟩ | h
  · rw [h]; exact hst
  · exact Nat.mod_lt _ hpos
  · rw [h]; exact Nat.mod_lt _ hpos

/-- C13: the cursor is below `fftSize` after `prepareToPlay` and after every push; every
ring index `(cursor + i) mod fftSize` is below `fftSize`, and the indices a push of a stream
uses are in range of the actual input and output buffers; every index the effect stage uses
(bin `i`, spread target `i + j`, mirror `fftSize - i`) lies in `[1, fftSize)`, whatever the
parameters are, the frame handed to the stage has `fftSize` bins, and the stage changes no
bin outside those indices. -/
theorem indices_in_range (E : Env K) (params : Nat → Params K) (ms : Nat → Nat → K)
    (st0 : State K) (x : Nat → K) (k : Nat) :
    (prepareToPlay st0).fifoIndex < fftSize ∧
      (∀ (P : Params K) (ms1 : Nat → K) (channel : Nat) (st : State K) (v : K),
        (pushSample E P ms1 channel st v).1.fifoIndex < fftSize) ∧
      (streamState E params ms st0 x k).fifoIndex < fftSize ∧
      (∀ cursor i, (cursor + i) % fftSize < fftSize) ∧
      (∀ t, t ∈ pushIndices (streamState E params ms st0 x k) →
        t < fftSize ∧
          t < ((streamState E params ms st0 x k).fftInputBuffer.getD 0 #[]).size ∧
          t < ((streamState E params ms st0 x k).fftOutputBuffer.getD 0 #[]).size) ∧
      (∀ (P : Params K) t, t ∈ effectIndices P → 1 ≤ t ∧ t < fftSize) ∧
      (∀ td : Array (Cx K), (forward E td).size = fftSize) ∧
      ∀ (P : Params K) (ms1 : Nat → K) (fr : Array (Cx K)) (i t : Nat),
        t ∉ binIndices P i → bin (processBin E P ms1 fr i) t = bin fr t := by
  have hpos : 0 < fftSize := by decide
  have h2 := numBins_eq
  have hcur : (streamState E params ms st0 x k).fifoIndex < fftSize := by
    rw [streamState_fifoIndex]
    exact Nat.mod_lt _ hpos
  have hs := streamState_sized E params ms st0 x k
  refine ⟨hpos, ?_, hcur, fun c i => Nat.mod_lt _ hpos, ?_, ?_, size_forward E,
    fun P ms1 fr i t h => processBin_of_not_index E P ms1 fr i t h⟩
  · intro P ms1 channel st v
    rw [pushSample_fifoIndex]
    exact Nat.mod_lt _ hpos
  · intro t ht
    have hlt := pushIndices_lt _ t hcur ht
    rw [hs.1.2 0 (by decide), hs.2.2 0 (by decide)]
    omega
  · intro P t ht
    unfold effectIndices at ht
    rw [List.mem_flatMap] at ht
    obtain ⟨i, hi, hti⟩ := ht
    rw [List.mem_range'_1] at hi
    exact binIndices_range P i t (by omega) (by omega) hti

/-! ## Binary32 arithmetic -/

theorem F32.zero_def : (0 : F32) = F32.fin 0 := rfl

theorem F32.one_def : (1 : F32) = F32.fin 1 := rfl

theorem F32.mul_def (a b : F32) : a * b = F32.mul a b := rfl

theorem F32.add_def (a b : F32) : a + b = F32.add a b := rfl

theorem F32.sub_def (a b : F32) : a - b = F32.add a (F32.neg b) := rfl

theorem F32.div_def (a b : F32) : a / b = F32.div a b := rfl

theorem F32.lt_def (a b : F32) : a < b ↔ F32.lt a b = true := Iff.rfl

theorem F32.ofRat_zero : F32.ofRat 0 = F32.fin 0 := by decide!

theorem F32.ofRat_one : F32.ofRat 1 = F32.fin 1 := by decide!

theorem F32.ten_def : (10 : F32) = F32.fin 10 := by decide!

theorem F32.zero_mul_of_finite (x : F32) (h : x.isFinite = true) : 0 * x = 0 := by
  cases x with
  | fin q => rw [F32.zero_def, F32.mul_def, F32.mul, zero_mul, F32.ofRat_zero]
  | inf s => simp [F32.isFinite] at h
  | nan => simp [F32.isFinite] at h

theorem F32.mul_zero_of_finite (x : F32) (h : x.isFinite = true) : x * 0 = 0 := by
  cases x with
  | fin q => rw [F32.zero_def, F32.mul_def, F32.mul, mul_zero, F32.ofRat_zero]
  | inf s => simp [F32.isFinite] at h
  | nan => simp [F32.isFinite] at h

theorem F32.mul_zero_of_not_finite (x : F32) (h : x.isFinite = false) : x * 0 = F32.nan := by
  cases x with
  | fin q => simp [F32.isFinite] at h
  | inf s => rw [F32.zero_def, F32.mul_def, F32.mul, if_pos rfl]
  | nan => rfl

theorem F32.zero_mul_of_not_finite (x : F32) (h : x.isFinite = false) : 0 * x = F32.nan := by
  cases x with
  | fin q => simp [F32.isFinite] at h
  | inf s => rw [F32.zero_def, F32.mul_def, F32.mul, if_pos rfl]
  | nan => rfl

theorem F32.one_mul_of_value (x : F32) (h : x.isValue = true) : 1 * x = x := by
  cases x with
  | fin q =>
    rw [F32.one_def, F32.mul_def, F32.mul, one_mul]
    simpa [F32.isValue] using h
  | inf s => cases s <;> decide!
  | nan => rfl

theorem F32.add_zero_of_value (x : F32) (h : x.isValue = true) : x + 0 = x := by
  cases x with
  | fin q =>
    rw [F32.zero_def, F32.add_def, F32.add, add_zero]
    simpa [F32.isValue] using h
  | inf s => rfl
  | nan => rfl

theorem F32.zero_add_of_value (x : F32) (h : x.isValue = true) : 0 + x = x := by
  cases x with
  | fin q =>
    rw [F32.zero_def, F32.add_def, F32.add, zero_add]
    simpa [F32.isValue] using h
  | inf s => rfl
  | nan => rfl

theorem F32.add_nan (x : F32) : x + F32.nan = F32.nan := by
  cases x <;> rfl

theorem F32.one_sub_zero : (1 : F32) - 0 = 1 := by decide!

theorem F32.one_sub_one : (1 : F32) - 1 = 0 := by decide!

theorem F32.neg_zero : -(0 : F32) = 0 := by decide!

/-! ### Rounding to binary32 -/

theorem F32.ulp_pos (q : ℚ) : 0 < F32.ulp q := by
  unfold F32.ulp
  exact zpow_pos (by norm_num) _

theorem F32.nearestEven_intCast (N : ℤ) : F32.nearestEven (N : ℚ) = N := by
  unfold F32.nearestEven
  rw [Int.floor_intCast, sub_self, if_pos (by norm_num)]

theorem F32.nearestEven_le (y : ℚ) (N : ℤ) (h : y ≤ N) : F32.nearestEven y ≤ N := by
  have hf : ⌊y⌋ ≤ N := Int.floor_le_iff.mpr (by linarith)
  unfold F32.nearestEven
  by_cases h1 : y - ⌊y⌋ < 1 / 2
  · rw [if_pos h1]; exact hf
  · have hlt : ⌊y⌋ < N := by
      rcases lt_or_eq_of_le hf with h2 | h2
      · exact h2
      · exfalso
        apply h1
        have : (⌊y⌋ : ℚ) ≤ y := Int.floor_le y
        have : y = ⌊y⌋ := le_antisymm (by rw [h2]; exact h) this
        rw [← this, sub_self]; norm_num
    rw [if_neg h1]
    split
    · omega
    · split
      · omega
      · omega

theorem F32.le_nearestEven (y : ℚ) (N : ℤ) (h : (N : ℚ) ≤ y) : N ≤ F32.nearestEven y := by
  have hf : N ≤ ⌊y⌋ := Int.le_floor.mpr h
  unfold F32.nearestEven
  split
  · exact hf
  · split
    · omega
    · split
      · exact hf
      · omega

theorem F32.nearest_le (x b : ℚ) (N : ℤ) (hb : b = N * F32.ulp x) (h : x ≤ b) :
    F32.nearest x ≤ b := by
  have hu := F32.ulp_pos x
  unfold F32.nearest
  rw [hb]
  apply mul_le_mul_of_nonneg_right _ (le_of_lt hu)
  have : F32.nearestEven (x / F32.ulp x) ≤ N := by
    apply F32.nearestEven_le
    rw [div_le_iff₀ hu, ← hb]
    exact h
  exact_mod_cast this

theorem F32.le_nearest (x b : ℚ) (N : ℤ) (hb : b = N * F32.ulp x) (h : b ≤ x) :
    b ≤ F32.nearest x := by
  have hu := F32.ulp_pos x
  unfold F32.nearest
  rw [hb]
  apply mul_le_mul_of_nonneg_right _ (le_of_lt hu)
  have : N ≤ F32.nearestEven (x / F32.ulp x) := by
    apply F32.le_nearestEven
    rw [le_div_iff₀ hu, ← hb]
    exact h
  exact_mod_cast this

theorem F32.bitLengthAux_le (fuel n k : Nat) (h : n < 2 ^ k) :
    F32.bitLengthAux fuel n ≤ k := by
  induction fuel generalizing n k with
  | zero => exact Nat.zero_le _
  | succ fuel ih =>
    unfold F32.bitLengthAux
    split
    · exact Nat.zero_le _
    · rename_i hn
      cases k with
      | zero => simp at h; exact absurd h hn
      | succ k =>
        have : n / 2 < 2 ^ k := by rw [Nat.pow_succ] at h; omega
        exact Nat.succ_le_succ (ih (n / 2) k this)

theorem F32.binade_le (x : ℚ) (e : ℤ) (he : 0 ≤ e) (h : |x| < 2 ^ (e + 1)) :
    F32.binade |x| ≤ e := by
  unfold F32.binade
  split
  · have hn : ⌊|x|⌋₊ < 2 ^ (e.toNat + 1) := by
      rw [Nat.floor_lt (abs_nonneg x)]
      have : ((e.toNat + 1 : ℕ) : ℤ) = e + 1 := by
        push_cast; rw [Int.toNat_of_nonneg he]
      push_cast
      rw [← zpow_natCast, this]
      exact h
    have := F32.bitLengthAux_le ⌊|x|⌋₊ ⌊|x|⌋₊ (e.toNat + 1) hn
    unfold F32.bitLength
    omega
  · have : (0 : ℤ) ≤ (F32.bitLength (⌈|x|⁻¹⌉₊ - 1) : ℤ) := Int.natCast_nonneg _
    omega

/-- A dyadic number `m * 2 ^ t` is a multiple of the spacing around `x` when `x` is below
`2 ^ (t + 24)` in absolute value. -/
theorem F32.dyadic_multiple (x : ℚ) (m t : ℤ) (ht : -23 ≤ t) (hx : |x| < 2 ^ (t + 24)) :
    ∃ N : ℤ, (m : ℚ) * 2 ^ t = N * F32.ulp x := by
  have hlog : F32.binade |x| ≤ t + 23 := by
    apply F32.binade_le x (t + 23) (by omega)
    rw [show t + 23 + 1 = t + 24 by ring]
    exact hx
  have hk : max (F32.binade |x|) (-126) - 23 ≤ t := by
    have : max (F32.binade |x|) (-126) ≤ t + 23 := max_le hlog (by omega)
    omega
  refine ⟨m * 2 ^ (t - (max (F32.binade |x|) (-126) - 23)).toNat, ?_⟩
  unfold F32.ulp
  push_cast
  rw [mul_assoc]
  congr 1
  rw [← zpow_natCast, ← zpow_add₀ (by norm_num : (2 : ℚ) ≠ 0),
    Int.toNat_of_nonneg (by omega)]
  congr 1
  ring

theorem F32.nearest_le_dyadic (x : ℚ) (m t : ℤ) (ht : -23 ≤ t) (hx : |x| < 2 ^ (t + 24))
    (h : x ≤ m * 2 ^ t) : F32.nearest x ≤ m * 2 ^ t := by
  obtain ⟨N, hN⟩ := F32.dyadic_multiple x m t ht hx
  exact F32.nearest_le x _ N hN h

theorem F32.le_nearest_dyadic (x : ℚ) (m t : ℤ) (ht : -23 ≤ t) (hx : |x| < 2 ^ (t + 24))
    (h : (m : ℚ) * 2 ^ t ≤ x) : (m : ℚ) * 2 ^ t ≤ F32.nearest x := by
  obtain ⟨N, hN⟩ := F32.dyadic_multiple x m t ht hx
  exact F32.le_nearest x _ N hN h

theorem F32.nearest_le_int (x : ℚ) (n : ℤ) (hx : |x| < 2 ^ 24) (h : x ≤ n) :
    F32.nearest x ≤ n := by
  have := F32.nearest_le_dyadic x n 0 (by norm_num)
    (by rw [show (2 : ℚ) ^ ((0 : ℤ) + 24) = 2 ^ 24 by norm_num]; exact hx) (by simpa using h)
  simpa using this

theorem F32.int_le_nearest (x : ℚ) (n : ℤ) (hx : |x| < 2 ^ 24) (h : (n : ℚ) ≤ x) :
    (n : ℚ) ≤ F32.nearest x := by
  have := F32.le_nearest_dyadic x n 0 (by norm_num)
    (by rw [show (2 : ℚ) ^ ((0 : ℤ) + 24) = 2 ^ 24 by norm_num]; exact hx) (by simpa using h)
  simpa using this

/-- Rounding keeps a number between two integers below `2 ^ 24` finite and between them. -/
theorem F32.ofRat_between (x : ℚ) (a b : ℤ) (hx : |x| < 2 ^ 24) (ha : (a : ℚ) ≤ x)
    (hb : x ≤ b) :
    F32.ofRat x = F32.fin (F32.nearest x) ∧ (a : ℚ) ≤ F32.nearest x ∧ F32.nearest x ≤ b := by
  have h1 := F32.int_le_nearest x a hx ha
  have h2 := F32.nearest_le_int x b hx hb
  have hlo : -(2 : ℚ) ^ 24 ≤ F32.nearest x := by
    have := F32.int_le_nearest x (-(2 ^ 24)) hx (by push_cast; linarith [(abs_lt.mp hx).1])
    push_cast at this; exact this
  have hhi : F32.nearest x ≤ (2 : ℚ) ^ 24 := by
    have := F32.nearest_le_int x (2 ^ 24) hx (by push_cast; linarith [(abs_lt.mp hx).2])
    push_cast at this; exact this
  refine ⟨?_, h1, h2⟩
  unfold F32.ofRat
  rw [if_pos]
  rw [abs_le]
  unfold F32.maxFinite
  constructor <;> norm_num at * <;> linarith

/-- An integer below `2 ^ 24` in absolute value is a binary32 number. -/
theorem F32.ofRat_int (n : ℤ) (h : |(n : ℚ)| < 2 ^ 24) : F32.ofRat n = F32.fin n := by
  obtain ⟨h0, h1, h2⟩ := F32.ofRat_between (n : ℚ) n n h (le_refl _) (le_refl _)
  rw [h0, le_antisymm h2 h1]

theorem F32.natCast_eq (n : Nat) (h : n < 2 ^ 24) : ((n : Nat) : F32) = F32.fin n := by
  have := F32.ofRat_int (n : ℤ) (by
    rw [abs_of_nonneg (by positivity)]
    exact_mod_cast h)
  exact_mod_cast this

/-! ### The rounding functions meet their descriptions -/

theorem F32.bitLengthAux_spec (fuel n : Nat) (h : n ≤ fuel) :
    n < 2 ^ F32.bitLengthAux fuel n ∧ (n ≠ 0 → 2 ^ (F32.bitLengthAux fuel n - 1) ≤ n) := by
  induction fuel generalizing n with
  | zero =>
    have : n = 0 := by omega
    subst this
    exact ⟨by simp [F32.bitLengthAux], fun h0 => absurd rfl h0⟩
  | succ fuel ih =>
    unfold F32.bitLengthAux
    split
    · rename_i h0
      subst h0
      exact ⟨by simp, fun h0 => absurd rfl h0⟩
    · rename_i h0
      obtain ⟨ih1, ih2⟩ := ih (n / 2) (by omega)
      refine ⟨?_, fun _ => ?_⟩
      · rw [Nat.pow_succ]; omega
      · rw [Nat.add_sub_cancel]
        by_cases h2 : n / 2 = 0
        · have hb : F32.bitLengthAux fuel (n / 2) = 0 := by
            rw [h2]
            cases fuel <;> simp [F32.bitLengthAux]
          rw [hb]
          simp
          omega
        · have := ih2 h2
          have hpos : 1 ≤ F32.bitLengthAux fuel (n / 2) := by
            by_contra hc
            have hz : F32.bitLengthAux fuel (n / 2) = 0 := by omega
            rw [hz] at ih1
            simp at ih1
            exact h2 ih1
          have e : F32.bitLengthAux fuel (n / 2)
              = (F32.bitLengthAux fuel (n / 2) - 1) + 1 := by omega
          rw [e, Nat.pow_succ]
          omega

/-- The number of digits `L` of a positive `n` satisfies `2 ^ (L - 1) ≤ n < 2 ^ L`. -/
theorem F32.bitLength_spec (n : Nat) :
    n < 2 ^ F32.bitLength n ∧ (n ≠ 0 → 2 ^ (F32.bitLength n - 1) ≤ n) :=
  F32.bitLengthAux_spec n n (le_refl n)

/-- The exponent that `binade` returns for a positive number is the one its doc comment
states. -/
theorem F32.binade_spec (q : ℚ) (hq : 0 < q) :
    (2 : ℚ) ^ F32.binade q ≤ q ∧ q < (2 : ℚ) ^ (F32.binade q + 1) := by
  unfold F32.binade
  split
  · rename_i h1
    obtain ⟨b1, b2⟩ := F32.bitLength_spec ⌊q⌋₊
    have hn : ⌊q⌋₊ ≠ 0 := by
      have := Nat.floor_pos.mpr h1
      omega
    have b2 := b2 hn
    have hL : 1 ≤ F32.bitLength ⌊q⌋₊ := by
      by_contra hc
      have hz : F32.bitLength ⌊q⌋₊ = 0 := by omega
      rw [hz, pow_zero] at b1
      omega
    have e1 : ((F32.bitLength ⌊q⌋₊ : ℤ) - 1) = ((F32.bitLength ⌊q⌋₊ - 1 : ℕ) : ℤ) := by
      omega
    constructor
    · rw [e1, zpow_natCast]
      calc (2 : ℚ) ^ (F32.bitLength ⌊q⌋₊ - 1) ≤ (⌊q⌋₊ : ℚ) := by exact_mod_cast b2
        _ ≤ q := Nat.floor_le (le_of_lt hq)
    · rw [sub_add_cancel, zpow_natCast]
      calc q < (⌊q⌋₊ : ℚ) + 1 := Nat.lt_floor_add_one q
        _ ≤ (2 : ℚ) ^ F32.bitLength ⌊q⌋₊ := by exact_mod_cast b1
  · rename_i h1
    rw [not_le] at h1
    have hinv : 1 < q⁻¹ := by
      rw [one_lt_inv₀ hq]; exact h1
    have hm : 2 ≤ ⌈q⁻¹⌉₊ := by
      have : 1 < ⌈q⁻¹⌉₊ := Nat.lt_ceil.mpr (by exact_mod_cast hinv)
      omega
    obtain ⟨b1, b2⟩ := F32.bitLength_spec (⌈q⁻¹⌉₊ - 1)
    have b2 := b2 (by omega)
    have hc1 : q⁻¹ ≤ (2 : ℚ) ^ F32.bitLength (⌈q⁻¹⌉₊ - 1) := by
      have : ⌈q⁻¹⌉₊ ≤ 2 ^ F32.bitLength (⌈q⁻¹⌉₊ - 1) := by omega
      calc q⁻¹ ≤ (⌈q⁻¹⌉₊ : ℚ) := Nat.le_ceil _
        _ ≤ (2 : ℚ) ^ F32.bitLength (⌈q⁻¹⌉₊ - 1) := by exact_mod_cast this
    have hc2 : (2 : ℚ) ^ (F32.bitLength (⌈q⁻¹⌉₊ - 1) - 1) < q⁻¹ := by
      have h3 : ((⌈q⁻¹⌉₊ - 1 : ℕ) : ℚ) < q⁻¹ := by
        have := Nat.ceil_lt_add_one (le_of_lt (inv_pos.mpr hq))
        rw [Nat.cast_sub (by omega)]
        push_cast
        linarith
      calc (2 : ℚ) ^ (F32.bitLength (⌈q⁻¹⌉₊ - 1) - 1)
          ≤ ((⌈q⁻¹⌉₊ - 1 : ℕ) : ℚ) := by exact_mod_cast b2
        _ < q⁻¹ := h3
    have hL : 1 ≤ F32.bitLength (⌈q⁻¹⌉₊ - 1) := by
      by_contra hc
      have hz : F32.bitLength (⌈q⁻¹⌉₊ - 1) = 0 := by omega
      rw [hz] at b1
      simp at b1
      omega
    have hpow : (0 : ℚ) < (2 : ℚ) ^ F32.bitLength (⌈q⁻¹⌉₊ - 1) := by positivity
    constructor
    · rw [zpow_neg, zpow_natCast]
      rw [inv_le_comm₀ hpow hq]
      exact hc1
    · have e : -(F32.bitLength (⌈q⁻¹⌉₊ - 1) : ℤ) + 1
          = -((F32.bitLength (⌈q⁻¹⌉₊ - 1) - 1 : ℕ) : ℤ) := by omega
      rw [e, zpow_neg, zpow_natCast]
      rw [lt_inv_comm₀ hq (by positivity)]
      exact hc2

/-- Rounding to the nearest integer moves a number by at most one half. -/
theorem F32.abs_nearestEven_sub_le (y : ℚ) : |(F32.nearestEven y : ℚ) - y| ≤ 1 / 2 := by
  have h1 := Int.floor_le y
  have h2 := Int.lt_floor_add_one y
  unfold F32.nearestEven
  rw [abs_le]
  split
  · constructor <;> linarith
  · rename_i h3
    split
    · push_cast; constructor <;> linarith
    · rename_i h4
      split
      · constructor <;> linarith
      · push_cast; constructor <;> linarith

/-- Rounding to binary32 moves a number by at most half the spacing around it. -/
theorem F32.abs_nearest_sub_le (q : ℚ) : |F32.nearest q - q| ≤ F32.ulp q / 2 := by
  have hu := F32.ulp_pos q
  have h := F32.abs_nearestEven_sub_le (q / F32.ulp q)
  unfold F32.nearest
  have e : (F32.nearestEven (q / F32.ulp q) : ℚ) * F32.ulp q - q
      = ((F32.nearestEven (q / F32.ulp q) : ℚ) - q / F32.ulp q) * F32.ulp q := by
    field_simp
  rw [e, abs_mul, abs_of_pos hu]
  calc |(F32.nearestEven (q / F32.ulp q) : ℚ) - q / F32.ulp q| * F32.ulp q
      ≤ 1 / 2 * F32.ulp q := mul_le_mul_of_nonneg_right h (le_of_lt hu)
    _ = F32.ulp q / 2 := by ring

/-! ### The scalar factors stay finite for parameters in range -/

theorem F32.between_iff (a b : ℚ) (x : F32) :
    x.between a b = true ↔ ∃ q, x = F32.fin q ∧ a ≤ q ∧ q ≤ b := by
  cases x with
  | fin q =>
    simp only [F32.between, decide_eq_true_eq, F32.fin.injEq, exists_eq_left']
  | inf s => simp [F32.between]
  | nan => simp [F32.between]

theorem F32.isFinite_fin (q : ℚ) : (F32.fin q).isFinite = true := rfl

theorem F32.ofRat_range (x : ℚ) (a b : ℤ) (ha : -(2 : ℤ) ^ 24 < a) (hb : b < (2 : ℤ) ^ 24)
    (hax : (a : ℚ) ≤ x) (hxb : x ≤ b) :
    ∃ r, F32.ofRat x = F32.fin r ∧ (a : ℚ) ≤ r ∧ r ≤ b := by
  have ha2 : -(2 : ℚ) ^ 24 < a := by exact_mod_cast ha
  have hb2 : (b : ℚ) < (2 : ℚ) ^ 24 := by exact_mod_cast hb
  have hx : |x| < 2 ^ 24 := abs_lt.mpr ⟨by linarith, by linarith⟩
  exact ⟨_, F32.ofRat_between x a b hx hax hxb⟩

theorem F32.half_def : (0.5 : F32) = F32.fin (1 / 2) := by decide!

theorem F32.three_tenths_between : (0.3 : F32).between 0 1 = true := by decide!

theorem F32.hundredth_finite : (0.01 : F32).isFinite = true := by decide!

theorem F32.numBins_def : ((numBins : Nat) : F32) = F32.fin 2048 := by decide!

theorem decayFactor_finite (P : Params F32) (ht : P.time.between 0 10 = true) :
    (decayFactor P).isFinite = true := by
  obtain ⟨t, ht, ht0, ht1⟩ := (F32.between_iff _ _ _).mp ht
  unfold decayFactor
  rw [ht, F32.ten_def, F32.one_def, F32.mul_def, F32.mul]
  obtain ⟨a, ha, ha0, ha1⟩ := F32.ofRat_range (t * 10) 0 100 (by norm_num) (by norm_num)
    (by push_cast; linarith) (by push_cast; linarith)
  rw [ha, F32.add_def, F32.add]
  obtain ⟨b, hb, hb0, hb1⟩ := F32.ofRat_range (a + 1) 1 101 (by norm_num) (by norm_num)
    (by push_cast at *; linarith) (by push_cast at *; linarith)
  push_cast at hb0 hb1
  rw [hb, F32.div_def, F32.div, if_neg (by linarith)]
  obtain ⟨c, hc, hc0, hc1⟩ := F32.ofRat_range (1 / b) 0 1 (by norm_num) (by norm_num)
    (by push_cast; positivity) (by push_cast; rw [div_le_one (by linarith)]; exact hb0)
  rw [hc, F32.sub_def, F32.neg, F32.add]
  obtain ⟨d, hd, _, _⟩ := F32.ofRat_range (1 + -c) 0 1 (by norm_num) (by norm_num)
    (by push_cast at *; linarith) (by push_cast at *; linarith)
  rw [hd]
  rfl

theorem dampingFactor_finite (P : Params F32) (i : Nat) (hi : i < numBins)
    (hd : P.damping.between 0 1 = true) : (dampingFactor P i).isFinite = true := by
  obtain ⟨d, hd, hd0, hd1⟩ := (F32.between_iff _ _ _).mp hd
  have h2 := numBins_eq
  have hi2 : (i : ℚ) ≤ 2048 := by exact_mod_cast (by omega : i ≤ 2048)
  have hi0 : (0 : ℚ) ≤ i := Nat.cast_nonneg i
  unfold dampingFactor
  rw [hd, F32.natCast_eq i (by omega), F32.numBins_def, F32.one_def, F32.mul_def, F32.mul]
  obtain ⟨a, ha, ha0, ha1⟩ := F32.ofRat_range (d * i) 0 2048 (by norm_num) (by norm_num)
    (by push_cast; positivity) (by push_cast; nlinarith)
  push_cast at ha0 ha1
  rw [ha, F32.div_def, F32.div, if_neg (by norm_num)]
  obtain ⟨b, hb, hb0, hb1⟩ := F32.ofRat_range (a / 2048) 0 1 (by norm_num) (by norm_num)
    (by push_cast; positivity) (by push_cast; rw [div_le_one (by norm_num)]; exact ha1)
  rw [hb, F32.sub_def, F32.neg, F32.add]
  obtain ⟨c, hc, _, _⟩ := F32.ofRat_range (1 + -b) 0 1 (by norm_num) (by norm_num)
    (by push_cast at *; linarith) (by push_cast at *; linarith)
  rw [hc]
  unfold jmax
  split
  · rfl
  · exact F32.hundredth_finite

theorem densityFactor_finite (E : Env F32) (P : Params F32) (ms : Nat → F32) (i : Nat)
    (hsin : ∀ x, (E.sin x).between (-1) 1 = true) (hd : P.density.between 0 1 = true) :
    (densityFactor E P ms i).isFinite = true := by
  obtain ⟨d, hd, hd0, hd1⟩ := (F32.between_iff _ _ _).mp hd
  unfold densityFactor
  split
  · unfold random
    obtain ⟨s, hs, hs0, hs1⟩ := (F32.between_iff _ _ _).mp
      (hsin ((i : F32) * 0.3 + ms i * 0.001))
    obtain ⟨w, hw, hw0, hw1⟩ := (F32.between_iff _ _ _).mp F32.three_tenths_between
    rw [hs, hd, hw, F32.half_def, F32.one_def]
    simp only [F32.mul_def, F32.add_def, F32.sub_def, F32.mul, F32.add, F32.neg]
    obtain ⟨a, ha, ha0, ha1⟩ := F32.ofRat_range (1 / 2 * s) (-1) 1 (by norm_num)
      (by norm_num) (by push_cast; linarith) (by push_cast; linarith)
    push_cast at ha0 ha1
    rw [ha]
    simp only [F32.add]
    obtain ⟨b, hb, hb0, hb1⟩ := F32.ofRat_range (1 / 2 + a) (-1) 2 (by norm_num)
      (by norm_num) (by push_cast; linarith) (by push_cast; linarith)
    push_cast at hb0 hb1
    rw [hb]
    obtain ⟨c, hc, hc0, hc1⟩ := F32.ofRat_range (d * w) 0 1 (by norm_num)
      (by norm_num) (by push_cast; positivity) (by push_cast; nlinarith)
    push_cast at hc0 hc1
    rw [hc]
    simp only [F32.mul]
    obtain ⟨e, he, he0, he1⟩ := F32.ofRat_range (c * b) (-2) 2 (by norm_num)
      (by norm_num) (by push_cast; nlinarith) (by push_cast; nlinarith)
    push_cast at he0 he1
    rw [he]
    simp only [F32.neg, F32.add]
    obtain ⟨f, hf, _, _⟩ := F32.ofRat_range (1 + -e) (-1) 3 (by norm_num)
      (by norm_num) (by push_cast; linarith) (by push_cast; linarith)
    rw [hf]
    rfl
  · rfl

/-! ## The claims that depend on binary32 arithmetic -/

/-! ### The band gains in binary32 -/

theorem F32.fin_lt_fin (a b : ℚ) : (F32.fin a < F32.fin b) ↔ a < b := by
  rw [F32.lt_def, F32.lt, decide_eq_true_eq]

theorem F32.lowCutoff_eq : (lowCutoff : F32) = F32.fin (13421773 / 65536) := by decide!

theorem F32.midCutoff_eq : (midCutoff : F32) = F32.fin (13421773 / 16384) := by decide!

theorem F32.lt_lowCutoff_float (i : Nat) (hi : i < 2 ^ 24) :
    ((i : F32) < lowCutoff) ↔ i ≤ 204 := by
  rw [F32.natCast_eq i hi, F32.lowCutoff_eq, F32.fin_lt_fin, lt_div_iff₀ (by norm_num)]
  have : ((i : ℚ) * 65536 < 13421773) ↔ (i * 65536 < 13421773) := by exact_mod_cast Iff.rfl
  rw [this]; omega

theorem F32.lt_midCutoff_float (i : Nat) (hi : i < 2 ^ 24) :
    ((i : F32) < midCutoff) ↔ i ≤ 819 := by
  rw [F32.natCast_eq i hi, F32.midCutoff_eq, F32.fin_lt_fin, lt_div_iff₀ (by norm_num)]
  have : ((i : ℚ) * 16384 < 13421773) ↔ (i * 16384 < 13421773) := by exact_mod_cast Iff.rfl
  rw [this]; omega

theorem F32.band_cases_float (P : Params F32) (i : Nat) (hi : i < 2 ^ 24) :
    bandMultiplier P i =
      if i ≤ 204 then P.lowBand else if i ≤ 819 then P.midBand else P.highBand := by
  simp only [bandMultiplier, F32.lt_lowCutoff_float i hi, F32.lt_midCutoff_float i hi]

theorem F32.finalMultiplier_muted (E : Env F32) (P : Params F32) (ms : Nat → F32) (i : Nat)
    (hb : bandMultiplier P i = 0) (hdecay : (decayFactor P).isFinite = true)
    (hdamp : (dampingFactor P i).isFinite = true)
    (hdens : (densityFactor E P ms i).isFinite = true) :
    finalMultiplier E P ms i = 0 := by
  unfold finalMultiplier
  rw [hb, F32.zero_mul_of_finite _ hdecay, F32.zero_mul_of_finite _ hdamp,
    F32.zero_mul_of_finite _ hdens]

theorem F32.scale_zero_of_finite (z : Cx F32) (hre : z.re.isFinite = true)
    (him : z.im.isFinite = true) : z.scale 0 = Cx.zero := by
  unfold Cx.scale Cx.zero
  rw [F32.mul_zero_of_finite _ hre, F32.mul_zero_of_finite _ him]

theorem F32.conj_zero_float : (Cx.zero : Cx F32).conj = Cx.zero := by
  unfold Cx.conj Cx.zero
  simp only [F32.neg_zero]

/-- C7 (counterexample): size `1.0f` (ten spread targets), the low band muted, and a frame
of finite values whose bins 1 and 2 hold `3e38f`: processing bin 1 adds
`3e38f * (10 / 11) * 0.3f` to bin 2, which overflows to `+inf`; bin 2 is then scaled by the
final multiplier 0, and `inf * 0` is a NaN. Bin 2 is in the muted low band and is not zero
after the stage. -/
theorem muted_band_counterexample :
    hotFrame.size = fftSize ∧ lowMutedFloat.freeze = false ∧ lowMutedFloat.lowBand = 0 ∧
      bandMultiplier lowMutedFloat 2 = 0 ∧
      (bin hotFrame 1).re = F32.fin 300000000549775575777803994281145270272 ∧
      bin hotFrame 2 = bin hotFrame 1 ∧
      bin (binsUpTo floatEnv lowMutedFloat (fun _ => 0) hotFrame 1) 2
        = ⟨F32.inf false, 0⟩ ∧
      bin (applySpectralProcessing floatEnv lowMutedFloat (fun _ => 0) hotFrame) 2
        = ⟨F32.nan, 0⟩ ∧
      bin (applySpectralProcessing floatEnv lowMutedFloat (fun _ => 0) hotFrame) 2
        ≠ Cx.zero := by
  have hsz : hotFrame.size = fftSize := size_tabulate _ _
  have hf : lowMutedFloat.freeze = false := rfl
  have h3 := fftSize_eq
  have h4 := numBins_eq
  have hb1 : bin hotFrame 1 = ⟨3e38, 0⟩ := by
    unfold hotFrame
    rw [bin_tabulate, if_pos (by rw [h3]; omega), if_pos (Or.inl rfl)]
  have hb2 : bin hotFrame 2 = ⟨3e38, 0⟩ := by
    unfold hotFrame
    rw [bin_tabulate, if_pos (by rw [h3]; omega), if_pos (Or.inr rfl)]
  have hS : spreadAmountOf lowMutedFloat = 10 := by decide!
  have hsize : lowMutedFloat.size > 0.01 := by decide!
  have hspread : spread lowMutedFloat 1 hotFrame = spreadLoop 10 1 hotFrame := by
    unfold spread
    rw [if_pos hsize, hS, if_pos ⟨by omega, by rw [h4]; omega⟩]
  have hpre : bin (binsUpTo floatEnv lowMutedFloat (fun _ => 0) hotFrame 1) 2
      = ⟨F32.inf false, 0⟩ := by
    have hz : binsUpTo floatEnv lowMutedFloat (fun _ => 0) hotFrame 0 = hotFrame := by
      unfold binsUpTo
      rw [show List.range' 1 0 = [] from rfl, List.foldl_nil]
    have e : binsUpTo floatEnv lowMutedFloat (fun _ => 0) hotFrame 1
        = processBin floatEnv lowMutedFloat (fun _ => 0) hotFrame 1 := by
      have := binsUpTo_succ floatEnv lowMutedFloat (fun _ => 0) hotFrame 0
      rw [hz] at this
      exact this
    rw [e, processBin_of_other floatEnv lowMutedFloat (fun _ => 0) hotFrame 1 2 hf
      (by omega) (by rw [h3]; omega), hspread, spreadLoop]
    have := spreadFold_target (K := F32) 10 1 10 1 hotFrame (by rw [hsz, h3]; omega)
      (le_refl 1)
    rw [this, if_pos (by omega), hb1, hb2]
    decide!
  have hout : bin (applySpectralProcessing floatEnv lowMutedFloat (fun _ => 0) hotFrame) 2
      = ⟨F32.nan, 0⟩ := by
    rw [(applySpectralProcessing_bin floatEnv lowMutedFloat (fun _ => 0) hotFrame 2 hsz hf
      (by omega) (by rw [h4]; omega)).1, hpre]
    decide!
  refine ⟨hsz, hf, by decide!, by decide!, by rw [hb1]; decide!, by rw [hb1, hb2], hpre,
    hout, ?_⟩
  rw [hout]
  decide!

/-- C7 (amended): the source's cutoffs put bins 1..204 in the low band, 205..819 in the mid
band and 820..2047 in the high band, also in binary32 arithmetic. With freeze off, for every
frame of `fftSize` bins and every setting of the other parameters with time in [0, 10],
damping and density in [0, 1] and a sine between -1 and 1 (any size and any band gains), a
bin `i` whose band gain is 0 is exactly zero after `applySpectralProcessing`, and so is its
mirror bin `fftSize - i`, whenever the value the bin holds when the loop reaches it (the
input value plus what lower bins have spread into it) is finite; a part of that value that
is an infinity or a NaN comes out as a NaN. -/
theorem band_isolation_finite (E : Env F32) (P : Params F32) (ms : Nat → F32)
    (fr : Array (Cx F32)) (i : Nat) (hsz : fr.size = fftSize) (hf : P.freeze = false)
    (h1 : 1 ≤ i) (hi : i < fftSize / 2) (htime : P.time.between 0 10 = true)
    (hdamping : P.damping.between 0 1 = true) (hdensity : P.density.between 0 1 = true)
    (hsin : ∀ x, (E.sin x).between (-1) 1 = true) :
    (((i : F32) < lowCutoff) ↔ i ≤ 204) ∧ (((i : F32) < midCutoff) ↔ i ≤ 819) ∧
      (bandMultiplier P i
        = if i ≤ 204 then P.lowBand else if i ≤ 819 then P.midBand else P.highBand) ∧
      (bandMultiplier P i = 0 →
        ((bin (binsUpTo E P ms fr (i - 1)) i).re.isFinite = true →
          (bin (binsUpTo E P ms fr (i - 1)) i).im.isFinite = true →
            bin (applySpectralProcessing E P ms fr) i = Cx.zero ∧
              bin (applySpectralProcessing E P ms fr) (fftSize - i) = Cx.zero) ∧
        ((bin (binsUpTo E P ms fr (i - 1)) i).re.isFinite = false →
          (bin (applySpectralProcessing E P ms fr) i).re = F32.nan) ∧
        ((bin (binsUpTo E P ms fr (i - 1)) i).im.isFinite = false →
          (bin (applySpectralProcessing E P ms fr) i).im = F32.nan)) := by
  have h3 := fftSize_eq
  have hi24 : i < 2 ^ 24 := by rw [h3] at hi; omega
  have hbin := applySpectralProcessing_bin E P ms fr i hsz hf h1 hi
  refine ⟨F32.lt_lowCutoff_float i hi24, F32.lt_midCutoff_float i hi24,
    F32.band_cases_float P i hi24, ?_⟩
  intro hb
  have hm := F32.finalMultiplier_muted E P ms i hb (decayFactor_finite P htime)
    (dampingFactor_finite P i hi hdamping) (densityFactor_finite E P ms i hsin hdensity)
  refine ⟨?_, ?_, ?_⟩
  · intro hre him
    have hz : bin (applySpectralProcessing E P ms fr) i = Cx.zero := by
      rw [hbin.1, hm, F32.scale_zero_of_finite _ hre him]
    exact ⟨hz, by rw [hbin.2, hz, F32.conj_zero_float]⟩
  · intro hre
    rw [hbin.1, hm]
    exact F32.mul_zero_of_not_finite _ hre
  · intro him
    rw [hbin.1, hm]
    exact F32.mul_zero_of_not_finite _ him

theorem F32.zero_between : (0 : F32).between (-1) 1 = true := by decide!

theorem size_floatRamp : floatRamp.size = fftSize := size_tabulate _ _

theorem band_isolation_finite_witness :
    floatRamp.size = fftSize ∧ lowMutedFloat.freeze = false ∧ 1 ≤ 1 ∧ 1 < fftSize / 2 ∧
      lowMutedFloat.time.between 0 10 = true ∧ lowMutedFloat.damping.between 0 1 = true ∧
      lowMutedFloat.density.between 0 1 = true ∧
      (∀ x, (floatEnv.sin x).between (-1) 1 = true) ∧
      ((((1 : Nat) : F32) < lowCutoff) ↔ 1 ≤ 204) ∧ ((((1 : Nat) : F32) < midCutoff) ↔ 1 ≤ 819) ∧
      (bandMultiplier lowMutedFloat 1
        = if 1 ≤ 204 then lowMutedFloat.lowBand
          else if 1 ≤ 819 then lowMutedFloat.midBand else lowMutedFloat.highBand) ∧
      (bandMultiplier lowMutedFloat 1 = 0 →
        ((bin (binsUpTo floatEnv lowMutedFloat (fun _ => 0) floatRamp (1 - 1)) 1).re.isFinite
            = true →
          (bin (binsUpTo floatEnv lowMutedFloat (fun _ => 0) floatRamp (1 - 1)) 1).im.isFinite
              = true →
            bin (applySpectralProcessing floatEnv lowMutedFloat (fun _ => 0) floatRamp) 1
                = Cx.zero ∧
              bin (applySpectralProcessing floatEnv lowMutedFloat (fun _ => 0) floatRamp)
                (fftSize - 1) = Cx.zero) ∧
        ((bin (binsUpTo floatEnv lowMutedFloat (fun _ => 0) floatRamp (1 - 1)) 1).re.isFinite
            = false →
          (bin (applySpectralProcessing floatEnv lowMutedFloat (fun _ => 0) floatRamp) 1).re
            = F32.nan) ∧
        ((bin (binsUpTo floatEnv lowMutedFloat (fun _ => 0) floatRamp (1 - 1)) 1).im.isFinite
            = false →
          (bin (applySpectralProcessing floatEnv lowMutedFloat (fun _ => 0) floatRamp) 1).im
            = F32.nan)) :=
  ⟨size_floatRamp, rfl, by decide, by decide, by decide!, by decide!, by decide!,
    fun _ => F32.zero_between,
    band_isolation_finite floatEnv lowMutedFloat (fun _ => 0) floatRamp 1 size_floatRamp rfl
      (by decide) (by decide) (by decide!) (by decide!) (by decide!)
      (fun _ => F32.zero_between)⟩

/-! ### The spread count in binary32 -/

theorem F32.hundredth_def : (0.01 : F32) = F32.fin (5368709 / 536870912) := by decide!

theorem F32.toNat_ofRat_of_le_half (x : ℚ) (h : x ≤ 1 / 2) : (F32.ofRat x).toNat = 0 := by
  have hle : F32.nearest x ≤ 1 / 2 := by
    rcases le_or_lt x 0 with h0 | h0
    · have := F32.nearest_le x 0 0 (by simp) h0
      linarith
    · have hx : |x| < 2 ^ ((-1 : ℤ) + 24) := by
        rw [abs_of_pos h0]
        norm_num
        linarith
      have := F32.nearest_le_dyadic x 1 (-1) (by norm_num) hx (by norm_num; linarith)
      norm_num at this
      linarith
  unfold F32.ofRat
  split
  · unfold F32.toNat
    rw [Nat.floor_eq_zero]
    linarith
  · rfl

theorem F32.spreadAmountOf_fin (P : Params F32) (q : ℚ) (hq : P.size = F32.fin q) :
    spreadAmountOf P = (F32.ofRat (q * 10)).toNat := by
  unfold spreadAmountOf
  rw [hq, F32.ten_def]
  rfl

/-- A spread count of at least 1 implies the guard `size > 0.01f`. -/
theorem F32.size_gt_of_spreadAmountOf_pos (P : Params F32) (h : 1 ≤ spreadAmountOf P) :
    P.size > 0.01 := by
  cases hs : P.size with
  | fin q =>
    rw [F32.hundredth_def]
    show F32.fin (5368709 / 536870912) < F32.fin q
    rw [F32.lt_def, F32.lt, decide_eq_true_eq]
    by_contra hle
    rw [not_lt] at hle
    have := F32.toNat_ofRat_of_le_half (q * 10) (by linarith)
    rw [F32.spreadAmountOf_fin P q hs, this] at h
    omega
  | inf s =>
    exfalso
    unfold spreadAmountOf at h
    rw [hs, F32.ten_def] at h
    have : (Truncate.toNat (F32.inf s * F32.fin 10) : Nat) = 0 := by
      cases s <;> decide!
    omega
  | nan =>
    exfalso
    unfold spreadAmountOf at h
    rw [hs, F32.ten_def] at h
    have : (Truncate.toNat (F32.nan * F32.fin 10) : Nat) = 0 := rfl
    omega

theorem F32.spread_eq_float (P : Params F32) (i : Nat) (fr : Array (Cx F32)) :
    spread P i fr
      = if 1 ≤ spreadAmountOf P ∧ i + spreadAmountOf P < numBins then
          spreadLoop (spreadAmountOf P) i fr
        else fr := by
  unfold spread
  by_cases h : 1 ≤ spreadAmountOf P ∧ i + spreadAmountOf P < numBins
  · rw [if_pos (F32.size_gt_of_spreadAmountOf_pos P h.1), if_pos h,
      if_pos (show 0 < spreadAmountOf P ∧ _ from h)]
  · rw [if_neg h]
    split
    · rw [if_neg (show ¬ (0 < spreadAmountOf P ∧ _) from h)]
    · rfl

/-- For a size in [0, 1] the count is the integer part of the rounded product, which is
`floor (10 * size)` or one more, and at most 10. -/
theorem F32.spreadAmountOf_bounds (P : Params F32) (q : ℚ) (hq : P.size = F32.fin q)
    (h0 : 0 ≤ q) (h1 : q ≤ 1) :
    spreadAmountOf P = ⌊F32.nearest (q * 10)⌋₊ ∧ ⌊10 * q⌋₊ ≤ spreadAmountOf P ∧
      spreadAmountOf P ≤ ⌊10 * q⌋₊ + 1 ∧ spreadAmountOf P ≤ 10 := by
  have hx : |q * 10| < 2 ^ 24 := by
    rw [abs_of_nonneg (by linarith)]
    norm_num
    linarith
  have hfl : ((⌊10 * q⌋₊ : ℕ) : ℚ) ≤ q * 10 := by
    rw [mul_comm q]; exact Nat.floor_le (by linarith)
  have hfu : q * 10 ≤ ((⌊10 * q⌋₊ + 1 : ℕ) : ℚ) := by
    rw [mul_comm q]; push_cast; exact le_of_lt (Nat.lt_floor_add_one _)
  obtain ⟨e, lo, _⟩ := F32.ofRat_between (q * 10) (⌊10 * q⌋₊ : ℤ) 10 hx
    (by exact_mod_cast hfl) (by push_cast; linarith)
  have hi := F32.nearest_le_int (q * 10) ((⌊10 * q⌋₊ + 1 : ℕ) : ℤ) hx (by exact_mod_cast hfu)
  have hten := F32.nearest_le_int (q * 10) 10 hx (by push_cast; linarith)
  have hS : spreadAmountOf P = ⌊F32.nearest (q * 10)⌋₊ := by
    rw [F32.spreadAmountOf_fin P q hq, e]
    rfl
  have lo2 : ((⌊10 * q⌋₊ : ℕ) : ℚ) ≤ F32.nearest (q * 10) := by exact_mod_cast lo
  have hi2 : F32.nearest (q * 10) ≤ ((⌊10 * q⌋₊ + 1 : ℕ) : ℚ) := by exact_mod_cast hi
  have hten2 : F32.nearest (q * 10) ≤ ((10 : ℕ) : ℚ) := by exact_mod_cast hten
  refine ⟨hS, ?_, ?_, ?_⟩
  · rw [hS]; exact Nat.le_floor lo2
  · rw [hS]; exact Nat.floor_le_of_le hi2
  · rw [hS]; exact Nat.floor_le_of_le hten2

set_option synthInstance.maxSize 2000 in
set_option synthInstance.maxHeartbeats 200000 in
theorem F32.spreadFactor_lt_small :
    ∀ S : Nat, S < 11 → ∀ j2 : Nat, j2 < 11 → ∀ j1 : Nat, j1 < 11 →
      1 ≤ j1 → j1 < j2 → j2 ≤ S →
        (spreadFactor S j2 : F32) < spreadFactor S j1 := by
  decide!

/-- C17 (counterexample): at size `0.7f`, which is 11744051 / 2 ^ 24, `floor (10 * size)`
is 6, and bin 2041 satisfies `2041 + 6 < fftSize / 2`, so the claim has bin 2041 spread into
bin 2042; but the product `size * 10.0f` rounds to `7.0f`, the count is 7, the guard
`2041 + 7 < fftSize / 2` fails, and the spread block and the whole loop body leave bin 2042
as it is, while the share the claim promises is not zero. -/
theorem spread_count_counterexample :
    sevenTenths.size = F32.fin (11744051 / 16777216) ∧
      ⌊10 * (11744051 / 16777216 : ℚ)⌋₊ = 6 ∧ (1 ≤ 6 ∧ 2041 + 6 < fftSize / 2) ∧
      spreadAmountOf sevenTenths = 7 ∧ ¬ (2041 + 7 < fftSize / 2) ∧
      spread sevenTenths 2041 floatRamp = floatRamp ∧
      bin (processBin floatEnv sevenTenths (fun _ => 0) floatRamp 2041) 2042
        = bin floatRamp 2042 ∧
      (bin floatRamp 2042).add
          (((bin floatRamp 2041).scale
            (((6 - 1 + 1 : Nat) : F32) / ((6 + 1 : Nat) : F32))).scale 0.3)
        ≠ bin floatRamp 2042 := by
  have h3 := fftSize_eq
  have h4 := numBins_eq
  have hS : spreadAmountOf sevenTenths = 7 := by decide!
  have hsp : spread sevenTenths 2041 floatRamp = floatRamp := by
    rw [F32.spread_eq_float, hS, if_neg (by rw [h4]; omega)]
  have hb (i : Nat) (hi : i < 4096) :
      bin floatRamp i = ⟨((i + 1 : Nat) : F32), ((i + 2 : Nat) : F32)⟩ := by
    unfold floatRamp
    rw [bin_tabulate, if_pos (by rw [h3]; exact hi)]
  refine ⟨by decide!, ?_, ⟨by omega, by rw [h3]; omega⟩, hS, by rw [h3]; omega, hsp, ?_, ?_⟩
  · rw [Nat.floor_eq_iff (by norm_num)]
    norm_num
  · rw [processBin_of_other floatEnv sevenTenths (fun _ => 0) floatRamp 2041 2042 rfl
      (by omega) (by rw [h3]; omega), hsp]
  · rw [hb 2042 (by omega), hb 2041 (by omega)]
    decide!

/-- C17 (amended): with freeze off, processing bin `i` in `[1, fftSize / 2)` runs the spread
loop if and only if the count `S` is at least 1 and `i + S < fftSize / 2`, and otherwise the
spread block leaves the frame as it is. `S` is the integer part of the binary32 product
`size * 10.0f`: for a size in [0, 1] it is `floor (10 * size)` or, when the product rounds up
to the next integer, one more, and it is at most 10. When the loop runs, bin `i + j` receives
the current value of bin `i` times `(S - j + 1) / (S + 1)` times `0.3f` (binary32 products)
for each `j` in `1..S`; the bins with index at most `i` and the bins above `i + S` are
unchanged; and the weights `(S - j + 1) / (S + 1)` strictly decrease in `j`. -/
theorem spread_semantics_float (E : Env F32) (P : Params F32) (ms : Nat → F32)
    (fr : Array (Cx F32)) (i : Nat) (hsz : fr.size = fftSize) (hf : P.freeze = false)
    (h1 : 1 ≤ i) (hi : i < fftSize / 2) :
    (spread P i fr
        = if 1 ≤ spreadAmountOf P ∧ i + spreadAmountOf P < fftSize / 2 then
            spreadLoop (spreadAmountOf P) i fr
          else fr) ∧
      (1 ≤ spreadAmountOf P ∧ i + spreadAmountOf P < fftSize / 2 →
        (∀ j, 1 ≤ j → j ≤ spreadAmountOf P →
          bin (spread P i fr) (i + j)
              = (bin fr (i + j)).add
                  (((bin fr i).scale
                    (((spreadAmountOf P - j + 1 : Nat) : F32)
                      / ((spreadAmountOf P + 1 : Nat) : F32))).scale 0.3) ∧
            bin (processBin E P ms fr i) (i + j) = bin (spread P i fr) (i + j)) ∧
          (∀ t, t ≤ i → bin (spread P i fr) t = bin fr t) ∧
          ∀ t, i + spreadAmountOf P < t → bin (spread P i fr) t = bin fr t) ∧
      (∀ q : ℚ, P.size = F32.fin q → 0 ≤ q → q ≤ 1 →
        spreadAmountOf P = ⌊F32.nearest (q * 10)⌋₊ ∧ ⌊10 * q⌋₊ ≤ spreadAmountOf P ∧
          spreadAmountOf P ≤ ⌊10 * q⌋₊ + 1 ∧ spreadAmountOf P ≤ 10 ∧
          ∀ j1 j2, 1 ≤ j1 → j1 < j2 → j2 ≤ spreadAmountOf P →
            ((spreadAmountOf P - j2 + 1 : Nat) : F32) / ((spreadAmountOf P + 1 : Nat) : F32)
              < ((spreadAmountOf P - j1 + 1 : Nat) : F32)
                  / ((spreadAmountOf P + 1 : Nat) : F32)) := by
  have h2 := numBins_eq
  have h3 := fftSize_eq
  refine ⟨F32.spread_eq_float P i fr, ?_, ?_⟩
  · intro hg
    have hg2 : 1 ≤ spreadAmountOf P ∧ i + spreadAmountOf P < numBins := hg
    refine ⟨?_, fun t ht => spread_of_le P i t fr ht, ?_⟩
    · intro j hj1 hj2
      refine ⟨?_, processBin_of_other E P ms fr i (i + j) hf (by omega) (by omega)⟩
      rw [F32.spread_eq_float, if_pos hg2, spreadLoop,
        spreadFold_target (spreadAmountOf P) i (spreadAmountOf P) j fr (by omega) hj1,
        if_pos hj2]
      rfl
    · intro t ht
      rw [F32.spread_eq_float, if_pos hg2, spreadLoop]
      apply spreadFold_of_not_target
      intro j hj
      rw [List.mem_range'_1] at hj
      omega
  · intro q hq h0 hq1
    obtain ⟨b1, b2, b3, b4⟩ := F32.spreadAmountOf_bounds P q hq h0 hq1
    refine ⟨b1, b2, b3, b4, ?_⟩
    intro j1 j2 hj1 h12 hj2
    exact F32.spreadFactor_lt_small (spreadAmountOf P) (by omega) j2 (by omega) j1 (by omega)
      hj1 h12 hj2

theorem spread_semantics_float_witness :
    floatRamp.size = fftSize ∧ sevenTenths.freeze = false ∧ 1 ≤ 7 ∧ 7 < fftSize / 2 ∧
      ((spread sevenTenths 7 floatRamp
          = if 1 ≤ spreadAmountOf sevenTenths ∧ 7 + spreadAmountOf sevenTenths < fftSize / 2
            then spreadLoop (spreadAmountOf sevenTenths) 7 floatRamp
            else floatRamp) ∧
        (1 ≤ spreadAmountOf sevenTenths ∧ 7 + spreadAmountOf sevenTenths < fftSize / 2 →
          (∀ j, 1 ≤ j → j ≤ spreadAmountOf sevenTenths →
            bin (spread sevenTenths 7 floatRamp) (7 + j)
                = (bin floatRamp (7 + j)).add
                    (((bin floatRamp 7).scale
                      (((spreadAmountOf sevenTenths - j + 1 : Nat) : F32)
                        / ((spreadAmountOf sevenTenths + 1 : Nat) : F32))).scale 0.3) ∧
              bin (processBin floatEnv sevenTenths (fun _ => 0) floatRamp 7) (7 + j)
                = bin (spread sevenTenths 7 floatRamp) (7 + j)) ∧
            (∀ t, t ≤ 7 → bin (spread sevenTenths 7 floatRamp) t = bin floatRamp t) ∧
            ∀ t, 7 + spreadAmountOf sevenTenths < t →
              bin (spread sevenTenths 7 floatRamp) t = bin floatRamp t) ∧
        (∀ q : ℚ, sevenTenths.size = F32.fin q → 0 ≤ q → q ≤ 1 →
          spreadAmountOf sevenTenths = ⌊F32.nearest (q * 10)⌋₊ ∧
            ⌊10 * q⌋₊ ≤ spreadAmountOf sevenTenths ∧
            spreadAmountOf sevenTenths ≤ ⌊10 * q⌋₊ + 1 ∧ spreadAmountOf sevenTenths ≤ 10 ∧
            ∀ j1 j2, 1 ≤ j1 → j1 < j2 → j2 ≤ spreadAmountOf sevenTenths →
              ((spreadAmountOf sevenTenths - j2 + 1 : Nat) : F32)
                  / ((spreadAmountOf sevenTenths + 1 : Nat) : F32)
                < ((spreadAmountOf sevenTenths - j1 + 1 : Nat) : F32)
                    / ((spreadAmountOf sevenTenths + 1 : Nat) : F32))) :=
  ⟨size_floatRamp, rfl, by decide, by decide,
    spread_semantics_float floatEnv sevenTenths (fun _ => 0) floatRamp 7 size_floatRamp rfl
      (by decide) (by decide)⟩

/-! ### The wet/dry mix in binary32 -/

theorem mix_dry_float (P : Params F32) (dry wet : F32) (h0 : P.wetDry = 0)
    (hd : dry.isValue = true) (hw : wet.isFinite = true) : mix P dry wet = dry := by
  unfold mix
  rw [h0, F32.one_sub_zero, F32.one_mul_of_value dry hd, F32.zero_mul_of_finite wet hw,
    F32.add_zero_of_value dry hd]

theorem mix_dry_float_nan (P : Params F32) (dry wet : F32) (h0 : P.wetDry = 0)
    (hw : wet.isFinite = false) : mix P dry wet = F32.nan := by
  unfold mix
  rw [h0, F32.zero_mul_of_not_finite wet hw, F32.add_nan]

theorem mix_wet_float (P : Params F32) (dry wet : F32) (h1 : P.wetDry = 1)
    (hd : dry.isFinite = true) (hw : wet.isValue = true) : mix P dry wet = wet := by
  unfold mix
  rw [h1, F32.one_sub_one, F32.zero_mul_of_finite dry hd, F32.one_mul_of_value wet hw,
    F32.zero_add_of_value wet hw]

theorem overflowedState_wet :
    (pushSample floatEnv dryFloat (fun _ => 0) 0 overflowedState 1).2 = F32.inf false := by
  rw [pushSample_wet, beforeDrain_output]
  have hdue : frameDue (advance 0 overflowedState (1 : F32)) = false := by
    unfold frameDue
    rw [advance_fifoIndex]
    have : overflowedState.fifoIndex = 0 := rfl
    rw [this, fftSize_eq, hopSize_eq]
    rfl
  rw [hdue]
  have hidx : (overflowedState.fifoIndex + 1) % fftSize = 1 := by
    have : overflowedState.fifoIndex = 0 := rfl
    rw [this, fftSize_eq]
  rw [hidx]
  simp only [Bool.false_eq_true, if_false]
  have hout : overflowedState.fftOutputBuffer
      = setSample (mkArray 2 (mkArray (fftSize * 2) 0)) 0 1 (F32.inf false) := rfl
  rw [hout]
  apply getSample_setSample_same
  · simp
  · rw [fftSize_eq]
    simp [Array.getD]

/-- C19 (counterexample): fully dry (`wetDry = 0`), a one-sample block holding `1.0f`, and a
state whose output ring holds `+inf` in the cell that this push drains: the drained sample
is `+inf`, `0 * inf` is a NaN, and the returned sample is a NaN, not the input sample. -/
theorem dry_mix_counterexample :
    dryFloat.wetDry = 0 ∧
      (processChannels floatEnv dryFloat (fun _ _ _ => 0) 0 overflowedState [[1]]).2
        = [[F32.inf false]] ∧
      (processBlock floatEnv dryFloat (fun _ _ _ => 0) overflowedState [[1]]).2
        = [[F32.nan]] ∧
      (processBlock floatEnv dryFloat (fun _ _ _ => 0) overflowedState [[1]]).2 ≠ [[1]] := by
  have h0 : dryFloat.wetDry = 0 := by decide!
  have hw : (processChannels floatEnv dryFloat (fun _ _ _ => 0) 0 overflowedState [[1]]).2
      = [[F32.inf false]] := by
    simp only [processChannels, processSamples]
    rw [overflowedState_wet]
  have hb : (processBlock floatEnv dryFloat (fun _ _ _ => 0) overflowedState [[1]]).2
      = [[F32.nan]] := by
    unfold processBlock
    simp only
    rw [hw]
    simp only [List.zipWith_cons_cons, List.zipWith_nil_right]
    rw [mix_dry_float_nan dryFloat 1 (F32.inf false) h0 rfl]
  refine ⟨h0, hw, hb, ?_⟩
  rw [hb]
  decide

/-- C19 (amended): the block `processBlock` returns has the shape of the input block, and its
sample `s` of channel `c` is `(1 - wetDry) * input sample + wetDry * drained sample` in
binary32 arithmetic, the drained samples being the ones the sample loop emits. With
`wetDry = 0` the returned sample is the input sample whenever the drained sample is finite,
and a NaN when the drained sample is an infinity or a NaN; with `wetDry = 1` it is the
drained sample whenever the input sample is finite. -/
theorem wet_dry_mix_finite (E : Env F32) (P : Params F32) (ms : Nat → Nat → Nat → F32)
    (st : State F32) (buffer : List (List F32)) :
    List.Forall₂ (fun dry out => out.length = dry.length) buffer
        (processBlock E P ms st buffer).2 ∧
      (∀ c s, c < buffer.length → s < (buffer.getD c []).length →
        ((processBlock E P ms st buffer).2.getD c []).getD s 0
          = (1 - P.wetDry) * (buffer.getD c []).getD s 0
            + P.wetDry * ((processChannels E P ms 0 st buffer).2.getD c []).getD s 0) ∧
      (P.wetDry = 0 → ∀ c s, c < buffer.length → s < (buffer.getD c []).length →
        ((buffer.getD c []).getD s 0).isValue = true →
        ((((processChannels E P ms 0 st buffer).2.getD c []).getD s 0).isFinite = true →
            ((processBlock E P ms st buffer).2.getD c []).getD s 0
              = (buffer.getD c []).getD s 0) ∧
          ((((processChannels E P ms 0 st buffer).2.getD c []).getD s 0).isFinite = false →
            ((processBlock E P ms st buffer).2.getD c []).getD s 0 = F32.nan)) ∧
      (P.wetDry = 1 → ∀ c s, c < buffer.length → s < (buffer.getD c []).length →
        ((buffer.getD c []).getD s 0).isFinite = true →
        (((processChannels E P ms 0 st buffer).2.getD c []).getD s 0).isValue = true →
        ((processBlock E P ms st buffer).2.getD c []).getD s 0
          = ((processChannels E P ms 0 st buffer).2.getD c []).getD s 0) ∧
      (processBlock E P ms st buffer).1 = (processChannels E P ms 0 st buffer).1 := by
  have hshape := processChannels_shape E P ms buffer 0 st
  have hget : ∀ c s, c < buffer.length → s < (buffer.getD c []).length →
      ((processBlock E P ms st buffer).2.getD c []).getD s 0
        = mix P ((buffer.getD c []).getD s 0)
            (((processChannels E P ms 0 st buffer).2.getD c []).getD s 0) :=
    fun c s hc hs => mixBlock_getD P buffer _ c s hshape hc hs
  refine ⟨mixBlock_shape P buffer _ hshape, hget, ?_, ?_, rfl⟩
  · intro h0 c s hc hs hd
    exact ⟨fun hw => by rw [hget c s hc hs, mix_dry_float P _ _ h0 hd hw],
      fun hw => by rw [hget c s hc hs, mix_dry_float_nan P _ _ h0 hw]⟩
  · intro h1 c s hc hs hd hw
    rw [hget c s hc hs, mix_wet_float P _ _ h1 hd hw]

end NewVerbTk1
